import Mathlib

/-!
Verification of the throttled, cancellable sorting engine of the
`sorting_animations` repository.

The development shallowly embeds the relevant Rust sources:

* `src/array.rs` — the instrumented `ArrayState` (numbers, last-step
  descriptor, comparison/read/write counters) and its accessor methods.
* `src/sorting/sort.rs` — the 19 sorting-algorithm variants, written against
  the gated array operations.  Machine integers (`usize`, `u64`) are modelled
  as `Nat`; Rust indexing panics are modelled by `Option` (`none` = panic);
  data-dependent `while`/`loop` constructs are modelled with an explicit fuel
  parameter, and `for` loops by structurally/well-founded recursive functions.
* `src/sorting/wrapping.rs` — the throttle gate (`ArrayLock::perform_step`,
  `Sorter::tick`/`step`), modelled as a state machine over a pending message
  list; wall-clock time (`Instant::elapsed`) is abstracted by a boolean
  oracle, and the constants `TIME_OUT_CHECK`/`DELAY_TIME` (defined in the
  crate root, which is not part of the sources) are parameters.

Sorting algorithms run on an `ArrayLock` value that wraps the `ArrayState`
together with a ghost trace of the gated calls made so far (the source keeps
only the most recent step descriptor; the cumulative trace is used to state
properties about sequences of gated operations).
-/

namespace SortAnim

/-- `array.rs` `Step`: descriptor of the most recent instrumented operation. -/
inductive Step where
  | comparisonTwo (a b : Nat)
  | comparison (i : Nat)
  | accessTwo (a b : Nat)
  | access (i : Nat)
  | none
  deriving Repr, DecidableEq

/-- `array.rs` `ArrayState`: the sequence being sorted plus instrumentation.
The rendering-only `view` field is omitted. -/
structure ArrayState where
  numbers : List Nat
  step : Step
  comparisons : Nat
  reads : Nat
  writes : Nat
  deriving Repr, DecidableEq

namespace ArrayState

/-- `ArrayState::new` (the `view` argument is dropped): numbers `1..=size`,
no last step, zero counters. -/
def new (size : Nat) : ArrayState :=
  { numbers := List.range' 1 size
    step := Step.none
    comparisons := 0
    reads := 0
    writes := 0 }

/-- `ArrayState::cmp_two`: set the step descriptor, count one comparison and
two reads, and compare the values at the two indices.  An out-of-range index
is a panic, modelled as `none`. -/
def cmp_two (s : ArrayState) (a b : Nat) : Option (Ordering × ArrayState) :=
  match s.numbers[a]?, s.numbers[b]? with
  | some x, some y =>
      some (compare x y,
        { s with step := Step.comparisonTwo a b
                 comparisons := s.comparisons + 1
                 reads := s.reads + 2 })
  | _, _ => Option.none

/-- `ArrayState::cmp`: compare the value at an index with an external value;
one comparison, one read. -/
def cmp (s : ArrayState) (index value : Nat) : Option (Ordering × ArrayState) :=
  match s.numbers[index]? with
  | some x =>
      some (compare x value,
        { s with step := Step.comparison index
                 comparisons := s.comparisons + 1
                 reads := s.reads + 1 })
  | _ => Option.none

/-- `ArrayState::swap`: two reads, two writes, exchange the two values. -/
def swap (s : ArrayState) (a b : Nat) : Option ArrayState :=
  match s.numbers[a]?, s.numbers[b]? with
  | some x, some y =>
      some { s with step := Step.accessTwo a b
                    reads := s.reads + 2
                    writes := s.writes + 2
                    numbers := (s.numbers.set a y).set b x }
  | _, _ => Option.none

/-- `ArrayState::get`: one read. -/
def get (s : ArrayState) (index : Nat) : Option (Nat × ArrayState) :=
  match s.numbers[index]? with
  | some x =>
      some (x, { s with step := Step.access index, reads := s.reads + 1 })
  | _ => Option.none

/-- `ArrayState::set`: one write. -/
def set (s : ArrayState) (index value : Nat) : Option ArrayState :=
  if index < s.numbers.length then
    some { s with step := Step.access index
                  writes := s.writes + 1
                  numbers := s.numbers.set index value }
  else Option.none

/-- `ArrayState::reset_stats`: zero the three counters, touch nothing else. -/
def reset_stats (s : ArrayState) : ArrayState :=
  { s with comparisons := 0, reads := 0, writes := 0 }

/-- `ArrayState::size`. -/
def size (s : ArrayState) : Nat := s.numbers.length

end ArrayState

/-- An instrumented operation together with its arguments, used to describe
sequences of calls into `ArrayState` (claim C7) and the gated-call trace of a
sorting algorithm. Comparison/read results are recorded alongside. -/
inductive Op where
  | cmp_two (a b : Nat) (r : Ordering)
  | cmp (i v : Nat) (r : Ordering)
  | swap (a b : Nat)
  | get (i : Nat) (r : Nat)
  | set (i v : Nat)
  deriving Repr, DecidableEq

/-- An instrumented call (without results): the shape of one request made by a
sorting algorithm against the array. -/
inductive AOp where
  | cmp_two (a b : Nat)
  | cmp (i v : Nat)
  | swap (a b : Nat)
  | get (i : Nat)
  | set (i v : Nat)
  deriving Repr, DecidableEq

namespace AOp

/-- Apply one instrumented call to an `ArrayState`, discarding the returned
value (`none` = index panic). -/
def apply (s : ArrayState) : AOp → Option ArrayState
  | AOp.cmp_two a b => (s.cmp_two a b).map (·.2)
  | AOp.cmp i v => (s.cmp i v).map (·.2)
  | AOp.swap a b => s.swap a b
  | AOp.get i => (s.get i).map (·.2)
  | AOp.set i v => s.set i v

/-- Number of comparison-counter increments declared for one call. -/
def comparisons : AOp → Nat
  | AOp.cmp_two _ _ => 1
  | AOp.cmp _ _ => 1
  | _ => 0

/-- Number of read-counter increments declared for one call. -/
def reads : AOp → Nat
  | AOp.cmp_two _ _ => 2
  | AOp.cmp _ _ => 1
  | AOp.swap _ _ => 2
  | AOp.get _ => 1
  | AOp.set _ _ => 0

/-- Number of write-counter increments declared for one call. -/
def writes : AOp → Nat
  | AOp.swap _ _ => 2
  | AOp.set _ _ => 1
  | _ => 0

end AOp

/-- Run a sequence of instrumented calls. -/
def applyOps (s : ArrayState) : List AOp → Option ArrayState
  | [] => some s
  | op :: rest => (op.apply s).bind (applyOps · rest)

/-- Counter deltas of a single call: each call adds its declared increments and
leaves `numbers` of the state as specified by the operation. -/
theorem AOp.apply_counts (op : AOp) (s s' : ArrayState) (h : op.apply s = some s') :
    s'.comparisons = s.comparisons + op.comparisons ∧
    s'.reads = s.reads + op.reads ∧
    s'.writes = s.writes + op.writes := by
  cases op <;>
    simp only [AOp.apply, ArrayState.cmp_two, ArrayState.cmp, ArrayState.swap,
      ArrayState.get, ArrayState.set] at h <;>
    split at h <;>
    first
    | (cases h; simp [AOp.comparisons, AOp.reads, AOp.writes])
    | simp_all

theorem applyOps_counts (ops : List AOp) (s s' : ArrayState)
    (h : applyOps s ops = some s') :
    s'.comparisons = s.comparisons + (ops.map AOp.comparisons).sum ∧
    s'.reads = s.reads + (ops.map AOp.reads).sum ∧
    s'.writes = s.writes + (ops.map AOp.writes).sum := by
  induction ops generalizing s with
  | nil => simp only [applyOps] at h; cases h; simp
  | cons op rest ih =>
      simp only [applyOps, Option.bind_eq_some] at h
      obtain ⟨s₁, h₁, h₂⟩ := h
      obtain ⟨hc, hr, hw⟩ := AOp.apply_counts op s s₁ h₁
      obtain ⟨hc', hr', hw'⟩ := ih s₁ h₂
      refine ⟨?_, ?_, ?_⟩ <;> simp [hc', hr', hw', hc, hr, hw] <;> omega

/-- Whether a call is a comparison (`cmp_two` or `cmp`). -/
def AOp.isComparison : AOp → Bool
  | AOp.cmp_two _ _ => true
  | AOp.cmp _ _ => true
  | _ => false

theorem comparisons_eq_count (ops : List AOp) :
    (ops.map AOp.comparisons).sum = (ops.filter AOp.isComparison).length := by
  induction ops with
  | nil => rfl
  | cons op rest ih =>
      cases op <;> simp [AOp.comparisons, AOp.isComparison, ih, List.filter] <;> omega

/-- C7: counter accounting on a fresh `ArrayState`.  After any sequence of
instrumented operations, `comparisons` equals the number of `cmp_two` plus
`cmp` calls made; each call adds its declared read/write increments
(`cmp_two`: 2 reads; `cmp`: 1 read; `swap`: 2 reads and 2 writes; `get`:
1 read; `set`: 1 write), so the totals are the sums of the declared
increments; and `reset_stats` zeroes the three counters without altering the
array contents. -/
theorem counters_correct (size : Nat) (ops : List AOp) (s' : ArrayState)
    (h : applyOps (ArrayState.new size) ops = some s') :
    s'.comparisons = (ops.filter AOp.isComparison).length ∧
    s'.reads = (ops.map AOp.reads).sum ∧
    s'.writes = (ops.map AOp.writes).sum ∧
    (∀ (op : AOp) (t t' : ArrayState), op.apply t = some t' →
      t'.comparisons = t.comparisons + op.comparisons ∧
      t'.reads = t.reads + op.reads ∧
      t'.writes = t.writes + op.writes) ∧
    s'.reset_stats.comparisons = 0 ∧
    s'.reset_stats.reads = 0 ∧
    s'.reset_stats.writes = 0 ∧
    s'.reset_stats.numbers = s'.numbers := by
  obtain ⟨hc, hr, hw⟩ := applyOps_counts ops (ArrayState.new size) s' h
  refine ⟨?_, ?_, ?_, fun op t t' ht => AOp.apply_counts op t t' ht, rfl, rfl, rfl, rfl⟩
  · rw [hc, comparisons_eq_count]; simp [ArrayState.new]
  · rw [hr]; simp [ArrayState.new]
  · rw [hw]; simp [ArrayState.new]

/-- Witness for `counters_correct` at a concrete operation sequence. -/
theorem counters_correct_witness :
    applyOps (ArrayState.new 3)
        [AOp.cmp_two 0 1, AOp.cmp 2 5, AOp.swap 0 2, AOp.get 1, AOp.set 1 9] =
      some { numbers := [3, 9, 1], step := Step.access 1, comparisons := 2,
             reads := 6, writes := 3 } ∧
    ({ numbers := [3, 9, 1], step := Step.access 1, comparisons := 2,
       reads := 6, writes := 3 } : ArrayState).comparisons = 2 ∧
    ({ numbers := [3, 9, 1], step := Step.access 1, comparisons := 2,
       reads := 6, writes := 3 } : ArrayState).reset_stats.numbers = [3, 9, 1] := by
  refine ⟨by decide, ?_, ?_⟩
  · exact (counters_correct 3
      [AOp.cmp_two 0 1, AOp.cmp 2 5, AOp.swap 0 2, AOp.get 1, AOp.set 1 9]
      _ (by decide)).1
  · exact (counters_correct 3
      [AOp.cmp_two 0 1, AOp.cmp 2 5, AOp.swap 0 2, AOp.get 1, AOp.set 1 9]
      _ (by decide)).2.2.2.2.2.2.2

/-!
## The gated array handle used by the sorting algorithms

`wrapping.rs` wraps every `ArrayState` accessor in `ArrayLock::perform_step`.
For the algorithm-level claims the budget is always granted and no `Kill` is
sent, so each gated call reduces to the underlying `ArrayState` operation;
the wrapper below performs that operation and additionally records the call
in a ghost trace (the cumulative list of gated operations made so far), which
is what the trace-shaped claims quantify over.  The scheduling behaviour of
`perform_step` (budget, messages, lock) is modelled separately further down.
-/

/-- The algorithms' handle to the array: the instrumented state plus the ghost
trace of gated calls. -/
structure ArrayLock where
  arr : ArrayState
  trace : List Op
  deriving Repr, DecidableEq

namespace ArrayLock

/-- The numbers currently held by the array. -/
def nums (lk : ArrayLock) : List Nat := lk.arr.numbers

/-- Gated `cmp_two`. -/
def cmp_two (lk : ArrayLock) (a b : Nat) : Option (Ordering × ArrayLock) :=
  (lk.arr.cmp_two a b).map fun (r, s) =>
    (r, ⟨s, lk.trace ++ [Op.cmp_two a b r]⟩)

/-- Gated `cmp`. -/
def cmp (lk : ArrayLock) (index value : Nat) : Option (Ordering × ArrayLock) :=
  (lk.arr.cmp index value).map fun (r, s) =>
    (r, ⟨s, lk.trace ++ [Op.cmp index value r]⟩)

/-- Gated `swap`. -/
def swap (lk : ArrayLock) (a b : Nat) : Option ArrayLock :=
  (lk.arr.swap a b).map fun s => ⟨s, lk.trace ++ [Op.swap a b]⟩

/-- Gated `get`. -/
def get (lk : ArrayLock) (index : Nat) : Option (Nat × ArrayLock) :=
  (lk.arr.get index).map fun (r, s) =>
    (r, ⟨s, lk.trace ++ [Op.get index r]⟩)

/-- Gated `set`. -/
def set (lk : ArrayLock) (index value : Nat) : Option ArrayLock :=
  (lk.arr.set index value).map fun s => ⟨s, lk.trace ++ [Op.set index value]⟩

end ArrayLock

/-- Exchange the values at two indices of a list (the effect of
`Vec::swap`). -/
def swapL (a b : Nat) (l : List Nat) : List Nat :=
  (l.set a (l.getD b 0)).set b (l.getD a 0)

theorem ArrayLock.cmp_two_spec (lk : ArrayLock) (a b : Nat)
    (ha : a < lk.nums.length) (hb : b < lk.nums.length) :
    lk.cmp_two a b =
      some (compare (lk.nums.getD a 0) (lk.nums.getD b 0),
        ⟨{ lk.arr with step := Step.comparisonTwo a b
                       comparisons := lk.arr.comparisons + 1
                       reads := lk.arr.reads + 2 },
         lk.trace ++ [Op.cmp_two a b (compare (lk.nums.getD a 0) (lk.nums.getD b 0))]⟩) := by
  unfold ArrayLock.cmp_two ArrayState.cmp_two
  have hga : lk.arr.numbers[a]? = some (lk.nums.getD a 0) := by
    simp [ArrayLock.nums] at ha ⊢
    simp [List.getElem?_eq_getElem ha, List.getD_eq_getElem _ _ ha]
  have hgb : lk.arr.numbers[b]? = some (lk.nums.getD b 0) := by
    simp [ArrayLock.nums] at hb ⊢
    simp [List.getElem?_eq_getElem hb, List.getD_eq_getElem _ _ hb]
  rw [hga, hgb]
  rfl

theorem ArrayLock.cmp_spec (lk : ArrayLock) (i v : Nat)
    (hi : i < lk.nums.length) :
    lk.cmp i v =
      some (compare (lk.nums.getD i 0) v,
        ⟨{ lk.arr with step := Step.comparison i
                       comparisons := lk.arr.comparisons + 1
                       reads := lk.arr.reads + 1 },
         lk.trace ++ [Op.cmp i v (compare (lk.nums.getD i 0) v)]⟩) := by
  unfold ArrayLock.cmp ArrayState.cmp
  have hgi : lk.arr.numbers[i]? = some (lk.nums.getD i 0) := by
    simp [ArrayLock.nums] at hi ⊢
    simp [List.getElem?_eq_getElem hi, List.getD_eq_getElem _ _ hi]
  rw [hgi]
  rfl

theorem ArrayLock.swap_spec (lk : ArrayLock) (a b : Nat)
    (ha : a < lk.nums.length) (hb : b < lk.nums.length) :
    lk.swap a b =
      some ⟨{ lk.arr with step := Step.accessTwo a b
                          reads := lk.arr.reads + 2
                          writes := lk.arr.writes + 2
                          numbers := swapL a b lk.nums },
            lk.trace ++ [Op.swap a b]⟩ := by
  unfold ArrayLock.swap ArrayState.swap
  have hga : lk.arr.numbers[a]? = some (lk.nums.getD a 0) := by
    simp [ArrayLock.nums] at ha ⊢
    simp [List.getElem?_eq_getElem ha, List.getD_eq_getElem _ _ ha]
  have hgb : lk.arr.numbers[b]? = some (lk.nums.getD b 0) := by
    simp [ArrayLock.nums] at hb ⊢
    simp [List.getElem?_eq_getElem hb, List.getD_eq_getElem _ _ hb]
  rw [hga, hgb]
  simp [swapL, ArrayLock.nums]

theorem ArrayLock.get_spec (lk : ArrayLock) (i : Nat)
    (hi : i < lk.nums.length) :
    lk.get i =
      some (lk.nums.getD i 0,
        ⟨{ lk.arr with step := Step.access i, reads := lk.arr.reads + 1 },
         lk.trace ++ [Op.get i (lk.nums.getD i 0)]⟩) := by
  unfold ArrayLock.get ArrayState.get
  have hgi : lk.arr.numbers[i]? = some (lk.nums.getD i 0) := by
    simp [ArrayLock.nums] at hi ⊢
    simp [List.getElem?_eq_getElem hi, List.getD_eq_getElem _ _ hi]
  rw [hgi]
  rfl

theorem ArrayLock.set_spec (lk : ArrayLock) (i v : Nat)
    (hi : i < lk.nums.length) :
    lk.set i v =
      some ⟨{ lk.arr with step := Step.access i
                          writes := lk.arr.writes + 1
                          numbers := lk.nums.set i v },
            lk.trace ++ [Op.set i v]⟩ := by
  unfold ArrayLock.set ArrayState.set
  simp [ArrayLock.nums] at hi
  simp [hi, ArrayLock.nums]

@[simp] theorem nums_mk (s : ArrayState) (t : List Op) :
    (ArrayLock.mk s t).nums = s.numbers := rfl

theorem ArrayLock.cmp_two_nums (lk : ArrayLock) (a b : Nat)
    (ha : a < lk.nums.length) (hb : b < lk.nums.length) :
    ∃ lk', lk.cmp_two a b =
        some (compare (lk.nums.getD a 0) (lk.nums.getD b 0), lk') ∧
      lk'.nums = lk.nums :=
  ⟨_, ArrayLock.cmp_two_spec lk a b ha hb, rfl⟩

theorem ArrayLock.cmp_nums (lk : ArrayLock) (i v : Nat)
    (hi : i < lk.nums.length) :
    ∃ lk', lk.cmp i v = some (compare (lk.nums.getD i 0) v, lk') ∧
      lk'.nums = lk.nums :=
  ⟨_, ArrayLock.cmp_spec lk i v hi, rfl⟩

theorem ArrayLock.swap_nums (lk : ArrayLock) (a b : Nat)
    (ha : a < lk.nums.length) (hb : b < lk.nums.length) :
    ∃ lk', lk.swap a b = some lk' ∧ lk'.nums = swapL a b lk.nums :=
  ⟨_, ArrayLock.swap_spec lk a b ha hb, rfl⟩

theorem ArrayLock.get_nums (lk : ArrayLock) (i : Nat)
    (hi : i < lk.nums.length) :
    ∃ lk', lk.get i = some (lk.nums.getD i 0, lk') ∧ lk'.nums = lk.nums :=
  ⟨_, ArrayLock.get_spec lk i hi, rfl⟩

theorem ArrayLock.set_nums (lk : ArrayLock) (i v : Nat)
    (hi : i < lk.nums.length) :
    ∃ lk', lk.set i v = some lk' ∧ lk'.nums = lk.nums.set i v :=
  ⟨_, ArrayLock.set_spec lk i v hi, rfl⟩

@[simp] theorem swapL_length (a b : Nat) (l : List Nat) :
    (swapL a b l).length = l.length := by
  simp [swapL]

/-!
## The sorting algorithms of `sorting/sort.rs`

Each Rust `for idx in a..b` loop is lowered to a recursive function over the
pair (remaining iteration count, current index); `while`/`loop` constructs
whose termination is data-dependent take an explicit fuel argument
(`none` on exhaustion) and are invoked with a fuel large enough that the
correctness proofs show it is never exhausted.  `usize`/`u64` arithmetic is
`Nat` arithmetic; the only subtraction that can underflow in the source,
`v - 1` in `counting_sort`, is modelled as a panic (`none`) when `v = 0`.
Each algorithm returns `none` exactly when the source panics (or fuel runs
out) and `some` of the final lock otherwise.
-/

/-- Common body of the forward adjacent compare-swap passes of `bubble_sort`
(`for j in 0..size-i`) and `shaker_sort` (`for j in i-1..size-i`): compare
`j, j+1`, swap when greater, clearing the `abort` flag. -/
def cmp_swap_pass (cnt j : Nat) (abort : Bool) (lk : ArrayLock) :
    Option (Bool × ArrayLock) :=
  match cnt with
  | 0 => some (abort, lk)
  | c + 1 => do
      let (r, lk) ← lk.cmp_two j (j + 1)
      if r = Ordering.gt then do
        let lk ← lk.swap j (j + 1)
        cmp_swap_pass c (j + 1) false lk
      else cmp_swap_pass c (j + 1) abort lk

/-- `Sort::bubble_sort`, outer loop `for i in 1..size` with early exit. -/
def bubble_outer (size cnt i : Nat) (lk : ArrayLock) : Option ArrayLock :=
  match cnt with
  | 0 => some lk
  | c + 1 => do
      let (abort, lk) ← cmp_swap_pass (size - i) 0 true lk
      if abort then some lk
      else bubble_outer size c (i + 1) lk

/-- `Sort::bubble_sort`. -/
def bubble_sort (lk : ArrayLock) (size : Nat) : Option ArrayLock :=
  bubble_outer size (size - 1) 1 lk

/-- `Sort::shaker_sort`, backward pass `for j in (i..size-i).rev()`. -/
def shaker_backward (cnt j : Nat) (abort : Bool) (lk : ArrayLock) :
    Option (Bool × ArrayLock) :=
  match cnt with
  | 0 => some (abort, lk)
  | c + 1 => do
      let (r, lk) ← lk.cmp_two j (j - 1)
      if r = Ordering.lt then do
        let lk ← lk.swap j (j - 1)
        shaker_backward c (j - 1) false lk
      else shaker_backward c (j - 1) abort lk

/-- `Sort::shaker_sort`, outer loop `for i in 1..size/2+1`. -/
def shaker_outer (size cnt i : Nat) (lk : ArrayLock) : Option ArrayLock :=
  match cnt with
  | 0 => some lk
  | c + 1 => do
      let (abort, lk) ← cmp_swap_pass ((size - i) - (i - 1)) (i - 1) true lk
      if abort then some lk else do
        let (abort, lk) ← shaker_backward ((size - i) - i) (size - i - 1) true lk
        if abort then some lk
        else shaker_outer size c (i + 1) lk

/-- `Sort::shaker_sort`. -/
def shaker_sort (lk : ArrayLock) (size : Nat) : Option ArrayLock :=
  shaker_outer size (size / 2) 1 lk

/-- `Sort::exchange_sort`, inner loop `for j in i+1..size`. -/
def exchange_inner (cnt j i : Nat) (lk : ArrayLock) : Option ArrayLock :=
  match cnt with
  | 0 => some lk
  | c + 1 => do
      let (r, lk) ← lk.cmp_two i j
      if r = Ordering.gt then do
        let lk ← lk.swap i j
        exchange_inner c (j + 1) i lk
      else exchange_inner c (j + 1) i lk

/-- `Sort::exchange_sort`, outer loop `for i in 0..size-1`. -/
def exchange_outer (size cnt i : Nat) (lk : ArrayLock) : Option ArrayLock :=
  match cnt with
  | 0 => some lk
  | c + 1 => do
      let lk ← exchange_inner (size - (i + 1)) (i + 1) i lk
      exchange_outer size c (i + 1) lk

/-- `Sort::exchange_sort`. -/
def exchange_sort (lk : ArrayLock) (size : Nat) : Option ArrayLock :=
  exchange_outer size (size - 1) 0 lk

/-- `Sort::cycle_sort`, rank count `for j in 0..size` (skipping `j == i`,
counting values less than `current`). -/
def cycle_count (cnt j i current index : Nat) (lk : ArrayLock) :
    Option (Nat × ArrayLock) :=
  match cnt with
  | 0 => some (index, lk)
  | c + 1 =>
      if j ≠ i then do
        let (r, lk) ← lk.cmp j current
        if r = Ordering.lt then cycle_count c (j + 1) i current (index + 1) lk
        else cycle_count c (j + 1) i current index lk
      else cycle_count c (j + 1) i current index lk

/-- `Sort::cycle_sort`, the inner `loop` that rotates one cycle; fueled. -/
def cycle_loop (fuel : Nat) (size i current : Nat) (buf : List Bool)
    (lk : ArrayLock) : Option (List Bool × ArrayLock) :=
  match fuel with
  | 0 => Option.none
  | f + 1 => do
      let (index, lk) ← cycle_count size 0 i current 0 lk
      if index ≠ i then do
        let (new, lk) ← lk.get index
        let lk ← lk.set index current
        cycle_loop f size i new (buf.set index true) lk
      else do
        let lk ← lk.set i current
        some (buf, lk)

/-- `Sort::cycle_sort`, outer loop `for i in 0..size-1` with the `buf`
visited flags. -/
def cycle_outer (size cnt i : Nat) (buf : List Bool) (lk : ArrayLock) :
    Option ArrayLock :=
  match cnt with
  | 0 => some lk
  | c + 1 =>
      if buf.getD i false then cycle_outer size c (i + 1) buf lk
      else do
        let (current, lk) ← lk.get i
        let (buf, lk) ← cycle_loop (size + 1) size i current buf lk
        cycle_outer size c (i + 1) buf lk

/-- `Sort::cycle_sort`. -/
def cycle_sort (lk : ArrayLock) (size : Nat) : Option ArrayLock :=
  cycle_outer size (size - 1) 0 (List.replicate size false) lk

/-- The comb-sort gap shrink `(gap as f32 / 1.3) as usize`, modelled as the
exact rational division `gap * 10 / 13` (`SHRINK = 1.3`; for every `usize`
gap the truncated `f32` quotient agrees with a strictly-smaller-than-`gap`
value, which is all the proofs use). -/
def comb_shrink (gap : Nat) : Nat := gap * 10 / 13

/-- `Sort::comb_sort`, pass `for i in 0..size-gap`. -/
def comb_pass (cnt i gap : Nat) (sorted : Bool) (lk : ArrayLock) :
    Option (Bool × ArrayLock) :=
  match cnt with
  | 0 => some (sorted, lk)
  | c + 1 => do
      let (r, lk) ← lk.cmp_two i (i + gap)
      if r = Ordering.gt then do
        let lk ← lk.swap i (i + gap)
        comb_pass c (i + 1) gap false lk
      else comb_pass c (i + 1) gap sorted lk

/-- `Sort::comb_sort`, the `while !sorted` loop; fueled. -/
def comb_loop (fuel gap size : Nat) (lk : ArrayLock) : Option ArrayLock :=
  match fuel with
  | 0 => Option.none
  | f + 1 =>
      let g := comb_shrink gap
      let gs := if g ≤ 1 then (1, true) else (g, false)
      do
        let (sorted, lk) ← comb_pass (size - gs.1) 0 gs.1 gs.2 lk
        if sorted then some lk
        else comb_loop f gs.1 size lk

/-- `Sort::comb_sort`. -/
def comb_sort (lk : ArrayLock) (size : Nat) : Option ArrayLock :=
  comb_loop (size * size + size + 2) size size lk

/-- `Sort::odd_even_sort`, pass `for i in (start..size-1).step_by(2)`. -/
def odd_even_pass (cnt i : Nat) (sorted : Bool) (lk : ArrayLock) :
    Option (Bool × ArrayLock) :=
  match cnt with
  | 0 => some (sorted, lk)
  | c + 1 => do
      let (r, lk) ← lk.cmp_two i (i + 1)
      if r = Ordering.gt then do
        let lk ← lk.swap i (i + 1)
        odd_even_pass c (i + 2) false lk
      else odd_even_pass c (i + 2) sorted lk

/-- `Sort::odd_even_sort`, the `while !sorted` loop (`for start in 0..=1`
unrolled); fueled. -/
def odd_even_loop (fuel size : Nat) (lk : ArrayLock) : Option ArrayLock :=
  match fuel with
  | 0 => Option.none
  | f + 1 => do
      let (sorted, lk) ← odd_even_pass (size / 2) 0 true lk
      let (sorted, lk) ← odd_even_pass ((size - 1) / 2) 1 sorted lk
      if sorted then some lk
      else odd_even_loop f size lk

/-- `Sort::odd_even_sort`. -/
def odd_even_sort (lk : ArrayLock) (size : Nat) : Option ArrayLock :=
  odd_even_loop (size * size + 2) size lk

/-- `Sort::insertion_sort`, inner shift
`while j > 0 && cmp(j-1, current).is_gt()`. -/
def insertion_shift (j current : Nat) (lk : ArrayLock) :
    Option (Nat × ArrayLock) :=
  match j with
  | 0 => some (0, lk)
  | jj + 1 => do
      let (r, lk) ← lk.cmp jj current
      if r = Ordering.gt then do
        let (x, lk) ← lk.get jj
        let lk ← lk.set (jj + 1) x
        insertion_shift jj current lk
      else some (jj + 1, lk)

/-- `Sort::insertion_sort`, outer loop `for i in 1..size`. -/
def insertion_outer (cnt i : Nat) (lk : ArrayLock) : Option ArrayLock :=
  match cnt with
  | 0 => some lk
  | c + 1 => do
      let (current, lk) ← lk.get i
      let (j, lk) ← insertion_shift i current lk
      let lk ← lk.set j current
      insertion_outer c (i + 1) lk

/-- `Sort::insertion_sort`. -/
def insertion_sort (lk : ArrayLock) (size : Nat) : Option ArrayLock :=
  insertion_outer (size - 1) 1 lk

/-- `Sort::shell_sort`, inner shift `while j >= gap && cmp(j-gap, tmp).is_gt()`;
fueled (each iteration decreases `j` by `gap ≥ 1`, so fuel `j + 1` suffices). -/
def shell_shift (fuel j gap tmp : Nat) (lk : ArrayLock) :
    Option (Nat × ArrayLock) :=
  match fuel with
  | 0 => Option.none
  | f + 1 =>
      if gap ≤ j then do
        let (r, lk) ← lk.cmp (j - gap) tmp
        if r = Ordering.gt then do
          let (x, lk) ← lk.get (j - gap)
          let lk ← lk.set j x
          shell_shift f (j - gap) gap tmp lk
        else some (j, lk)
      else some (j, lk)

/-- `Sort::shell_sort`, pass `for i in gap..size`. -/
def shell_pass (cnt i gap : Nat) (lk : ArrayLock) : Option ArrayLock :=
  match cnt with
  | 0 => some lk
  | c + 1 => do
      let (tmp, lk) ← lk.get i
      let (j, lk) ← shell_shift (i + 1) i gap tmp lk
      let lk ← lk.set j tmp
      shell_pass c (i + 1) gap lk

/-- `Sort::shell_sort`, gap loop `while gap > 1`. -/
def shell_loop (gap size : Nat) (lk : ArrayLock) : Option ArrayLock :=
  if h : gap > 1 then
    let g := max 1 (gap / 2)
    do
      let lk ← shell_pass (size - g) g g lk
      shell_loop g size lk
  else some lk
termination_by gap
decreasing_by omega

/-- `Sort::shell_sort`. -/
def shell_sort (lk : ArrayLock) (size : Nat) : Option ArrayLock :=
  shell_loop size size lk

/-- `Sort::selection_sort`, scan `for j in i+1..size` tracking the minimum. -/
def selection_find (cnt j mn : Nat) (lk : ArrayLock) :
    Option (Nat × ArrayLock) :=
  match cnt with
  | 0 => some (mn, lk)
  | c + 1 => do
      let (r, lk) ← lk.cmp_two mn j
      if r = Ordering.gt then selection_find c (j + 1) j lk
      else selection_find c (j + 1) mn lk

/-- `Sort::selection_sort`, outer loop `for i in 0..size-1`. -/
def selection_outer (size cnt i : Nat) (lk : ArrayLock) : Option ArrayLock :=
  match cnt with
  | 0 => some lk
  | c + 1 => do
      let (mn, lk) ← selection_find (size - (i + 1)) (i + 1) i lk
      let lk ← (if mn ≠ i then lk.swap mn i else some lk)
      selection_outer size c (i + 1) lk

/-- `Sort::selection_sort`. -/
def selection_sort (lk : ArrayLock) (size : Nat) : Option ArrayLock :=
  selection_outer size (size - 1) 0 lk

/-- `Sort::double_selection_sort`, scan `for j in (i+1..size-i-1).rev()`
tracking the maximum. -/
def dsel_find_max (cnt j mx : Nat) (lk : ArrayLock) :
    Option (Nat × ArrayLock) :=
  match cnt with
  | 0 => some (mx, lk)
  | c + 1 => do
      let (r, lk) ← lk.cmp_two mx j
      if r = Ordering.lt then dsel_find_max c (j - 1) j lk
      else dsel_find_max c (j - 1) mx lk

/-- `Sort::double_selection_sort`, outer loop `for i in 0..size/2`. -/
def dsel_outer (size cnt i : Nat) (lk : ArrayLock) : Option ArrayLock :=
  match cnt with
  | 0 => some lk
  | c + 1 => do
      let (mn, lk) ← selection_find ((size - i) - (i + 1)) (i + 1) i lk
      let lk ← (if mn ≠ i then lk.swap mn i else some lk)
      let (mx, lk) ← dsel_find_max ((size - i - 1) - (i + 1)) (size - i - 2)
        (size - i - 1) lk
      let lk ← (if mx ≠ size - i - 1 then lk.swap mx (size - i - 1) else some lk)
      dsel_outer size c (i + 1) lk

/-- `Sort::double_selection_sort`. -/
def double_selection_sort (lk : ArrayLock) (size : Nat) : Option ArrayLock :=
  dsel_outer size (size / 2) 0 lk

/-- Write a buffer back into the array, `for (i, v) in tmp.iter().enumerate()
{ set(start + i, v) }` (the final loops of `strand_sort` and
`merge_sort`). -/
def write_back (i : Nat) (tmp : List Nat) (lk : ArrayLock) :
    Option ArrayLock :=
  match tmp with
  | [] => some lk
  | v :: rest => do
      let lk ← lk.set i v
      write_back (i + 1) rest lk

/-- `Sort::strand_sort`, strand building `for j in index+1..size`. -/
def strand_build (cnt j index len : Nat) (lk : ArrayLock) :
    Option (Nat × ArrayLock) :=
  match cnt with
  | 0 => some (len, lk)
  | c + 1 => do
      let (r, lk) ← lk.cmp_two (index + len - 1) j
      if r = Ordering.lt ∧ j ≠ index + len then do
        let lk ← lk.swap j (index + len)
        strand_build c (j + 1) index (len + 1) lk
      else strand_build c (j + 1) index len lk

/-- `Sort::strand_sort`, the merge of the sorted prefix with the strand into
`tmp` (`for _ in 0..index`). -/
def strand_merge (cnt old_index len x y : Nat) (tmp : List Nat)
    (lk : ArrayLock) : Option (List Nat × ArrayLock) :=
  match cnt with
  | 0 => some (tmp, lk)
  | c + 1 =>
      if old_index ≤ x then do
        let (v, lk) ← lk.get (old_index + y)
        strand_merge c old_index len x (y + 1) (tmp ++ [v]) lk
      else if y < len then do
        let (r, lk) ← lk.cmp_two (old_index + y) x
        if r = Ordering.lt then do
          let (v, lk) ← lk.get (old_index + y)
          strand_merge c old_index len x (y + 1) (tmp ++ [v]) lk
        else do
          let (v, lk) ← lk.get x
          strand_merge c old_index len (x + 1) y (tmp ++ [v]) lk
      else do
        let (v, lk) ← lk.get x
        strand_merge c old_index len (x + 1) y (tmp ++ [v]) lk

/-- `Sort::strand_sort`, the `while index < size` loop; fueled (each round
increases `index` by `len ≥ 1`, so fuel `size + 1` suffices). -/
def strand_loop (fuel size index : Nat) (lk : ArrayLock) : Option ArrayLock :=
  match fuel with
  | 0 => Option.none
  | f + 1 =>
      if index < size then do
        let (len, lk) ← strand_build (size - (index + 1)) (index + 1) index 1 lk
        let (tmp, lk) ← strand_merge (index + len) index len 0 0 [] lk
        let lk ← write_back 0 tmp lk
        strand_loop f size (index + len) lk
      else some lk

/-- `Sort::strand_sort`. -/
def strand_sort (lk : ArrayLock) (size : Nat) : Option ArrayLock :=
  strand_loop (size + 1) size 0 lk

/-- `Sort::stooge_sort`. -/
def stooge_sort (start end_ : Nat) (lk : ArrayLock) : Option ArrayLock :=
  if end_ = start + 1 then do
    let (r, lk) ← lk.cmp_two start end_
    if r = Ordering.gt then lk.swap start end_ else some lk
  else if h : end_ > start + 1 then
    let third := (end_ - start + 1) / 3
    do
      let lk ← stooge_sort start (end_ - third) lk
      let lk ← stooge_sort (start + third) end_ lk
      stooge_sort start (end_ - third) lk
  else some lk
termination_by end_ - start
decreasing_by all_goals omega

/-- `Sort::slow_sort`. -/
def slow_sort (start end_ : Nat) (lk : ArrayLock) : Option ArrayLock :=
  if h : start < end_ then do
    let lk ← slow_sort start ((start + end_) / 2) lk
    let lk ← slow_sort ((start + end_) / 2 + 1) end_ lk
    let (r, lk) ← lk.cmp_two ((start + end_) / 2) end_
    let lk ← (if r = Ordering.gt then lk.swap ((start + end_) / 2) end_ else some lk)
    slow_sort start (end_ - 1) lk
  else some lk
termination_by end_ - start
decreasing_by all_goals omega

/-- `Sort::quick_sort`, left scan `while l < end && cmp_two(l, end).is_lt()`;
fueled (`end - l + 1` suffices). -/
def quick_left (fuel l end_ : Nat) (lk : ArrayLock) :
    Option (Nat × ArrayLock) :=
  match fuel with
  | 0 => Option.none
  | f + 1 =>
      if l < end_ then do
        let (r, lk) ← lk.cmp_two l end_
        if r = Ordering.lt then quick_left f (l + 1) end_ lk
        else some (l, lk)
      else some (l, lk)

/-- `Sort::quick_sort`, right scan `while r > start && cmp_two(r, end).is_gt()`;
fueled (`r - start + 1` suffices). -/
def quick_right (fuel r start end_ : Nat) (lk : ArrayLock) :
    Option (Nat × ArrayLock) :=
  match fuel with
  | 0 => Option.none
  | f + 1 =>
      if start < r then do
        let (rr, lk) ← lk.cmp_two r end_
        if rr = Ordering.gt then quick_right f (r - 1) start end_ lk
        else some (r, lk)
      else some (r, lk)

/-- `Sort::quick_sort`, partition loop `while l < r`; fueled. -/
def quick_part (fuel start end_ l r : Nat) (lk : ArrayLock) :
    Option (Nat × ArrayLock) :=
  match fuel with
  | 0 => Option.none
  | f + 1 =>
      if l < r then do
        let (l, lk) ← quick_left (end_ - l + 1) l end_ lk
        let (r, lk) ← quick_right (r - start + 1) r start end_ lk
        if l < r then do
          let lk ← lk.swap l r
          quick_part f start end_ l r lk
        else some (l, lk)
      else some (l, lk)

/-- `Sort::quick_sort`; the recursion is fueled (depth `end - start + 1`
suffices), and the random generator argument is threaded through untouched,
as in the source (it is never sampled). -/
def quick_sort (fuel : Nat) (start end_ : Nat) (rng : Nat) (lk : ArrayLock) :
    Option ArrayLock :=
  match fuel with
  | 0 => Option.none
  | f + 1 =>
      if end_ ≤ start then some lk
      else do
        let (l, lk) ← quick_part (end_ - start + 2) start end_ start (end_ - 1) lk
        let (r2, lk) ← lk.cmp_two l end_
        let lk ← (if r2 = Ordering.gt then lk.swap l end_ else some lk)
        let lk ← (if start < l then quick_sort f start (l - 1) rng lk else some lk)
        if l < end_ then quick_sort f (l + 1) end_ rng lk else some lk

/-- `Sort::merge_sort`, the reading half of the merge
(`while tmp.len() < tmp.capacity()`). -/
def merge_read (cnt l r m end_ : Nat) (tmp : List Nat) (lk : ArrayLock) :
    Option (List Nat × ArrayLock) :=
  match cnt with
  | 0 => some (tmp, lk)
  | c + 1 =>
      if end_ < r then do
        let (v, lk) ← lk.get l
        merge_read c (l + 1) r m end_ (tmp ++ [v]) lk
      else if l ≤ m then do
        let (rr, lk) ← lk.cmp_two l r
        if rr = Ordering.lt then do
          let (v, lk) ← lk.get l
          merge_read c (l + 1) r m end_ (tmp ++ [v]) lk
        else do
          let (v, lk) ← lk.get r
          merge_read c l (r + 1) m end_ (tmp ++ [v]) lk
      else do
        let (v, lk) ← lk.get r
        merge_read c l (r + 1) m end_ (tmp ++ [v]) lk

/-- `Sort::merge_sort`. -/
def merge_sort (start end_ : Nat) (lk : ArrayLock) : Option ArrayLock :=
  if end_ = start + 1 then do
    let (r, lk) ← lk.cmp_two start end_
    if r = Ordering.gt then lk.swap start end_ else some lk
  else if h : end_ > start + 1 then do
    let lk ← merge_sort start ((start + end_) / 2) lk
    let lk ← merge_sort ((start + end_) / 2 + 1) end_ lk
    let (tmp, lk) ← merge_read (end_ - start + 1) start ((start + end_) / 2 + 1)
      ((start + end_) / 2) end_ [] lk
    write_back start tmp lk
  else some lk
termination_by end_ - start
decreasing_by all_goals omega

/-- `Sort::heapify_down`; fueled (the index strictly increases and is bounded
by `max`, so fuel `max + 1` suffices). -/
def heapify_down (fuel index max_ : Nat) (lk : ArrayLock) : Option ArrayLock :=
  match fuel with
  | 0 => Option.none
  | f + 1 =>
      if 2 * index + 1 ≤ max_ then do
        let (tmp_max, lk) ←
          (if 2 * index + 2 ≤ max_ then do
            let (r, lk) ← lk.cmp_two (2 * index + 1) (2 * index + 2)
            if r = Ordering.lt then some (2 * index + 2, lk)
            else some (2 * index + 1, lk)
          else some (2 * index + 1, lk))
        let (r, lk) ← lk.cmp_two index tmp_max
        if r = Ordering.lt then do
          let lk ← lk.swap index tmp_max
          heapify_down f tmp_max max_ lk
        else some lk
      else some lk

/-- `Sort::heap_sort`, heap construction `for i in (0..=max/2).rev()`. -/
def heap_build (cnt i max_ : Nat) (lk : ArrayLock) : Option ArrayLock :=
  match cnt with
  | 0 => some lk
  | c + 1 => do
      let lk ← heapify_down (max_ + 1) i max_ lk
      heap_build c (i - 1) max_ lk

/-- `Sort::heap_sort`, extraction `for i in (1..=max).rev()`. -/
def heap_extract (cnt i : Nat) (lk : ArrayLock) : Option ArrayLock :=
  match cnt with
  | 0 => some lk
  | c + 1 => do
      let lk ← lk.swap 0 i
      let lk ← heapify_down ((i - 1) + 1) 0 (i - 1) lk
      heap_extract c (i - 1) lk

/-- `Sort::heap_sort`. -/
def heap_sort (max_ : Nat) (lk : ArrayLock) : Option ArrayLock := do
  let lk ← heap_build (max_ / 2 + 1) (max_ / 2) max_ lk
  heap_extract max_ max_ lk

/-- `Sort::counting_sort`, first loop: read every element, record it in
`vals`, count it in `keys`.  `v - 1` with `v = 0` and an out-of-range bucket
index are panics. -/
def counting_read (cnt i : Nat) (keys vals : List Nat)
    (transform : Nat → Nat) (lk : ArrayLock) :
    Option (List Nat × List Nat × ArrayLock) :=
  match cnt with
  | 0 => some (keys, vals, lk)
  | c + 1 => do
      let (v, lk) ← lk.get i
      if v = 0 then Option.none else
      match keys[transform (v - 1)]? with
      | some k =>
          counting_read c (i + 1) (keys.set (transform (v - 1)) (k + 1))
            (vals ++ [v]) transform lk
      | _ => Option.none

/-- `Sort::counting_sort`, prefix sums `for i in 1..buckets`. -/
def counting_sums (cnt i : Nat) (keys : List Nat) : Option (List Nat) :=
  match cnt with
  | 0 => some keys
  | c + 1 =>
      match keys[i]?, keys[i - 1]? with
      | some a, some b => counting_sums c (i + 1) (keys.set i (a + b))
      | _, _ => Option.none

/-- `Sort::counting_sort`, placement loop `for v in vals` (after the
reversal): decrement the bucket, write the value at the bucket position.
Bucket underflow (`keys[key] -= 1` at zero) and out-of-range indices are
panics. -/
def counting_place (vals keys : List Nat) (transform : Nat → Nat)
    (lk : ArrayLock) : Option ArrayLock :=
  match vals with
  | [] => some lk
  | v :: rest =>
      if v = 0 then Option.none else
      match keys[transform (v - 1)]? with
      | some k =>
          if k = 0 then Option.none else do
            let lk ← lk.set (k - 1) v
            counting_place rest (keys.set (transform (v - 1)) (k - 1)) transform lk
      | _ => Option.none

/-- `Sort::counting_sort`. -/
def counting_sort (size buckets : Nat) (transform : Nat → Nat)
    (lk : ArrayLock) : Option ArrayLock := do
  let (keys, vals, lk) ← counting_read size 0 (List.replicate buckets 0) []
    transform lk
  let keys ← counting_sums (buckets - 1) 1 keys
  counting_place vals.reverse keys transform lk

/-- `Sort::radix_sort`, the `while size / i > 0` digit loop; fueled
(`i` is multiplied by `base ≥ 2` each round, so fuel `size + 1` suffices). -/
def radix_loop (fuel i size base : Nat) (lk : ArrayLock) : Option ArrayLock :=
  match fuel with
  | 0 => Option.none
  | f + 1 =>
      if 0 < size / i then do
        let lk ← counting_sort size base (fun x => (x / i) % base) lk
        radix_loop f (i * base) size base lk
      else some lk

/-- `Sort::radix_sort`. -/
def radix_sort (size base : Nat) (lk : ArrayLock) : Option ArrayLock :=
  radix_loop (size + 1) 1 size base lk

/-- The `Sort` enum of `sorting/sort.rs` (named `SortKind` here because
`Sort` is a Lean keyword). -/
inductive SortKind where
  | BubbleSort | ShakerSort | ExchangeSort | CycleSort | CombSort
  | OddEvenSort | InsertionSort | ShellSort | SelectionSort
  | DoubleSelectionSort | StrandSort | StoogeSort | SlowSort | QuickSort
  | MergeSort | HeapSort | CountingSort | RadixSort10 | RadixSort2
  deriving Repr, DecidableEq

namespace SortKind

/-- `Sort::VALUES`. -/
def VALUES : List SortKind :=
  [BubbleSort, ShakerSort, ExchangeSort, CycleSort, CombSort, OddEvenSort,
   InsertionSort, ShellSort, SelectionSort, DoubleSelectionSort, StrandSort,
   StoogeSort, SlowSort, QuickSort, MergeSort, HeapSort, CountingSort,
   RadixSort10, RadixSort2]

/-- `Sort::sort`: the dispatch of `declare_sorts!`.  The `QuickSort` arm
passes a fresh random generator, modelled by the dummy seed `0` (the
generator is never consulted, see `quick_sort_ignores_rng`). -/
def sort (s : SortKind) (lk : ArrayLock) (size : Nat) : Option ArrayLock :=
  match s with
  | BubbleSort => bubble_sort lk size
  | ShakerSort => shaker_sort lk size
  | ExchangeSort => exchange_sort lk size
  | CycleSort => cycle_sort lk size
  | CombSort => comb_sort lk size
  | OddEvenSort => odd_even_sort lk size
  | InsertionSort => insertion_sort lk size
  | ShellSort => shell_sort lk size
  | SelectionSort => selection_sort lk size
  | DoubleSelectionSort => double_selection_sort lk size
  | StrandSort => strand_sort lk size
  | StoogeSort => stooge_sort 0 (size - 1) lk
  | SlowSort => slow_sort 0 (size - 1) lk
  | QuickSort => quick_sort (size - 1 + 1) 0 (size - 1) 0 lk
  | MergeSort => merge_sort 0 (size - 1) lk
  | HeapSort => heap_sort (size - 1) lk
  | CountingSort => counting_sort size size (fun x => x) lk
  | RadixSort10 => radix_sort size 10 lk
  | RadixSort2 => radix_sort size 2 lk

end SortKind

/-- A fresh lock over the given numbers (empty trace, zero counters). -/
def mkLock (l : List Nat) : ArrayLock :=
  ⟨{ numbers := l, step := Step.none, comparisons := 0, reads := 0,
     writes := 0 }, []⟩

/-- Whether a gated operation is a comparison. -/
def Op.isComparison : Op → Bool
  | Op.cmp_two _ _ _ => true
  | Op.cmp _ _ _ => true
  | _ => false

/-- The effect of one recorded gated operation on the numbers (comparisons
and reads leave them unchanged). -/
def Op.replay (l : List Nat) : Op → List Nat
  | Op.swap a b => swapL a b l
  | Op.set i v => l.set i v
  | _ => l

/-- Replay a prefix of a gated-operation trace: the numbers after that many
single-stepped gated operations. -/
def replayOps (ops : List Op) (l : List Nat) : List Nat :=
  ops.foldl Op.replay l

/-- C8: bubble sort on `[3,1,2]`, advanced one gated operation at a time
(each `Step` message grants exactly one gated call, see `step_grants_one`):
operation 1 compares indices 0,1 yielding `gt`, operation 2 swaps them giving
`[1,3,2]`, operation 3 compares indices 1,2 yielding `gt`, operation 4 swaps
them giving `[1,2,3]`; every later gated operation is a comparison (there are
no further swaps) and the sort terminates. -/
theorem bubble_312_steps :
    ∃ lk', SortKind.sort SortKind.BubbleSort (mkLock [3, 1, 2]) 3 = some lk' ∧
      lk'.trace =
        [Op.cmp_two 0 1 Ordering.gt, Op.swap 0 1,
         Op.cmp_two 1 2 Ordering.gt, Op.swap 1 2,
         Op.cmp_two 0 1 Ordering.lt] ∧
      replayOps (lk'.trace.take 1) [3, 1, 2] = [3, 1, 2] ∧
      replayOps (lk'.trace.take 2) [3, 1, 2] = [1, 3, 2] ∧
      replayOps (lk'.trace.take 3) [3, 1, 2] = [1, 3, 2] ∧
      replayOps (lk'.trace.take 4) [3, 1, 2] = [1, 2, 3] ∧
      (lk'.trace.drop 4).all Op.isComparison = true ∧
      lk'.nums = [1, 2, 3] := by
  refine ⟨⟨{ numbers := [1, 2, 3], step := Step.comparisonTwo 0 1,
             comparisons := 3, reads := 10, writes := 4 },
           [Op.cmp_two 0 1 Ordering.gt, Op.swap 0 1,
            Op.cmp_two 1 2 Ordering.gt, Op.swap 1 2,
            Op.cmp_two 0 1 Ordering.lt]⟩, ?_, ?_, ?_, ?_, ?_, ?_, ?_, ?_⟩ <;>
    decide

/-!
## The throttle gate of `wrapping.rs`

`ArrayLock::perform_step` is modelled as a state machine over the list of
pending messages (exhaustion of the list = channel disconnection).  The
constants `TIME_OUT_CHECK` and `DELAY_TIME` live in the crate root, which is
not among the sources; `TIME_OUT_CHECK` is therefore the parameter `K`, and
the wall-clock test `instant.elapsed() > DELAY_TIME` is an oracle `timeout`
consulted with the stored instant and the number of operations performed so
far.  Each call appends to a ghost event list recording lock releases
(`array_lock = None`), channel receives, lock acquisitions and wrapped
operations, which is what the lock-scope and step-budget claims are about.
-/

/-- `wrapping.rs` `Message` (the `Instant` payload of `Tick` becomes an
abstract `Nat` timestamp). -/
inductive Message where
  | Kill
  | Step
  | Tick (n : Nat) (instant : Nat)
  deriving Repr, DecidableEq

/-- Observable gate actions (ghost event log). -/
inductive GateEvent where
  | release
  | recv (m : Option Message)
  | acquire
  | op
  deriving Repr, DecidableEq

/-- The scheduling state of `ArrayLock`: pending messages, the budget
`counter`, the stored `instant`, whether the mutex guard is held
(`array_lock.is_some()`), the event log and the count of wrapped operations
performed. -/
structure GateState where
  msgs : List Message
  counter : Nat
  instant : Nat
  holding : Bool
  events : List GateEvent
  ops : Nat
  deriving Repr, DecidableEq

/-- `ArrayLock::new`: budget zero, nothing held, given message stream. -/
def gate0 (msgs : List Message) : GateState :=
  { msgs := msgs, counter := 0, instant := 0, holding := false,
    events := [], ops := 0 }

/-- `ArrayLock::perform_step`: one gated-operation attempt.  Returns the new
state and whether the wrapped operation ran (`false` = cancellation
`Err(())`).  Mirrors the source: when the budget is zero — or at a multiple
of `TIME_OUT_CHECK` with the delay elapsed — drop the guard, receive
(`Kill` on disconnection), set the budget from the message (`Kill` returns
the error), reacquire the guard; then decrement the budget and run the
wrapped operation. -/
def performStep (K : Nat) (timeout : Nat → Nat → Bool) (st : GateState) :
    GateState × Bool :=
  if st.counter = 0 ∨ (st.counter % K = 0 ∧ timeout st.instant st.ops) then
    let st1 := { st with holding := false
                         events := st.events ++ [GateEvent.release] }
    match st1.msgs with
    | [] => ({ st1 with events := st1.events ++ [GateEvent.recv Option.none] },
             false)
    | m :: rest =>
        let st2 := { st1 with msgs := rest
                              events := st1.events ++ [GateEvent.recv (some m)] }
        match m with
        | Message.Kill => (st2, false)
        | Message.Step =>
            let st3 := { st2 with counter := 1
                                  holding := true
                                  events := st2.events ++ [GateEvent.acquire] }
            ({ st3 with counter := st3.counter - 1
                        ops := st3.ops + 1
                        events := st3.events ++ [GateEvent.op] }, true)
        | Message.Tick n instant =>
            let st3 := { st2 with counter := n
                                  instant := instant
                                  holding := true
                                  events := st2.events ++ [GateEvent.acquire] }
            ({ st3 with counter := st3.counter - 1
                        ops := st3.ops + 1
                        events := st3.events ++ [GateEvent.op] }, true)
  else
    ({ st with counter := st.counter - 1
               ops := st.ops + 1
               events := st.events ++ [GateEvent.op] }, true)

/-- The worker's demand for `d` further gated operations: attempt them one by
one, stopping on cancellation (the algorithms propagate the `Err` through
every call site with `?`, so no further gated call happens after it). -/
def runGate (K : Nat) (timeout : Nat → Nat → Bool) (d : Nat) (st : GateState) :
    GateState × Bool :=
  match d with
  | 0 => (st, true)
  | d + 1 =>
      let (st', ok) := performStep K timeout st
      if ok then runGate K timeout d st' else (st', false)

/-- `Sorter::tick` sends `Tick(cmp::max(1, speed))` where `speed` is the
truncated product of the speed fraction with `calculate_max_ticks`; the
argument here is that already-truncated product. -/
def tick_budget (product : Nat) : Nat := max 1 product

/-- `Result::unwrap_or_default` on the worker's result, as used by
`Sorter::kill_sort` when joining: the cancellation value is discarded. -/
def join_discard (r : Except Unit Unit) : Unit := ()

theorem performStep_no_consult (K : Nat) (timeout : Nat → Nat → Bool)
    (st : GateState)
    (h : ¬(st.counter = 0 ∨ (st.counter % K = 0 ∧ timeout st.instant st.ops))) :
    performStep K timeout st =
      ({ st with counter := st.counter - 1
                 ops := st.ops + 1
                 events := st.events ++ [GateEvent.op] }, true) := by
  unfold performStep
  rw [if_neg h]

/-- A strictly positive budget with the timeout never firing: `d ≤ counter`
operations run without consulting the channel. -/
theorem runGate_budget (K : Nat) (timeout : Nat → Nat → Bool)
    (hne : ∀ a b, timeout a b = false) (d : Nat) :
    ∀ st : GateState, d ≤ st.counter →
    runGate K timeout d st =
      ({ st with counter := st.counter - d
                 ops := st.ops + d
                 events := st.events ++ List.replicate d GateEvent.op }, true) := by
  induction d with
  | zero => intro st _; simp [runGate]
  | succ d ih =>
      intro st hd
      have hcons : ¬(st.counter = 0 ∨
          (st.counter % K = 0 ∧ timeout st.instant st.ops)) := by
        simp [hne]; omega
      simp only [runGate, performStep_no_consult K timeout st hcons]
      rw [ih _ (by simp; omega)]
      obtain ⟨ms, c, ins, hol, ev, osp⟩ := st
      simp only [Prod.mk.injEq, GateState.mk.injEq, List.append_assoc,
        List.replicate_succ, List.singleton_append]
      rw [if_pos trivial]
      simp only [GateState.mk.injEq, Prod.mk.injEq, and_true, true_and,
        eq_self_iff_true]
      omega

theorem performStep_tick (K : Nat) (timeout : Nat → Nat → Bool)
    (st : GateState) (n i : Nat) (rest : List Message)
    (h0 : st.counter = 0) (hmsg : st.msgs = Message.Tick n i :: rest) :
    performStep K timeout st =
      ({ st with msgs := rest
                 counter := n - 1
                 instant := i
                 holding := true
                 events := st.events ++
                   [GateEvent.release, GateEvent.recv (some (Message.Tick n i)),
                    GateEvent.acquire, GateEvent.op]
                 ops := st.ops + 1 }, true) := by
  obtain ⟨ms, c, ins, hol, ev, osp⟩ := st
  simp only at h0 hmsg
  subst h0; subst hmsg
  simp [performStep]

theorem performStep_step_msg (K : Nat) (timeout : Nat → Nat → Bool)
    (st : GateState) (rest : List Message)
    (h0 : st.counter = 0) (hmsg : st.msgs = Message.Step :: rest) :
    performStep K timeout st =
      ({ st with msgs := rest
                 counter := 0
                 holding := true
                 events := st.events ++
                   [GateEvent.release, GateEvent.recv (some Message.Step),
                    GateEvent.acquire, GateEvent.op]
                 ops := st.ops + 1 }, true) := by
  obtain ⟨ms, c, ins, hol, ev, osp⟩ := st
  simp only at h0 hmsg
  subst h0; subst hmsg
  simp [performStep]

theorem performStep_killed (K : Nat) (timeout : Nat → Nat → Bool)
    (st : GateState)
    (h0 : st.counter = 0)
    (hmsg : st.msgs = [] ∨ ∃ rest, st.msgs = Message.Kill :: rest) :
    (performStep K timeout st).2 = false ∧
    (performStep K timeout st).1.ops = st.ops ∧
    (performStep K timeout st).1.holding = false := by
  obtain ⟨ms, c, ins, hol, ev, osp⟩ := st
  simp only at h0 hmsg ⊢
  subst h0
  rcases hmsg with h | ⟨rest, h⟩ <;> subst h <;> simp [performStep]

/-- C5: when the gate's receive yields `Kill` — or the channel is
disconnected (no message will ever arrive) — the gated call returns the
cancellation result immediately without running the wrapped operation, and
however much demand the algorithm still has, no further gated operation is
performed (the run stops with the cancellation result, the guard dropped);
`kill_sort` joins and discards the cancellation result
(`unwrap_or_default`). -/
theorem kill_cancels_immediately :
    (∀ (K : Nat) (timeout : Nat → Nat → Bool) (st : GateState) (d : Nat),
      st.counter = 0 →
      (st.msgs = [] ∨ ∃ rest, st.msgs = Message.Kill :: rest) →
      (runGate K timeout (d + 1) st).2 = false ∧
      (runGate K timeout (d + 1) st).1.ops = st.ops ∧
      (runGate K timeout (d + 1) st).1.holding = false) ∧
    (∀ r : Except Unit Unit, join_discard r = ()) := by
  refine ⟨fun K timeout st d h0 hmsg => ?_, fun r => rfl⟩
  obtain ⟨h2, hops, hhold⟩ := performStep_killed K timeout st h0 hmsg
  simp only [runGate]
  rw [show performStep K timeout st =
    ((performStep K timeout st).1, (performStep K timeout st).2) from rfl]
  simp [h2, hops, hhold]

/-- Witness for `kill_cancels_immediately` at a concrete killed state. -/
theorem kill_cancels_immediately_witness :
    (runGate 5 (fun _ _ => false) 3 (gate0 [Message.Kill])).2 = false ∧
    (runGate 5 (fun _ _ => false) 3 (gate0 [Message.Kill])).1.ops = 0 := by
  have h := kill_cancels_immediately.1 5 (fun _ _ => false) (gate0 [Message.Kill]) 2
    rfl (Or.inr ⟨[], rfl⟩)
  exact ⟨h.1, h.2.1⟩

/-- C3 (amended): the event pattern of each gated call.  The guard is always
released immediately before a channel receive (the lock is never held across
a receive), and it is reacquired right after the new budget arrives; but
within a granted budget the guard is retained from one wrapped operation to
the next (the `[op]` case), so the lock is held across all the operations of
one budget rather than for a single operation. -/
theorem lock_scope_per_budget (K : Nat) (timeout : Nat → Nat → Bool)
    (st : GateState) :
    ∃ tail, (performStep K timeout st).1.events = st.events ++ tail ∧
      (tail = [GateEvent.op] ∨
       tail = [GateEvent.release, GateEvent.recv Option.none] ∨
       tail = [GateEvent.release, GateEvent.recv (some Message.Kill)] ∨
       ∃ m, tail = [GateEvent.release, GateEvent.recv (some m),
                    GateEvent.acquire, GateEvent.op]) := by
  obtain ⟨ms, c, ins, hol, ev, osp⟩ := st
  unfold performStep
  split
  · match ms with
    | [] => exact ⟨_, by simp, Or.inr (Or.inl rfl)⟩
    | Message.Kill :: rest => exact ⟨_, by simp, Or.inr (Or.inr (Or.inl rfl))⟩
    | Message.Step :: rest =>
        exact ⟨_, by simp, Or.inr (Or.inr (Or.inr ⟨Message.Step, rfl⟩))⟩
    | Message.Tick n i :: rest =>
        exact ⟨_, by simp, Or.inr (Or.inr (Or.inr ⟨Message.Tick n i, rfl⟩))⟩
  · exact ⟨[GateEvent.op], by simp, Or.inl rfl⟩

/-- Checks that between any two wrapped operations in an event log the guard
was released at least once (`false` when two operations run under one
uninterrupted guard acquisition). -/
def lockReleasedBetweenOps : List GateEvent → Bool → Bool
  | [], _ => true
  | GateEvent.op :: rest, pending =>
      if pending then false else lockReleasedBetweenOps rest true
  | GateEvent.release :: rest, _ => lockReleasedBetweenOps rest false
  | _ :: rest, pending => lockReleasedBetweenOps rest pending

/-- C3 counterexample: a worker granted `Tick(2)` performs two consecutive
wrapped operations under a single guard acquisition — the lock is not
released between the two operations (and is still held afterwards), contrary
to the claim that exclusive access lasts only for the duration of one single
wrapped operation. -/
theorem lock_not_released_between_ops :
    (runGate 5 (fun _ _ => false) 2 (gate0 [Message.Tick 2 0])).1.events =
      [GateEvent.release, GateEvent.recv (some (Message.Tick 2 0)),
       GateEvent.acquire, GateEvent.op, GateEvent.op] ∧
    lockReleasedBetweenOps
      (runGate 5 (fun _ _ => false) 2 (gate0 [Message.Tick 2 0])).1.events
      false = false ∧
    (runGate 5 (fun _ _ => false) 2 (gate0 [Message.Tick 2 0])).1.holding = true ∧
    (runGate 5 (fun _ _ => false) 2 (gate0 [Message.Tick 2 0])).2 = true := by
  refine ⟨?_, ?_, ?_, ?_⟩ <;> decide

/-- C4 (amended): the step-budget discipline when the wall-clock re-poll
does not intervene.  A `Step` message grants exactly one wrapped operation,
after which the budget is zero again (the next gated call re-consults the
channel).  A `Tick(n)` message (`n ≥ 1`), when the elapsed-delay test never
fires, grants exactly `min n d` operations for a demand of `d`: `d` when the
sort needs `d ≤ n` more operations (completing first), and after exactly `n`
operations the budget is zero and the worker blocks on the channel again.
The event log shows a single receive for the whole budget. -/
theorem step_tick_discipline :
    (∀ (K : Nat) (timeout : Nat → Nat → Bool) (rest : List Message)
        (st : GateState),
      st.counter = 0 → st.msgs = Message.Step :: rest →
      runGate K timeout 1 st =
        ({ st with msgs := rest
                   counter := 0
                   holding := true
                   events := st.events ++
                     [GateEvent.release, GateEvent.recv (some Message.Step),
                      GateEvent.acquire, GateEvent.op]
                   ops := st.ops + 1 }, true)) ∧
    (∀ (K : Nat) (timeout : Nat → Nat → Bool) (n i d : Nat)
        (rest : List Message) (st : GateState),
      (∀ a b, timeout a b = false) →
      st.counter = 0 → st.msgs = Message.Tick n i :: rest →
      1 ≤ d → d ≤ n →
      runGate K timeout d st =
        ({ st with msgs := rest
                   counter := n - d
                   instant := i
                   holding := true
                   events := st.events ++
                     [GateEvent.release,
                      GateEvent.recv (some (Message.Tick n i)),
                      GateEvent.acquire] ++ List.replicate d GateEvent.op
                   ops := st.ops + d }, true)) := by
  constructor
  · intro K timeout rest st h0 hmsg
    simp only [runGate, performStep_step_msg K timeout st rest h0 hmsg]
    rw [if_pos trivial]
  · intro K timeout n i d rest st hne h0 hmsg hd hdn
    obtain ⟨d, rfl⟩ : ∃ d', d = d' + 1 := ⟨d - 1, by omega⟩
    simp only [runGate, performStep_tick K timeout st n i rest h0 hmsg]
    rw [if_pos trivial]
    rw [runGate_budget K timeout hne d _ (by simp; omega)]
    obtain ⟨ms, c, ins, hol, ev, osp⟩ := st
    simp only [GateState.mk.injEq, Prod.mk.injEq, List.append_assoc,
      List.replicate_succ, List.cons_append, List.nil_append, and_true,
      true_and, eq_self_iff_true]
    omega

/-- Witness for `step_tick_discipline` at concrete messages. -/
theorem step_tick_discipline_witness :
    runGate 3 (fun _ _ => false) 1 (gate0 [Message.Step]) =
      ({ msgs := [], counter := 0, instant := 0, holding := true,
         events := [GateEvent.release, GateEvent.recv (some Message.Step),
                    GateEvent.acquire, GateEvent.op], ops := 1 }, true) ∧
    runGate 3 (fun _ _ => false) 2 (gate0 [Message.Tick 2 7]) =
      ({ msgs := [], counter := 0, instant := 7, holding := true,
         events := [GateEvent.release,
                    GateEvent.recv (some (Message.Tick 2 7)),
                    GateEvent.acquire, GateEvent.op, GateEvent.op],
         ops := 2 }, true) := by
  constructor
  · exact step_tick_discipline.1 3 (fun _ _ => false) [] (gate0 [Message.Step])
      rfl rfl
  · exact step_tick_discipline.2 3 (fun _ _ => false) 2 7 2 []
      (gate0 [Message.Tick 2 7]) (fun _ _ => rfl) rfl rfl (by decide) (by decide)

/-- C4 counterexample: with `TIME_OUT_CHECK = 2` and the delay elapsed, a
worker that has just been granted `Tick(4)` and still needs 10 operations
performs only 2 of them before re-consulting the channel (where it finds
`Kill`): neither the granted 4 operations nor completion — the timeout
re-poll cuts the budget short, contradicting "exactly n gated operations (or
fewer, if the sort completes first)". -/
theorem tick_timeout_cuts_budget :
    (runGate 2 (fun _ _ => true) 10 (gate0 [Message.Tick 4 0, Message.Kill])).1.ops
      = 2 ∧
    (runGate 2 (fun _ _ => true) 10 (gate0 [Message.Tick 4 0, Message.Kill])).2
      = false := by
  constructor <;> decide

/-- C2 (amended): there is no maximum step cap.  On receiving `Tick(n)` the
gate sets its budget to exactly `n` (the stored counter is `n - 1` after the
first of the `n` granted operations) — not to `min(n, cap)` for any cap;
`Sorter::tick` clamps the computed budget only from below
(`cmp::max(1, speed)`); and a single `Tick` message can grant the worker
arbitrarily many operations (responsiveness is instead addressed by the
wall-clock re-poll of `perform_step`). -/
theorem tick_budget_uncapped :
    (∀ (K : Nat) (timeout : Nat → Nat → Bool) (st : GateState) (n i : Nat)
        (rest : List Message),
      st.counter = 0 → st.msgs = Message.Tick n i :: rest →
      (performStep K timeout st).1.counter = n - 1) ∧
    (∀ v, tick_budget v = max 1 v) ∧
    (∀ C K : Nat, ∃ n,
      C < (runGate K (fun _ _ => false) n (gate0 [Message.Tick n 0])).1.ops) := by
  refine ⟨fun K timeout st n i rest h0 hmsg => ?_, fun v => rfl, fun C K => ?_⟩
  · rw [performStep_tick K timeout st n i rest h0 hmsg]
  · refine ⟨C + 1, ?_⟩
    rw [step_tick_discipline.2 K (fun _ _ => false) (C + 1) 0 (C + 1) []
      (gate0 [Message.Tick (C + 1) 0]) (fun _ _ => rfl) rfl rfl
      (by omega) (by omega)]
    simp [gate0]

/-- Witness for `tick_budget_uncapped` at a concrete tick. -/
theorem tick_budget_uncapped_witness :
    (performStep 3 (fun _ _ => false) (gate0 [Message.Tick 9 0])).1.counter = 8 ∧
    tick_budget 0 = 1 := by
  exact ⟨tick_budget_uncapped.1 3 (fun _ _ => false) (gate0 [Message.Tick 9 0])
    9 0 [] rfl rfl, tick_budget_uncapped.2.1 0⟩

/-- C2 counterexample: no cap `C` exists for which the gate sets its budget
to `min(n, C)` and the worker never obtains more than `C` operations from a
single message — taking `n = C + 2` the stored budget is `C + 1`, not
`min(C+2, C) - 1 = C - 1`, and a single `Tick` grants `C + 2 > C`
operations. -/
theorem no_step_cap :
    ¬ ∃ C : Nat, ∀ K n : Nat,
        (performStep K (fun _ _ => false) (gate0 [Message.Tick n 0])).1.counter =
          min n C - 1 ∧
        (runGate K (fun _ _ => false) n (gate0 [Message.Tick n 0])).1.ops ≤ C := by
  rintro ⟨C, h⟩
  obtain ⟨h1, h2⟩ := h 2 (C + 2)
  rw [performStep_tick 2 (fun _ _ => false) (gate0 [Message.Tick (C + 2) 0])
    (C + 2) 0 [] rfl rfl] at h1
  simp only [gate0] at h1
  rw [step_tick_discipline.2 2 (fun _ _ => false) (C + 2) 0 (C + 2) []
    (gate0 [Message.Tick (C + 2) 0]) (fun _ _ => rfl) rfl rfl
    (by omega) (by omega)] at h2
  simp [gate0] at h2
  all_goals omega

/-!
## QuickSort: pivot choice and the random generator
-/

/-- C6 (amended): `quick_sort` never consults the random generator it is
given — the run (result and gated-call trace alike) is identical for any two
generators.  The pivot of each partition is the value at the range's last
index (`end`), scanned against by the Hoare-style two-pointer loops. -/
theorem quick_sort_ignores_rng (fuel : Nat) :
    ∀ (start end_ rng rng' : Nat) (lk : ArrayLock),
      quick_sort fuel start end_ rng lk = quick_sort fuel start end_ rng' lk := by
  induction fuel with
  | zero => intros; rfl
  | succ f ih =>
      intro start end_ rng rng' lk
      have hrw : ∀ s e lk, quick_sort f s e rng lk = quick_sort f s e rng' lk :=
        fun s e lk => ih s e rng rng' lk
      simp only [quick_sort, hrw]

/-- C6 counterexample: on `[3,1,2]` two different random generators produce
the very same run, and the first comparison of the partition is against the
fixed pivot index `end = 2` (three-way/Dutch-flag quicksort with a random
pivot would consult the generator and group by equality; this code does
neither). -/
theorem quick_sort_rng_counterexample :
    quick_sort 3 0 2 17 (mkLock [3, 1, 2]) =
      quick_sort 3 0 2 42 (mkLock [3, 1, 2]) ∧
    (17 : Nat) ≠ 42 ∧
    (quick_sort 3 0 2 17 (mkLock [3, 1, 2])).map
        (fun lk => lk.trace.head? ) =
      some (some (Op.cmp_two 0 2 Ordering.gt)) := by
  refine ⟨?_, ?_, ?_⟩ <;> decide

/-!
## List-level infrastructure for the algorithm correctness proofs

Each imperative loop is related to a pure numbers-level recursion (suffix
`P`), and the sorting invariants are proved about those.
-/

theorem set_getD_self (l : List Nat) (a : Nat) (ha : a < l.length) :
    l.set a (l.getD a 0) = l := by
  apply List.ext_getElem (by simp)
  intro n h1 h2
  rw [List.getElem_set]
  split
  · next h => subst h; rw [List.getD_eq_getElem _ _ h2]
  · rfl

theorem getD_swapL (a b x : Nat) (l : List Nat)
    (ha : a < l.length) (hb : b < l.length) :
    (swapL a b l).getD x 0 =
      if x = b then l.getD a 0
      else if x = a then l.getD b 0
      else l.getD x 0 := by
  unfold swapL
  by_cases hx : x < l.length
  · rw [List.getD_eq_getElem _ _ (by simp [hx]), List.getElem_set,
      List.getElem_set]
    by_cases h1 : b = x
    · rw [if_pos h1, if_pos h1.symm]
    · have h1' : ¬(x = b) := fun h => h1 h.symm
      rw [if_neg h1, if_neg h1']
      by_cases h2 : a = x
      · rw [if_pos h2, if_pos h2.symm]
      · have h2' : ¬(x = a) := fun h => h2 h.symm
        rw [if_neg h2, if_neg h2', List.getD_eq_getElem _ _ hx]
  · have hlen : l.length ≤ x := by omega
    have h1 : ¬(x = b) := by omega
    have h2 : ¬(x = a) := by omega
    rw [List.getD_eq_default _ _ (by
        simp only [List.length_set]
        exact hlen),
      List.getD_eq_default _ _ hlen, if_neg h1, if_neg h2]

theorem swapL_perm (a b : Nat) (l : List Nat)
    (ha : a < l.length) (hb : b < l.length) : (swapL a b l).Perm l := by
  by_cases hab : a = b
  · subst hab
    unfold swapL
    rw [List.set_set, set_getD_self l a ha]
  · rw [List.perm_iff_count]
    intro x
    unfold swapL
    rw [List.count_set _ _ _ _ (by simpa using hb),
      List.count_set _ _ _ _ ha]
    have hb2 : b < (l.set a (l.getD b 0)).length := by simpa using hb
    have hgb : (l.set a (l.getD b 0))[b] = l[b] := by
      rw [List.getElem_set, if_neg hab]
    rw [hgb]
    rw [List.getD_eq_getElem _ _ ha, List.getD_eq_getElem _ _ hb]
    have hma : l[a] ∈ l := List.getElem_mem ha
    have hmb : l[b] ∈ l := List.getElem_mem hb
    by_cases h1 : l[a] = x <;> by_cases h2 : l[b] = x <;>
      simp only [h1, h2, beq_self_eq_true, if_pos, beq_iff_eq, if_neg] <;>
      [skip; skip; skip; skip] <;>
      first
      | (have : 0 < List.count x l := List.count_pos_iff.mpr (by
            first | exact h1 ▸ hma | exact h2 ▸ hmb)
         simp [h1, h2]; omega)
      | simp [h1, h2]

/-- Adjacent-pairs order implies `Sorted (· ≤ ·)`. -/
theorem sorted_of_adj (l : List Nat)
    (h : ∀ i, i + 1 < l.length → l.getD i 0 ≤ l.getD (i + 1) 0) :
    l.Sorted (· ≤ ·) := by
  have : List.Chain' (· ≤ ·) l := by
    rw [List.chain'_iff_get]
    intro i hi
    have := h i (by omega)
    rwa [List.getD_eq_getElem _ _ (by omega),
      List.getD_eq_getElem _ _ (by omega)] at this
  exact List.chain'_iff_pairwise.mp this

/-- `List.range' 1 N` is sorted. -/
theorem sorted_range'_le (s n : Nat) : (List.range' s n).Sorted (· ≤ ·) :=
  (List.pairwise_lt_range' s n 1 (by omega)).imp Nat.le_of_lt

/-- A sorted permutation of `1..=N` is `1..=N` itself (hence strictly
increasing). -/
theorem sorted_perm_range' (N : Nat) (l : List Nat)
    (hp : l.Perm (List.range' 1 N)) (hs : l.Sorted (· ≤ ·)) :
    l = List.range' 1 N :=
  List.eq_of_perm_of_sorted hp hs (sorted_range'_le 1 N)

theorem take_eq_of_getD (l2 l : List Nat) (i : Nat)
    (hlen : l2.length = l.length)
    (h : ∀ p, p < i → l2.getD p 0 = l.getD p 0) :
    l2.take i = l.take i := by
  apply List.ext_getElem (by simp [hlen])
  intro n h1 h2
  have hn2 : n < l2.length := by simp at h1; omega
  have hn : n < l.length := by simp at h2; omega
  have hni : n < i := by simp at h1; omega
  rw [List.getElem_take, List.getElem_take]
  have := h n hni
  rwa [List.getD_eq_getElem _ _ hn2, List.getD_eq_getElem _ _ hn] at this

theorem drop_perm_of_perm_take_eq (l2 l : List Nat) (i : Nat)
    (hp : l2.Perm l) (ht : l2.take i = l.take i) :
    (l2.drop i).Perm (l.drop i) := by
  have h2 : l2.take i ++ l2.drop i = l2 := List.take_append_drop i l2
  have h : l.take i ++ l.drop i = l := List.take_append_drop i l
  rw [← h2, ← h, ht] at hp
  exact (List.perm_append_left_iff _).mp hp

theorem getD_mem_drop (l : List Nat) (i q : Nat) (hq : i ≤ q)
    (hqn : q < l.length) : l.getD q 0 ∈ l.drop i := by
  rw [List.getD_eq_getElem _ _ hqn]
  have hlt : q - i < (l.drop i).length := by simp; omega
  have : (l.drop i)[q - i] = l[q] := by
    rw [List.getElem_drop]
    congr 1
    omega
  rw [← this]
  exact List.getElem_mem hlt

theorem mem_drop_getD (l : List Nat) (i : Nat) (x : Nat)
    (hx : x ∈ l.drop i) :
    ∃ q, i ≤ q ∧ q < l.length ∧ l.getD q 0 = x := by
  obtain ⟨n, hn, hget⟩ := List.mem_iff_getElem.mp hx
  refine ⟨i + n, by omega, by simp at hn; omega, ?_⟩
  rw [List.getD_eq_getElem _ _ (by simp at hn; omega), ← hget,
    List.getElem_drop]

/-- The invariant carried by the selection-style outer loops: the first `i`
positions are sorted and each of them is bounded by everything after it. -/
def prefixDom (l : List Nat) (i : Nat) : Prop :=
  (∀ p q, p < q → q < i → q < l.length → l.getD p 0 ≤ l.getD q 0) ∧
  (∀ p, p < i → ∀ x ∈ l.drop i, l.getD p 0 ≤ x)

theorem prefixDom_zero (l : List Nat) : prefixDom l 0 :=
  ⟨fun _ _ _ h _ => absurd h (Nat.not_lt_zero _),
   fun _ h => absurd h (Nat.not_lt_zero _)⟩

/-- If the prefix invariant holds at `n - 1` (or beyond), the list is
sorted. -/
theorem prefixDom_sorted (l : List Nat) (i : Nat)
    (h : prefixDom l i) (hi : l.length ≤ i + 1) : l.Sorted (· ≤ ·) := by
  apply sorted_of_adj
  intro k hk
  rcases Nat.lt_or_ge (k + 1) i with h1 | h1
  · exact h.1 k (k + 1) (by omega) h1 (by omega)
  · have hki : k < i := by omega
    exact h.2 k hki _ (getD_mem_drop l i (k + 1) (by omega) hk)

/-- Carrying `prefixDom` one step further after a pass that fixed position
`i` to the minimum of the tail and permuted only the tail. -/
theorem prefixDom_step (l l2 : List Nat) (i : Nat)
    (hlen : l2.length = l.length) (hperm : l2.Perm l)
    (hout : ∀ p, p < i → l2.getD p 0 = l.getD p 0)
    (hmin : ∀ q, i ≤ q → q < l2.length → l2.getD i 0 ≤ l2.getD q 0)
    (hinv : prefixDom l i) :
    prefixDom l2 (i + 1) := by
  have hdp : (l2.drop i).Perm (l.drop i) :=
    drop_perm_of_perm_take_eq l2 l i hperm (take_eq_of_getD l2 l i hlen hout)
  constructor
  · intro p q hpq hq hql
    rcases Nat.lt_or_ge q i with h1 | h1
    · rw [hout p (by omega), hout q h1]
      exact hinv.1 p q hpq h1 (by omega)
    · have hqi : q = i := by omega
      subst hqi
      have hmem : l2.getD q 0 ∈ l.drop q :=
        hdp.mem_iff.mp (getD_mem_drop l2 q q le_rfl hql)
      rw [hout p (by omega)]
      exact hinv.2 p (by omega) _ hmem
  · intro p hp x hx
    have hx2 : x ∈ l2.drop i := by
      have : l2.drop (i + 1) = (l2.drop i).drop 1 := by
        rw [List.drop_drop]
      rw [this] at hx
      exact List.drop_subset _ _ hx
    rcases Nat.lt_or_ge p i with h1 | h1
    · rw [hout p h1]
      exact hinv.2 p h1 x (hdp.mem_iff.mp hx2)
    · have hpi : p = i := by omega
      subst hpi
      obtain ⟨q, hq1, hq2, hq3⟩ := mem_drop_getD l2 (p + 1) x hx
      rw [← hq3]
      exact hmin q (by omega) hq2

/-!
### Exchange sort
-/

/-- Numbers-level semantics of `exchange_inner`. -/
def exchange_innerP (cnt j i : Nat) (l : List Nat) : List Nat :=
  match cnt with
  | 0 => l
  | c + 1 =>
      if l.getD j 0 < l.getD i 0 then exchange_innerP c (j + 1) i (swapL i j l)
      else exchange_innerP c (j + 1) i l

theorem exchange_inner_nums (cnt : Nat) :
    ∀ (j i : Nat) (lk : ArrayLock), i < lk.nums.length →
      j + cnt ≤ lk.nums.length →
      ∃ lk', exchange_inner cnt j i lk = some lk' ∧
        lk'.nums = exchange_innerP cnt j i lk.nums := by
  induction cnt with
  | zero => intro j i lk _ _; exact ⟨lk, rfl, rfl⟩
  | succ c ih =>
      intro j i lk hi hj
      have hjlen : j < lk.nums.length := by omega
      obtain ⟨lk1, hc, hn1⟩ := ArrayLock.cmp_two_nums lk i j hi hjlen
      rw [exchange_inner, hc]
      simp only [Option.bind_eq_bind, Option.some_bind]
      by_cases hlt : lk.nums.getD j 0 < lk.nums.getD i 0
      · rw [if_pos (by rw [Nat.compare_eq_gt]; exact hlt)]
        obtain ⟨lk2, hs, hn2⟩ := ArrayLock.swap_nums lk1 i j
          (by rw [hn1]; exact hi) (by rw [hn1]; exact hjlen)
        rw [hs]
        simp only [Option.some_bind]
        obtain ⟨lk', hrec, hn'⟩ := ih (j + 1) i lk2
          (by rw [hn2, hn1]; simpa using hi)
          (by rw [hn2, hn1]; simp; omega)
        refine ⟨lk', hrec, ?_⟩
        rw [hn', hn2, hn1, exchange_innerP, if_pos hlt]
      · rw [if_neg (by rw [Nat.compare_eq_gt]; exact hlt)]
        obtain ⟨lk', hrec, hn'⟩ := ih (j + 1) i lk1 (hn1 ▸ hi)
          (by rw [hn1]; omega)
        refine ⟨lk', hrec, ?_⟩
        rw [hn', hn1, exchange_innerP, if_neg hlt]

theorem exchange_innerP_spec (cnt : Nat) :
    ∀ (j i : Nat) (l : List Nat), i < l.length → j + cnt ≤ l.length → i < j →
      (exchange_innerP cnt j i l).length = l.length ∧
      (exchange_innerP cnt j i l).Perm l ∧
      (∀ p, p ≠ i → (p < j ∨ j + cnt ≤ p) →
        (exchange_innerP cnt j i l).getD p 0 = l.getD p 0) ∧
      (exchange_innerP cnt j i l).getD i 0 ≤ l.getD i 0 ∧
      (∀ q, j ≤ q → q < j + cnt →
        (exchange_innerP cnt j i l).getD i 0 ≤
          (exchange_innerP cnt j i l).getD q 0) := by
  induction cnt with
  | zero =>
      intro j i l hi hj hij
      exact ⟨rfl, List.Perm.refl l, fun _ _ _ => rfl, le_rfl,
        fun q h1 h2 => absurd (h1.trans_lt h2) (by omega)⟩
  | succ c ih =>
      intro j i l hi hj hij
      have hjlen : j < l.length := by omega
      have hij' : i ≠ j := by omega
      rw [exchange_innerP]
      by_cases hlt : l.getD j 0 < l.getD i 0
      · rw [if_pos hlt]
        have hl2i : (swapL i j l).getD i 0 = l.getD j 0 := by
          rw [getD_swapL i j i l hi hjlen, if_neg hij', if_pos rfl]
        have hl2j : (swapL i j l).getD j 0 = l.getD i 0 := by
          rw [getD_swapL i j j l hi hjlen, if_pos rfl]
        have hl2o : ∀ p, p ≠ i → p ≠ j → (swapL i j l).getD p 0 = l.getD p 0 := by
          intro p hpi hpj
          rw [getD_swapL i j p l hi hjlen, if_neg hpj, if_neg hpi]
        obtain ⟨ihl, ihp, iho, ihd, ihm⟩ := ih (j + 1) i (swapL i j l)
          (by simp [hi]) (by simp; omega) (by omega)
        refine ⟨by simp [ihl], ihp.trans (swapL_perm i j l hi hjlen), ?_, ?_, ?_⟩
        · intro p hpi hpr
          have hpj : p ≠ j := by omega
          rw [iho p hpi (by omega), hl2o p hpi hpj]
        · calc (exchange_innerP c (j + 1) i (swapL i j l)).getD i 0
              ≤ (swapL i j l).getD i 0 := ihd
            _ = l.getD j 0 := hl2i
            _ ≤ l.getD i 0 := le_of_lt hlt
        · intro q hq1 hq2
          rcases eq_or_lt_of_le hq1 with heq | hqgt
          · have hPq : (exchange_innerP c (j + 1) i (swapL i j l)).getD j 0 =
                l.getD i 0 := by
              rw [iho j (by omega) (by omega), hl2j]
            rw [← heq, hPq]
            calc (exchange_innerP c (j + 1) i (swapL i j l)).getD i 0
                ≤ (swapL i j l).getD i 0 := ihd
              _ = l.getD j 0 := hl2i
              _ ≤ l.getD i 0 := le_of_lt hlt
          · exact ihm q (by omega) (by omega)
      · rw [if_neg hlt]
        push_neg at hlt
        obtain ⟨ihl, ihp, iho, ihd, ihm⟩ := ih (j + 1) i l hi (by omega)
          (by omega)
        refine ⟨ihl, ihp, ?_, ihd, ?_⟩
        · intro p hpi hpr
          exact iho p hpi (by omega)
        · intro q hq1 hq2
          rcases eq_or_lt_of_le hq1 with heq | hqgt
          · have hPq : (exchange_innerP c (j + 1) i l).getD j 0 = l.getD j 0 :=
              iho j (by omega) (by omega)
            rw [← heq, hPq]
            exact le_trans ihd hlt
          · exact ihm q (by omega) (by omega)

theorem exchange_outer_correct (cnt : Nat) :
    ∀ (size i : Nat) (lk : ArrayLock), lk.nums.length = size →
      i + cnt + 1 = size → prefixDom lk.nums i →
      ∃ lk', exchange_outer size cnt i lk = some lk' ∧
        lk'.nums.Perm lk.nums ∧ lk'.nums.Sorted (· ≤ ·) := by
  induction cnt with
  | zero =>
      intro size i lk hsz his hinv
      exact ⟨lk, rfl, List.Perm.refl _,
        prefixDom_sorted lk.nums i hinv (by omega)⟩
  | succ c ih =>
      intro size i lk hsz his hinv
      have hi : i < lk.nums.length := by omega
      obtain ⟨lk2, h1, h2⟩ := exchange_inner_nums (size - (i + 1)) (i + 1) i lk
        hi (by omega)
      obtain ⟨sl, sp, so, sd, sm⟩ := exchange_innerP_spec (size - (i + 1))
        (i + 1) i lk.nums hi (by omega) (by omega)
      rw [← h2] at sl sp so sd sm
      have hinv2 : prefixDom lk2.nums (i + 1) := by
        refine prefixDom_step lk.nums lk2.nums i sl sp
          (fun p hp => so p (by omega) (by omega)) ?_ hinv
        intro q hq1 hq2
        rcases eq_or_lt_of_le hq1 with rfl | hqgt
        · exact le_rfl
        · exact sm q (by omega) (by omega)
      obtain ⟨lk', hrun, hperm, hsorted⟩ := ih size (i + 1) lk2 (by omega)
        (by omega) hinv2
      refine ⟨lk', ?_, hperm.trans sp, hsorted⟩
      rw [exchange_outer, h1]
      simp only [Option.bind_eq_bind, Option.some_bind]
      exact hrun

theorem exchange_sort_correct (lk : ArrayLock) (size : Nat)
    (hsz : lk.nums.length = size) :
    ∃ lk', exchange_sort lk size = some lk' ∧
      lk'.nums.Perm lk.nums ∧ lk'.nums.Sorted (· ≤ ·) := by
  match size, hsz with
  | 0, hsz =>
      refine ⟨lk, rfl, List.Perm.refl _, ?_⟩
      rw [List.eq_nil_of_length_eq_zero hsz]
      exact List.sorted_nil
  | s + 1, hsz =>
      exact exchange_outer_correct s (s + 1) 0 lk hsz (by omega)
        (prefixDom_zero lk.nums)

/-!
### Selection sort
-/

/-- Numbers-level semantics of `selection_find` (it only compares, so the
numbers are unchanged; the result is the index of the running minimum). -/
def selection_findP (cnt j mn : Nat) (l : List Nat) : Nat :=
  match cnt with
  | 0 => mn
  | c + 1 =>
      if l.getD j 0 < l.getD mn 0 then selection_findP c (j + 1) j l
      else selection_findP c (j + 1) mn l

theorem selection_find_nums (cnt : Nat) :
    ∀ (j mn : Nat) (lk : ArrayLock), mn < lk.nums.length →
      j + cnt ≤ lk.nums.length →
      ∃ lk', selection_find cnt j mn lk =
          some (selection_findP cnt j mn lk.nums, lk') ∧
        lk'.nums = lk.nums := by
  induction cnt with
  | zero => intro j mn lk _ _; exact ⟨lk, rfl, rfl⟩
  | succ c ih =>
      intro j mn lk hmn hj
      have hjlen : j < lk.nums.length := by omega
      obtain ⟨lk1, hc, hn1⟩ := ArrayLock.cmp_two_nums lk mn j hmn hjlen
      rw [selection_find, hc]
      simp only [Option.bind_eq_bind, Option.some_bind]
      by_cases hlt : lk.nums.getD j 0 < lk.nums.getD mn 0
      · rw [if_pos (by rw [Nat.compare_eq_gt]; exact hlt)]
        obtain ⟨lk', hrec, hn'⟩ := ih (j + 1) j lk1 (by rw [hn1]; omega)
          (by rw [hn1]; omega)
        rw [hn1] at hrec
        refine ⟨lk', ?_, hn'.trans hn1⟩
        rw [hrec, selection_findP, if_pos hlt]
      · rw [if_neg (by rw [Nat.compare_eq_gt]; exact hlt)]
        obtain ⟨lk', hrec, hn'⟩ := ih (j + 1) mn lk1 (by rw [hn1]; omega)
          (by rw [hn1]; omega)
        rw [hn1] at hrec
        refine ⟨lk', ?_, hn'.trans hn1⟩
        rw [hrec, selection_findP, if_neg hlt]

theorem selection_findP_spec (cnt : Nat) :
    ∀ (j mn : Nat) (l : List Nat), mn < l.length → j + cnt ≤ l.length →
      (selection_findP cnt j mn l = mn ∨
        (j ≤ selection_findP cnt j mn l ∧ selection_findP cnt j mn l < j + cnt)) ∧
      selection_findP cnt j mn l < l.length ∧
      l.getD (selection_findP cnt j mn l) 0 ≤ l.getD mn 0 ∧
      (∀ q, j ≤ q → q < j + cnt →
        l.getD (selection_findP cnt j mn l) 0 ≤ l.getD q 0) := by
  induction cnt with
  | zero =>
      intro j mn l hmn hj
      exact ⟨Or.inl rfl, hmn, le_rfl, fun q h1 h2 => absurd (h1.trans_lt h2) (by omega)⟩
  | succ c ih =>
      intro j mn l hmn hj
      rw [selection_findP]
      by_cases hlt : l.getD j 0 < l.getD mn 0
      · rw [if_pos hlt]
        obtain ⟨im, il, id_, iq⟩ := ih (j + 1) j l (by omega) (by omega)
        refine ⟨by omega, il, le_trans id_ (le_of_lt hlt), ?_⟩
        intro q h1 h2
        rcases eq_or_lt_of_le h1 with heq | hgt
        · rw [← heq]; exact id_
        · exact iq q (by omega) (by omega)
      · rw [if_neg hlt]
        push_neg at hlt
        obtain ⟨im, il, id_, iq⟩ := ih (j + 1) mn l hmn (by omega)
        refine ⟨by omega, il, id_, ?_⟩
        intro q h1 h2
        rcases eq_or_lt_of_le h1 with heq | hgt
        · rw [← heq]; exact le_trans id_ hlt
        · exact iq q (by omega) (by omega)

theorem selection_outer_correct (cnt : Nat) :
    ∀ (size i : Nat) (lk : ArrayLock), lk.nums.length = size →
      i + cnt + 1 = size → prefixDom lk.nums i →
      ∃ lk', selection_outer size cnt i lk = some lk' ∧
        lk'.nums.Perm lk.nums ∧ lk'.nums.Sorted (· ≤ ·) := by
  induction cnt with
  | zero =>
      intro size i lk hsz his hinv
      exact ⟨lk, rfl, List.Perm.refl _,
        prefixDom_sorted lk.nums i hinv (by omega)⟩
  | succ c ih =>
      intro size i lk hsz his hinv
      have hi : i < lk.nums.length := by omega
      obtain ⟨lk1, hfind, hn1⟩ := selection_find_nums (size - (i + 1)) (i + 1)
        i lk hi (by omega)
      obtain ⟨fm, fl, fd, fq⟩ := selection_findP_spec (size - (i + 1)) (i + 1)
        i lk.nums hi (by omega)
      set mn := selection_findP (size - (i + 1)) (i + 1) i lk.nums with hmn
      have hmin : ∀ q, i ≤ q → q < lk.nums.length →
          lk.nums.getD mn 0 ≤ lk.nums.getD q 0 := by
        intro q h1 h2
        rcases eq_or_lt_of_le h1 with heq | hgt
        · rw [← heq]; exact fd
        · exact fq q (by omega) (by omega)
      rw [selection_outer, hfind]
      simp only [Option.bind_eq_bind, Option.some_bind]
      by_cases hne : mn ≠ i
      · rw [if_pos hne]
        obtain ⟨lk2, hsw, hn2⟩ := ArrayLock.swap_nums lk1 mn i
          (by rw [hn1]; exact fl) (by rw [hn1]; exact hi)
        rw [hsw]
        simp only [Option.some_bind]
        have hn2' : lk2.nums = swapL mn i lk.nums := by rw [hn2, hn1]
        have hg : ∀ x, (swapL mn i lk.nums).getD x 0 =
            if x = i then lk.nums.getD mn 0
            else if x = mn then lk.nums.getD i 0
            else lk.nums.getD x 0 :=
          fun x => getD_swapL mn i x lk.nums fl hi
        have hinv2 : prefixDom lk2.nums (i + 1) := by
          refine prefixDom_step lk.nums lk2.nums i (by simp [hn2']) ?_ ?_ ?_ hinv
          · rw [hn2']; exact swapL_perm mn i lk.nums fl hi
          · intro p hp
            rw [hn2', hg p, if_neg (by omega), if_neg (by
              rcases fm with h | h <;> omega)]
          · intro q h1 h2
            rw [hn2'] at h2 ⊢
            simp only [swapL_length] at h2
            rw [hg q, hg i, if_pos rfl]
            by_cases hqi : q = i
            · rw [if_pos hqi]
            · rw [if_neg hqi]
              by_cases hqm : q = mn
              · rw [if_pos hqm]
                exact fd
              · rw [if_neg hqm]
                exact hmin q h1 h2
        obtain ⟨lk', hrun, hperm, hsorted⟩ := ih size (i + 1) lk2
          (by rw [hn2']; simp [hsz]) (by omega) hinv2
        refine ⟨lk', hrun, ?_, hsorted⟩
        rw [hn2'] at hperm
        exact hperm.trans (swapL_perm mn i lk.nums fl hi)
      · rw [if_neg hne]
        push_neg at hne
        have hinv2 : prefixDom lk1.nums (i + 1) := by
          refine prefixDom_step lk.nums lk1.nums i (by simp [hn1]) ?_ ?_ ?_ hinv
          · rw [hn1]
          · intro p _; rw [hn1]
          · intro q h1 h2
            rw [hn1] at h2 ⊢
            rw [← hne]
            exact hmin q h1 h2
        obtain ⟨lk', hrun, hperm, hsorted⟩ := ih size (i + 1) lk1
          (by rw [hn1, hsz]) (by omega) hinv2
        exact ⟨lk', hrun, hperm.trans (by rw [hn1]), hsorted⟩

theorem selection_sort_correct (lk : ArrayLock) (size : Nat)
    (hsz : lk.nums.length = size) :
    ∃ lk', selection_sort lk size = some lk' ∧
      lk'.nums.Perm lk.nums ∧ lk'.nums.Sorted (· ≤ ·) := by
  match size, hsz with
  | 0, hsz =>
      refine ⟨lk, rfl, List.Perm.refl _, ?_⟩
      rw [List.eq_nil_of_length_eq_zero hsz]
      exact List.sorted_nil
  | s + 1, hsz =>
      exact selection_outer_correct s (s + 1) 0 lk hsz (by omega)
        (prefixDom_zero lk.nums)

/-!
### Bubble sort (and the suffix invariant shared with shaker/comb sort)
-/

theorem drop_eq_of_getD (l2 l : List Nat) (i : Nat)
    (hlen : l2.length = l.length)
    (h : ∀ p, i ≤ p → p < l.length → l2.getD p 0 = l.getD p 0) :
    l2.drop i = l.drop i := by
  apply List.ext_getElem (by simp [hlen])
  intro n h1 h2
  rw [List.getElem_drop, List.getElem_drop]
  have hp : i + n < l.length := by simp at h2; omega
  have := h (i + n) (by omega) hp
  rwa [List.getD_eq_getElem _ _ (by omega), List.getD_eq_getElem _ _ hp] at this

theorem take_perm_of_perm_drop_eq (l2 l : List Nat) (i : Nat)
    (hp : l2.Perm l) (hd : l2.drop i = l.drop i) :
    (l2.take i).Perm (l.take i) := by
  have h2 : l2.take i ++ l2.drop i = l2 := List.take_append_drop i l2
  have h : l.take i ++ l.drop i = l := List.take_append_drop i l
  rw [← h2, ← h, hd] at hp
  exact (List.perm_append_right_iff _).mp hp

theorem getD_mem_take (l : List Nat) (i q : Nat) (hq : q < i)
    (hqn : q < l.length) : l.getD q 0 ∈ l.take i := by
  rw [List.getD_eq_getElem _ _ hqn]
  have hlt : q < (l.take i).length := by simp; omega
  have : (l.take i)[q] = l[q] := List.getElem_take l
  rw [← this]
  exact List.getElem_mem hlt

theorem mem_take_getD (l : List Nat) (i : Nat) (x : Nat)
    (hx : x ∈ l.take i) :
    ∃ q, q < i ∧ q < l.length ∧ l.getD q 0 = x := by
  obtain ⟨n, hn, hget⟩ := List.mem_iff_getElem.mp hx
  have h1 : n < i := by simp at hn; omega
  have h2 : n < l.length := by simp at hn; omega
  refine ⟨n, h1, h2, ?_⟩
  rw [List.getD_eq_getElem _ _ h2, ← hget, List.getElem_take]

/-- The invariant of the bubble-style outer loops: the last `k` positions are
sorted and dominate everything before them. -/
def suffixDom (l : List Nat) (k : Nat) : Prop :=
  (∀ p q, l.length - k ≤ p → p < q → q < l.length → l.getD p 0 ≤ l.getD q 0) ∧
  (∀ x ∈ l.take (l.length - k), ∀ q, l.length - k ≤ q → q < l.length →
    x ≤ l.getD q 0)

theorem suffixDom_zero (l : List Nat) : suffixDom l 0 := by
  constructor
  · intro p q hp hpq hq
    omega
  · intro x hx q hq hql
    omega

theorem suffixDom_sorted (l : List Nat) (k : Nat)
    (h : suffixDom l k) (hk : l.length ≤ k + 1) : l.Sorted (· ≤ ·) := by
  apply sorted_of_adj
  intro p hp
  rcases Nat.lt_or_ge p (l.length - k) with h1 | h1
  · have hp1 : l.length - k = p + 1 := by omega
    exact h.2 _ (getD_mem_take l (l.length - k) p (by omega) (by omega))
      (p + 1) (by omega) (by omega)
  · exact h.1 p (p + 1) h1 (by omega) hp

/-- A fully clean (abort) pass over the unfixed prefix plus the suffix
invariant gives sortedness. -/
theorem suffixDom_abort_sorted (l : List Nat) (k : Nat)
    (h : suffixDom l k) (hadj : ∀ p, p + 1 ≤ l.length - k - 1 →
      l.getD p 0 ≤ l.getD (p + 1) 0) : l.Sorted (· ≤ ·) := by
  apply sorted_of_adj
  intro p hp
  rcases Nat.lt_or_ge (p + 1) (l.length - k) with h1 | h1
  · exact hadj p (by omega)
  · rcases Nat.lt_or_ge p (l.length - k) with h2 | h2
    · exact h.2 _ (getD_mem_take l (l.length - k) p (by omega) (by omega))
        (p + 1) (by omega) (by omega)
    · exact h.1 p (p + 1) h2 (by omega) hp

/-- Growing the sorted suffix by one after a pass that made position `m` a
maximum of the prefix and touched only positions `≤ m`. -/
theorem suffixDom_step (l l2 : List Nat) (k : Nat)
    (hlen : l2.length = l.length) (hperm : l2.Perm l)
    (hm : l.length = k + 1 + (l.length - k - 1))
    (hout : ∀ p, l.length - k - 1 < p → p < l.length →
      l2.getD p 0 = l.getD p 0)
    (hmax : ∀ q, q ≤ l.length - k - 1 →
      l2.getD q 0 ≤ l2.getD (l.length - k - 1) 0)
    (hinv : suffixDom l k) :
    suffixDom l2 (k + 1) := by
  set m := l.length - k - 1 with hmdef
  have hnk : l.length - k = m + 1 := by omega
  have hdeq : l2.drop (m + 1) = l.drop (m + 1) :=
    drop_eq_of_getD l2 l (m + 1) hlen (fun p h1 h2 => hout p (by omega) h2)
  have htp : (l2.take (m + 1)).Perm (l.take (m + 1)) :=
    take_perm_of_perm_drop_eq l2 l (m + 1) hperm hdeq
  have hl2n : l2.length - (k + 1) = m := by omega
  constructor
  · intro p q hp hpq hq
    have hp' : m ≤ p := by omega
    have hql : q < l.length := by omega
    rcases eq_or_lt_of_le hp' with heq | hgt
    · -- p = m
      have hqv : l2.getD q 0 = l.getD q 0 := hout q (by omega) hql
      have hxm : l2.getD p 0 ∈ l.take (m + 1) :=
        htp.mem_iff.mp (getD_mem_take l2 (m + 1) p (by omega) (by omega))
      rw [hqv]
      exact hinv.2 _ (hnk ▸ hxm) q (by omega) hql
    · rw [hout p (by omega) (by omega), hout q (by omega) hql]
      exact hinv.1 p q (by omega) hpq hql
  · intro x hx q hq hql
    have hq' : m ≤ q := by omega
    have hql' : q < l.length := by omega
    have hxm : x ∈ l2.take m := by
      rw [show l2.length - (k + 1) = m by omega] at hx
      exact hx
    rcases eq_or_lt_of_le hq' with heq | hgt
    · -- q = m : x is in the prefix, bounded by the new maximum at m
      obtain ⟨p, hp1, hp2, hp3⟩ := mem_take_getD l2 m x hxm
      rw [← heq, ← hp3]
      exact hmax p (by omega)
    · have hqv : l2.getD q 0 = l.getD q 0 := hout q (by omega) hql'
      have hx' : x ∈ l.take (m + 1) := by
        refine htp.mem_iff.mp ?_
        have heq : l2.take m = (l2.take (m + 1)).take m := by
          rw [List.take_take]
          congr 1
          omega
        rw [heq] at hxm
        exact (List.take_prefix m (l2.take (m + 1))).subset hxm
      rw [hqv]
      exact hinv.2 x (hnk ▸ hx') q (by omega) hql'

/-- Numbers-level semantics of `cmp_swap_pass` (shared by bubble and the
forward shaker pass): the abort flag and the resulting numbers. -/
def cmp_swap_passP (cnt j : Nat) (abort : Bool) (l : List Nat) :
    Bool × List Nat :=
  match cnt with
  | 0 => (abort, l)
  | c + 1 =>
      if l.getD (j + 1) 0 < l.getD j 0 then
        cmp_swap_passP c (j + 1) false (swapL j (j + 1) l)
      else cmp_swap_passP c (j + 1) abort l

theorem cmp_swap_pass_nums (cnt : Nat) :
    ∀ (j : Nat) (abort : Bool) (lk : ArrayLock), j + cnt < lk.nums.length →
      ∃ lk', cmp_swap_pass cnt j abort lk =
          some ((cmp_swap_passP cnt j abort lk.nums).1, lk') ∧
        lk'.nums = (cmp_swap_passP cnt j abort lk.nums).2 := by
  induction cnt with
  | zero => intro j abort lk _; exact ⟨lk, rfl, rfl⟩
  | succ c ih =>
      intro j abort lk hj
      have hj1 : j + 1 < lk.nums.length := by omega
      obtain ⟨lk1, hc, hn1⟩ := ArrayLock.cmp_two_nums lk j (j + 1) (by omega) hj1
      rw [cmp_swap_pass, hc]
      simp only [Option.bind_eq_bind, Option.some_bind]
      by_cases hlt : lk.nums.getD (j + 1) 0 < lk.nums.getD j 0
      · rw [if_pos (by rw [Nat.compare_eq_gt]; exact hlt)]
        obtain ⟨lk2, hs, hn2⟩ := ArrayLock.swap_nums lk1 j (j + 1)
          (by rw [hn1]; omega) (by rw [hn1]; exact hj1)
        rw [hs]
        simp only [Option.some_bind]
        have hn2' : lk2.nums = swapL j (j + 1) lk.nums := by rw [hn2, hn1]
        obtain ⟨lk', hrec, hn'⟩ := ih (j + 1) false lk2
          (by rw [hn2']; simp; omega)
        rw [hn2'] at hrec hn'
        refine ⟨lk', ?_, ?_⟩
        · rw [hrec, cmp_swap_passP, if_pos hlt]
        · rw [hn', cmp_swap_passP, if_pos hlt]
      · rw [if_neg (by rw [Nat.compare_eq_gt]; exact hlt)]
        obtain ⟨lk', hrec, hn'⟩ := ih (j + 1) abort lk1 (by rw [hn1]; omega)
        rw [hn1] at hrec hn'
        refine ⟨lk', ?_, ?_⟩
        · rw [hrec, cmp_swap_passP, if_neg hlt]
        · rw [hn', cmp_swap_passP, if_neg hlt]

theorem cmp_swap_passP_spec (cnt : Nat) :
    ∀ (j : Nat) (abort : Bool) (l : List Nat), j + cnt < l.length →
      ((cmp_swap_passP cnt j abort l).2.length = l.length ∧
       (cmp_swap_passP cnt j abort l).2.Perm l) ∧
      (∀ p, p < j ∨ j + cnt < p →
        (cmp_swap_passP cnt j abort l).2.getD p 0 = l.getD p 0) ∧
      ((∀ q, j ≤ q → q ≤ j + cnt →
        (cmp_swap_passP cnt j abort l).2.getD q 0 ≤
          (cmp_swap_passP cnt j abort l).2.getD (j + cnt) 0) ∧
       (∀ q, j ≤ q → q ≤ j + cnt →
        l.getD q 0 ≤ (cmp_swap_passP cnt j abort l).2.getD (j + cnt) 0)) ∧
      ((cmp_swap_passP cnt j abort l).1 = true →
        abort = true ∧ (cmp_swap_passP cnt j abort l).2 = l ∧
        ∀ k, j ≤ k → k < j + cnt → l.getD k 0 ≤ l.getD (k + 1) 0) := by
  induction cnt with
  | zero =>
      intro j abort l hj
      refine ⟨⟨rfl, List.Perm.refl l⟩, fun p _ => rfl, ⟨?_, ?_⟩, ?_⟩
      · intro q h1 h2
        have : q = j := by omega
        subst this
        simp [cmp_swap_passP]
      · intro q h1 h2
        have : q = j := by omega
        subst this
        simp [cmp_swap_passP]
      · intro h
        exact ⟨h, rfl, fun k h1 h2 => absurd (h1.trans_lt h2) (by omega)⟩
  | succ c ih =>
      intro j abort l hj
      rw [cmp_swap_passP]
      have hj1 : j + 1 < l.length := by omega
      by_cases hlt : l.getD (j + 1) 0 < l.getD j 0
      · rw [if_pos hlt]
        set l2 := swapL j (j + 1) l with hl2
        have hg : ∀ x, l2.getD x 0 =
            if x = j + 1 then l.getD j 0
            else if x = j then l.getD (j + 1) 0
            else l.getD x 0 :=
          fun x => getD_swapL j (j + 1) x l (by omega) hj1
        have hgj : l2.getD j 0 = l.getD (j + 1) 0 := by
          rw [hg j, if_neg (by omega), if_pos rfl]
        have hgj1 : l2.getD (j + 1) 0 = l.getD j 0 := by
          rw [hg (j + 1), if_pos rfl]
        have hl2len : l2.length = l.length := by simp [hl2]
        obtain ⟨⟨il, ip⟩, io, ⟨imx, imx'⟩, iab⟩ := ih (j + 1) false l2
          (by omega)
        have hend : j + (c + 1) = (j + 1) + c := by omega
        refine ⟨⟨by rw [il, hl2len],
          ip.trans (swapL_perm j (j + 1) l (by omega) hj1)⟩, ?_, ⟨?_, ?_⟩, ?_⟩
        · intro p hp
          have hpn : p ≠ j ∧ p ≠ j + 1 := by omega
          rw [io p (by omega), hg p, if_neg hpn.2, if_neg hpn.1]
        · intro q h1 h2
          rw [hend]
          rcases eq_or_lt_of_le h1 with heq | hgt
          · -- q = j, untouched by the recursive pass
            rw [← heq]
            have hPj : (cmp_swap_passP c (j + 1) false l2).2.getD j 0 =
                l2.getD j 0 := io j (by omega)
            rw [hPj, hgj]
            have := imx' (j + 1) le_rfl (by omega)
            rw [hgj1] at this
            exact le_trans (le_of_lt hlt) this
          · exact imx q (by omega) (by omega)
        · intro q h1 h2
          rw [hend]
          rcases eq_or_lt_of_le h1 with heq | hgt
          · -- q = j : l[j] sits at position j+1 of l2
            rw [← heq]
            have := imx' (j + 1) le_rfl (by omega)
            rwa [hgj1] at this
          · -- q ≥ j+1 : either j+1 (value moved down) or untouched
            rcases eq_or_lt_of_le hgt with heq1 | hgt1
            · rw [← heq1]
              have h0 := imx' (j + 1) le_rfl (by omega)
              rw [hgj1] at h0
              have h1' : l.getD (j + 1) 0 ≤ l.getD j 0 := le_of_lt hlt
              exact le_trans h1' h0
            · have : l.getD q 0 = l2.getD q 0 := by
                rw [hg q, if_neg (by omega), if_neg (by omega)]
              rw [this]
              exact imx' q (by omega) (by omega)
        · intro h
          obtain ⟨hfalse, _, _⟩ := iab h
          exact absurd hfalse (by simp)
      · rw [if_neg hlt]
        push_neg at hlt
        obtain ⟨⟨il, ip⟩, io, ⟨imx, imx'⟩, iab⟩ := ih (j + 1) abort l (by omega)
        have hend : j + (c + 1) = (j + 1) + c := by omega
        refine ⟨⟨il, ip⟩, ?_, ⟨?_, ?_⟩, ?_⟩
        · intro p hp
          exact io p (by omega)
        · intro q h1 h2
          rw [hend]
          rcases eq_or_lt_of_le h1 with heq | hgt
          · rw [← heq]
            have hPj : (cmp_swap_passP c (j + 1) abort l).2.getD j 0 =
                l.getD j 0 := io j (by omega)
            rw [hPj]
            exact le_trans hlt (imx' (j + 1) le_rfl (by omega))
          · exact imx q (by omega) (by omega)
        · intro q h1 h2
          rw [hend]
          rcases eq_or_lt_of_le h1 with heq | hgt
          · rw [← heq]
            exact le_trans hlt (imx' (j + 1) le_rfl (by omega))
          · exact imx' q (by omega) (by omega)
        · intro h
          obtain ⟨h1, h2, h3⟩ := iab h
          refine ⟨h1, h2, ?_⟩
          intro k hk1 hk2
          rcases eq_or_lt_of_le hk1 with heq | hgt
          · rw [← heq]; exact hlt
          · exact h3 k (by omega) (by omega)

theorem bubble_outer_correct (cnt : Nat) :
    ∀ (size i : Nat) (lk : ArrayLock), lk.nums.length = size →
      i + cnt = size → 1 ≤ i → suffixDom lk.nums (i - 1) →
      ∃ lk', bubble_outer size cnt i lk = some lk' ∧
        lk'.nums.Perm lk.nums ∧ lk'.nums.Sorted (· ≤ ·) := by
  induction cnt with
  | zero =>
      intro size i lk hsz his hi hinv
      exact ⟨lk, rfl, List.Perm.refl _,
        suffixDom_sorted lk.nums (i - 1) hinv (by omega)⟩
  | succ c ih =>
      intro size i lk hsz his hi hinv
      have hilt : i < size := by omega
      have hpb : 0 + (size - i) < lk.nums.length := by omega
      obtain ⟨lk2, hpass, hn2⟩ := cmp_swap_pass_nums (size - i) 0 true lk hpb
      obtain ⟨⟨sl, sp⟩, so, ⟨smx, smx'⟩, sab⟩ :=
        cmp_swap_passP_spec (size - i) 0 true lk.nums hpb
      rw [bubble_outer, hpass]
      simp only [Option.bind_eq_bind, Option.some_bind]
      by_cases habort : (cmp_swap_passP (size - i) 0 true lk.nums).1 = true
      · rw [if_pos habort]
        obtain ⟨-, heq, hadj⟩ := sab habort
        refine ⟨lk2, rfl, ?_, ?_⟩
        · rw [hn2, heq]
        · rw [hn2, heq]
          exact suffixDom_abort_sorted lk.nums (i - 1) hinv
            (fun p hp => hadj p (by omega) (by omega))
      · rw [if_neg habort]
        have hinv2 : suffixDom lk2.nums (i - 1 + 1) := by
          rw [hn2]
          refine suffixDom_step lk.nums _ (i - 1) sl sp (by omega) ?_ ?_ hinv
          · intro p h1 h2
            exact so p (Or.inr (by omega))
          · intro q hq
            have h0 := smx q (by omega) (by omega)
            rw [show lk.nums.length - (i - 1) - 1 = 0 + (size - i) by omega]
            simpa using h0
        obtain ⟨lk', hrun, hperm, hsorted⟩ := ih size (i + 1) lk2
          (by rw [hn2, sl, hsz]) (by omega) (by omega)
          (by rw [show i + 1 - 1 = i - 1 + 1 by omega]; exact hinv2)
        refine ⟨lk', hrun, ?_, hsorted⟩
        rw [hn2] at hperm
        exact hperm.trans sp

theorem bubble_sort_correct (lk : ArrayLock) (size : Nat)
    (hsz : lk.nums.length = size) :
    ∃ lk', bubble_sort lk size = some lk' ∧
      lk'.nums.Perm lk.nums ∧ lk'.nums.Sorted (· ≤ ·) := by
  match size, hsz with
  | 0, hsz =>
      refine ⟨lk, rfl, List.Perm.refl _, ?_⟩
      rw [List.eq_nil_of_length_eq_zero hsz]
      exact List.sorted_nil
  | s + 1, hsz =>
      exact bubble_outer_correct s (s + 1) 1 lk hsz (by omega) le_rfl
        (suffixDom_zero lk.nums)

/-!
### Shaker sort
-/

theorem getD_drop (l : List Nat) (a t : Nat) (h : a + t < l.length) :
    (l.drop a).getD t 0 = l.getD (a + t) 0 := by
  rw [List.getD_eq_getElem _ _ (by simp; omega), List.getD_eq_getElem _ _ h,
    List.getElem_drop]

/-- If a permutation fixes the positions outside `[a, m)` pointwise, then the
value sitting at any middle position came from some middle position. -/
theorem middle_mem (l l2 : List Nat) (a m : Nat)
    (hlen : l2.length = l.length) (hperm : l2.Perm l)
    (hpre : ∀ p, p < a → l2.getD p 0 = l.getD p 0)
    (hsuf : ∀ q, m ≤ q → q < l.length → l2.getD q 0 = l.getD q 0)
    (hm : m ≤ l.length) :
    ∀ q, a ≤ q → q < m → ∃ r, a ≤ r ∧ r < m ∧ l.getD r 0 = l2.getD q 0 := by
  intro q hq1 hq2
  have hd : (l2.drop a).Perm (l.drop a) :=
    drop_perm_of_perm_take_eq l2 l a hperm
      (take_eq_of_getD l2 l a hlen hpre)
  have hdd : (l2.drop a).drop (m - a) = (l.drop a).drop (m - a) := by
    rw [List.drop_drop, List.drop_drop]
    rw [show a + (m - a) = m by omega]
    exact drop_eq_of_getD l2 l m hlen (fun p h1 h2 => hsuf p h1 h2)
  have hmt : ((l2.drop a).take (m - a)).Perm ((l.drop a).take (m - a)) :=
    take_perm_of_perm_drop_eq _ _ (m - a) hd hdd
  have hq2' : l2.getD q 0 ∈ (l2.drop a).take (m - a) := by
    have : l2.getD q 0 = (l2.drop a).getD (q - a) 0 := by
      rw [getD_drop l2 a (q - a) (by omega), show a + (q - a) = q by omega]
    rw [this]
    exact getD_mem_take _ (m - a) (q - a) (by omega) (by simp; omega)
  have hmem : l2.getD q 0 ∈ (l.drop a).take (m - a) := hmt.mem_iff.mp hq2'
  obtain ⟨t, ht1, ht2, ht3⟩ := mem_take_getD (l.drop a) (m - a) _ hmem
  refine ⟨a + t, by omega, by omega, ?_⟩
  rw [← ht3, getD_drop l a t (by simp at ht2; omega)]

/-- Numbers-level semantics of `shaker_backward`. -/
def shaker_backwardP (cnt j : Nat) (abort : Bool) (l : List Nat) :
    Bool × List Nat :=
  match cnt with
  | 0 => (abort, l)
  | c + 1 =>
      if l.getD j 0 < l.getD (j - 1) 0 then
        shaker_backwardP c (j - 1) false (swapL j (j - 1) l)
      else shaker_backwardP c (j - 1) abort l

theorem shaker_backward_nums (cnt : Nat) :
    ∀ (j : Nat) (abort : Bool) (lk : ArrayLock), cnt ≤ j →
      j < lk.nums.length →
      ∃ lk', shaker_backward cnt j abort lk =
          some ((shaker_backwardP cnt j abort lk.nums).1, lk') ∧
        lk'.nums = (shaker_backwardP cnt j abort lk.nums).2 := by
  induction cnt with
  | zero => intro j abort lk _ _; exact ⟨lk, rfl, rfl⟩
  | succ c ih =>
      intro j abort lk hcj hj
      have hj1 : j - 1 < lk.nums.length := by omega
      obtain ⟨lk1, hc, hn1⟩ := ArrayLock.cmp_two_nums lk j (j - 1) hj hj1
      rw [shaker_backward, hc]
      simp only [Option.bind_eq_bind, Option.some_bind]
      by_cases hlt : lk.nums.getD j 0 < lk.nums.getD (j - 1) 0
      · rw [if_pos (by rw [Nat.compare_eq_lt]; exact hlt)]
        obtain ⟨lk2, hs, hn2⟩ := ArrayLock.swap_nums lk1 j (j - 1)
          (by rw [hn1]; exact hj) (by rw [hn1]; exact hj1)
        rw [hs]
        simp only [Option.some_bind]
        have hn2' : lk2.nums = swapL j (j - 1) lk.nums := by rw [hn2, hn1]
        obtain ⟨lk', hrec, hn'⟩ := ih (j - 1) false lk2 (by omega)
          (by rw [hn2']; simp; omega)
        rw [hn2'] at hrec hn'
        refine ⟨lk', ?_, ?_⟩
        · rw [hrec, shaker_backwardP, if_pos hlt]
        · rw [hn', shaker_backwardP, if_pos hlt]
      · rw [if_neg (by rw [Nat.compare_eq_lt]; exact hlt)]
        obtain ⟨lk', hrec, hn'⟩ := ih (j - 1) abort lk1 (by omega)
          (by rw [hn1]; omega)
        rw [hn1] at hrec hn'
        refine ⟨lk', ?_, ?_⟩
        · rw [hrec, shaker_backwardP, if_neg hlt]
        · rw [hn', shaker_backwardP, if_neg hlt]

theorem shaker_backwardP_spec (cnt : Nat) :
    ∀ (j : Nat) (abort : Bool) (l : List Nat), cnt ≤ j → j < l.length →
      ((shaker_backwardP cnt j abort l).2.length = l.length ∧
       (shaker_backwardP cnt j abort l).2.Perm l) ∧
      (∀ p, p < j - cnt ∨ j < p →
        (shaker_backwardP cnt j abort l).2.getD p 0 = l.getD p 0) ∧
      ((∀ q, j - cnt ≤ q → q ≤ j →
        (shaker_backwardP cnt j abort l).2.getD (j - cnt) 0 ≤
          (shaker_backwardP cnt j abort l).2.getD q 0) ∧
       (∀ q, j - cnt ≤ q → q ≤ j →
        (shaker_backwardP cnt j abort l).2.getD (j - cnt) 0 ≤ l.getD q 0)) ∧
      ((shaker_backwardP cnt j abort l).1 = true →
        abort = true ∧ (shaker_backwardP cnt j abort l).2 = l ∧
        ∀ k, j - cnt ≤ k → k < j → l.getD k 0 ≤ l.getD (k + 1) 0) := by
  induction cnt with
  | zero =>
      intro j abort l hcj hj
      refine ⟨⟨rfl, List.Perm.refl l⟩, fun p _ => rfl, ⟨?_, ?_⟩, ?_⟩
      · intro q h1 h2
        have : q = j := by omega
        subst this
        simp [shaker_backwardP]
      · intro q h1 h2
        have : q = j := by omega
        subst this
        simp [shaker_backwardP]
      · intro h
        exact ⟨h, rfl, fun k h1 h2 => absurd (h1.trans_lt h2) (by omega)⟩
  | succ c ih =>
      intro j abort l hcj hj
      rw [shaker_backwardP]
      have hj1 : j - 1 < l.length := by omega
      have hlow : j - (c + 1) = (j - 1) - c := by omega
      by_cases hlt : l.getD j 0 < l.getD (j - 1) 0
      · rw [if_pos hlt]
        set l2 := swapL j (j - 1) l with hl2
        have hg : ∀ x, l2.getD x 0 =
            if x = j - 1 then l.getD j 0
            else if x = j then l.getD (j - 1) 0
            else l.getD x 0 :=
          fun x => getD_swapL j (j - 1) x l hj hj1
        have hgj : l2.getD j 0 = l.getD (j - 1) 0 := by
          rw [hg j, if_neg (by omega), if_pos rfl]
        have hgj1 : l2.getD (j - 1) 0 = l.getD j 0 := by
          rw [hg (j - 1), if_pos rfl]
        have hl2len : l2.length = l.length := by simp [hl2]
        obtain ⟨⟨il, ip⟩, io, ⟨imn, imn'⟩, iab⟩ := ih (j - 1) false l2
          (by omega) (by omega)
        refine ⟨⟨by rw [il, hl2len], ip.trans (swapL_perm j (j - 1) l hj hj1)⟩,
          ?_, ⟨?_, ?_⟩, ?_⟩
        · intro p hp
          have hpn : p ≠ j ∧ p ≠ j - 1 := by omega
          rw [io p (by omega), hg p, if_neg hpn.2, if_neg hpn.1]
        · intro q h1 h2
          rw [hlow]
          rcases eq_or_lt_of_le h2 with heq | hgt
          · -- q = j, untouched by the recursive pass
            have hPj : (shaker_backwardP c (j - 1) false l2).2.getD j 0 =
                l2.getD j 0 := io j (by omega)
            rw [heq, hPj, hgj]
            have h0 := imn' (j - 1) (by omega) le_rfl
            rw [hgj1] at h0
            exact le_trans h0 (le_of_lt hlt)
          · exact imn q (by omega) (by omega)
        · intro q h1 h2
          rw [hlow]
          rcases eq_or_lt_of_le h2 with heq | hgt
          · -- q = j : l[j] now sits at position j-1 of l2
            have h0 := imn' (j - 1) (by omega) le_rfl
            rw [hgj1] at h0
            rw [heq]
            exact h0
          · rcases Nat.lt_or_ge q (j - 1) with hq1 | hq1
            · have : l.getD q 0 = l2.getD q 0 := by
                rw [hg q, if_neg (by omega), if_neg (by omega)]
              rw [this]
              exact imn' q (by omega) (by omega)
            · have hq2 : q = j - 1 := by omega
              rw [hq2]
              have h0 := imn' (j - 1) (by omega) le_rfl
              rw [hgj1] at h0
              exact le_trans h0 (le_of_lt hlt)
        · intro h
          obtain ⟨hfalse, _, _⟩ := iab h
          exact absurd hfalse (by simp)
      · rw [if_neg hlt]
        push_neg at hlt
        obtain ⟨⟨il, ip⟩, io, ⟨imn, imn'⟩, iab⟩ := ih (j - 1) abort l
          (by omega) (by omega)
        refine ⟨⟨il, ip⟩, ?_, ⟨?_, ?_⟩, ?_⟩
        · intro p hp
          exact io p (by omega)
        · intro q h1 h2
          rw [hlow]
          rcases eq_or_lt_of_le h2 with heq | hgt
          · have hPj : (shaker_backwardP c (j - 1) abort l).2.getD j 0 =
                l.getD j 0 := io j (by omega)
            rw [heq, hPj]
            exact le_trans (imn' (j - 1) (by omega) le_rfl) hlt
          · exact imn q (by omega) (by omega)
        · intro q h1 h2
          rw [hlow]
          rcases eq_or_lt_of_le h2 with heq | hgt
          · rw [heq]
            exact le_trans (imn' (j - 1) (by omega) le_rfl) hlt
          · exact imn' q (by omega) (by omega)
        · intro h
          obtain ⟨h1, h2, h3⟩ := iab h
          refine ⟨h1, h2, ?_⟩
          intro k hk1 hk2
          rcases Nat.lt_or_ge k (j - 1) with hgt | hge
          · exact h3 k (by omega) (by omega)
          · have : k = j - 1 := by omega
            rw [this, show j - 1 + 1 = j by omega]
            exact hlt

/-- The two-sided invariant of shaker sort: the first `a` and the last `b`
positions are in their final, sorted, dominating places. -/
def shakerInv (l : List Nat) (a b : Nat) : Prop :=
  (∀ p q, p < a → p < q → q < l.length → l.getD p 0 ≤ l.getD q 0) ∧
  (∀ p q, l.length - b ≤ q → q < l.length → p < q → l.getD p 0 ≤ l.getD q 0)

theorem shakerInv_zero (l : List Nat) : shakerInv l 0 0 := by
  constructor
  · intro p q hp; omega
  · intro p q hq hql; omega

theorem shakerInv_adj_sorted (l : List Nat) (a b : Nat)
    (hinv : shakerInv l a b)
    (hadj : ∀ k, a ≤ k → k + 1 < l.length - b →
      l.getD k 0 ≤ l.getD (k + 1) 0) :
    l.Sorted (· ≤ ·) := by
  apply sorted_of_adj
  intro p hp
  rcases Nat.lt_or_ge p a with h1 | h1
  · exact hinv.1 p (p + 1) h1 (by omega) hp
  · rcases Nat.lt_or_ge (p + 1) (l.length - b) with h2 | h2
    · exact hadj p h1 h2
    · exact hinv.2 p (p + 1) h2 hp (by omega)

theorem shakerInv_forward_step (l l2 : List Nat) (a b : Nat)
    (hlen : l2.length = l.length) (hperm : l2.Perm l)
    (hab : a + b + 1 ≤ l.length)
    (hout : ∀ p, p < a ∨ l.length - b - 1 < p → l2.getD p 0 = l.getD p 0)
    (hmax : ∀ q, a ≤ q → q ≤ l.length - b - 1 →
      l2.getD q 0 ≤ l2.getD (l.length - b - 1) 0)
    (hinv : shakerInv l a b) : shakerInv l2 a (b + 1) := by
  have hmid := middle_mem l l2 a (l.length - b) hlen hperm
    (fun p hp => hout p (Or.inl hp))
    (fun q h1 h2 => hout q (Or.inr (by omega))) (by omega)
  constructor
  · intro p q hp hpq hq
    rw [hlen] at hq
    rw [hout p (Or.inl hp)]
    rcases Nat.lt_or_ge q a with h1 | h1
    · rw [hout q (Or.inl h1)]
      exact hinv.1 p q hp hpq hq
    · rcases Nat.lt_or_ge q (l.length - b) with h2 | h2
      · obtain ⟨r, hr1, hr2, hr3⟩ := hmid q h1 h2
        rw [← hr3]
        exact hinv.1 p r hp (by omega) (by omega)
      · rw [hout q (Or.inr (by omega))]
        exact hinv.1 p q hp hpq hq
  · intro p q hq hql hpq
    rw [hlen] at hq hql
    rcases Nat.lt_or_ge q (l.length - b) with h1 | h1
    · -- q is the newly fixed position l.length - b - 1
      have hq2 : q = l.length - b - 1 := by omega
      rcases Nat.lt_or_ge p a with h3 | h3
      · rw [hout p (Or.inl h3)]
        obtain ⟨r, hr1, hr2, hr3⟩ := hmid q (by omega) (by omega)
        rw [← hr3]
        exact hinv.1 p r h3 (by omega) (by omega)
      · rw [hq2]
        exact hmax p (by omega) (by omega)
    · rw [hout q (Or.inr (by omega))]
      rcases Nat.lt_or_ge p a with h3 | h3
      · rw [hout p (Or.inl h3)]
        exact hinv.2 p q h1 hql hpq
      · rcases Nat.lt_or_ge p (l.length - b) with h4 | h4
        · obtain ⟨r, hr1, hr2, hr3⟩ := hmid p h3 h4
          rw [← hr3]
          exact hinv.2 r q h1 hql (by omega)
        · rw [hout p (Or.inr (by omega))]
          exact hinv.2 p q h1 hql hpq

theorem shakerInv_backward_step (l l2 : List Nat) (a b : Nat)
    (hlen : l2.length = l.length) (hperm : l2.Perm l)
    (hab : a + b + 1 ≤ l.length)
    (hout : ∀ p, p < a ∨ l.length - b - 1 < p → l2.getD p 0 = l.getD p 0)
    (hmin : ∀ q, a ≤ q → q ≤ l.length - b - 1 →
      l2.getD a 0 ≤ l2.getD q 0)
    (hinv : shakerInv l a b) : shakerInv l2 (a + 1) b := by
  have hmid := middle_mem l l2 a (l.length - b) hlen hperm
    (fun p hp => hout p (Or.inl hp))
    (fun q h1 h2 => hout q (Or.inr (by omega))) (by omega)
  constructor
  · intro p q hp hpq hq
    rw [hlen] at hq
    rcases Nat.lt_or_ge p a with h1 | h1
    · -- old prefix position
      rw [hout p (Or.inl h1)]
      rcases Nat.lt_or_ge q a with h2 | h2
      · rw [hout q (Or.inl h2)]
        exact hinv.1 p q h1 hpq hq
      · rcases Nat.lt_or_ge q (l.length - b) with h3 | h3
        · obtain ⟨r, hr1, hr2, hr3⟩ := hmid q h2 h3
          rw [← hr3]
          exact hinv.1 p r h1 (by omega) (by omega)
        · rw [hout q (Or.inr (by omega))]
          exact hinv.1 p q h1 hpq hq
    · -- p = a, the newly fixed minimum
      have hpa : p = a := by omega
      subst hpa
      rcases Nat.lt_or_ge q (l.length - b) with h3 | h3
      · exact hmin q (by omega) (by omega)
      · obtain ⟨r, hr1, hr2, hr3⟩ := hmid p le_rfl (by omega)
        rw [← hr3, hout q (Or.inr (by omega))]
        exact hinv.2 r q h3 hq (by omega)
  · intro p q hq hql hpq
    rw [hlen] at hq hql
    rw [hout q (Or.inr (by omega))]
    rcases Nat.lt_or_ge p a with h3 | h3
    · rw [hout p (Or.inl h3)]
      exact hinv.2 p q hq hql hpq
    · rcases Nat.lt_or_ge p (l.length - b) with h4 | h4
      · obtain ⟨r, hr1, hr2, hr3⟩ := hmid p h3 h4
        rw [← hr3]
        exact hinv.2 r q hq hql (by omega)
      · rw [hout p (Or.inr (by omega))]
        exact hinv.2 p q hq hql hpq

theorem shaker_outer_correct (cnt : Nat) :
    ∀ (size i : Nat) (lk : ArrayLock), lk.nums.length = size →
      1 ≤ i → i + cnt = size / 2 + 1 → shakerInv lk.nums (i - 1) (i - 1) →
      ∃ lk', shaker_outer size cnt i lk = some lk' ∧
        lk'.nums.Perm lk.nums ∧ lk'.nums.Sorted (· ≤ ·) := by
  induction cnt with
  | zero =>
      intro size i lk hsz hi his hinv
      refine ⟨lk, rfl, List.Perm.refl _, ?_⟩
      refine shakerInv_adj_sorted lk.nums (i - 1) (i - 1) hinv ?_
      intro k h1 h2
      omega
  | succ c ih =>
      intro size i lk hsz hi his hinv
      have h2i : 2 * i ≤ size := by omega
      have hpb : (i - 1) + ((size - i) - (i - 1)) < lk.nums.length := by omega
      obtain ⟨lk2, hpass, hn2⟩ := cmp_swap_pass_nums ((size - i) - (i - 1))
        (i - 1) true lk hpb
      obtain ⟨⟨sl, sp⟩, so, ⟨smx, smx'⟩, sab⟩ :=
        cmp_swap_passP_spec ((size - i) - (i - 1)) (i - 1) true lk.nums hpb
      rw [shaker_outer, hpass]
      simp only [Option.bind_eq_bind, Option.some_bind]
      have hend : (i - 1) + ((size - i) - (i - 1)) = size - i := by omega
      by_cases habort :
          (cmp_swap_passP ((size - i) - (i - 1)) (i - 1) true lk.nums).1 = true
      · rw [if_pos habort]
        obtain ⟨-, heq, hadj⟩ := sab habort
        refine ⟨lk2, rfl, ?_, ?_⟩
        · rw [hn2, heq]
        · rw [hn2, heq]
          refine shakerInv_adj_sorted lk.nums (i - 1) (i - 1) hinv ?_
          intro k h1 h2
          exact hadj k h1 (by omega)
      · rw [if_neg habort]
        have hinvF : shakerInv lk2.nums (i - 1) ((i - 1) + 1) := by
          rw [hn2]
          refine shakerInv_forward_step lk.nums _ (i - 1) (i - 1) sl sp
            (by omega) ?_ ?_ hinv
          · intro p hp
            refine so p ?_
            rcases hp with h | h
            · exact Or.inl h
            · exact Or.inr (by omega)
          · intro q h1 h2
            have := smx q h1 (by omega)
            rw [hend] at this
            rw [show lk.nums.length - (i - 1) - 1 = size - i by omega]
            exact this
        -- backward pass
        have hia : (i - 1) + 1 = i := by omega
        rw [hia] at hinvF
        have hlen2 : lk2.nums.length = size := by rw [hn2, sl, hsz]
        have hjb : size - i - 1 < lk2.nums.length := by omega
        obtain ⟨lk3, hback, hn3⟩ := shaker_backward_nums ((size - i) - i)
          (size - i - 1) true lk2 (by omega) hjb
        obtain ⟨⟨bl, bp⟩, bo, ⟨bmn, bmn'⟩, bab⟩ :=
          shaker_backwardP_spec ((size - i) - i) (size - i - 1) true
          lk2.nums (by omega) hjb
        rw [hback]
        simp only [Option.bind_eq_bind, Option.some_bind]
        by_cases hab2 :
            (shaker_backwardP ((size - i) - i) (size - i - 1) true
              lk2.nums).1 = true
        · rw [if_pos hab2]
          obtain ⟨-, heq, hadj⟩ := bab hab2
          refine ⟨lk3, rfl, ?_, ?_⟩
          · rw [hn3, heq, hn2]
            exact sp
          · rw [hn3, heq]
            refine shakerInv_adj_sorted lk2.nums (i - 1) i hinvF ?_
            intro k h1 h2
            rw [hlen2] at h2
            exact hadj k (by omega) (by omega)
        · rw [if_neg hab2]
          have hcnt1 : 1 ≤ (size - i) - i := by
            by_contra hc0
            have h0 : (size - i) - i = 0 := by omega
            rw [h0] at hab2
            exact hab2 rfl
          have hinvB : shakerInv lk3.nums i i := by
            rw [hn3]
            have hstep : shakerInv
                (shaker_backwardP ((size - i) - i) (size - i - 1) true
                  lk2.nums).2 ((i - 1) + 1) i := by
              refine shakerInv_backward_step lk2.nums _ (i - 1) i
                (by rw [bl]) bp (by omega) ?_ ?_ hinvF
              · intro p hp
                rw [hlen2] at hp
                exact bo p (by omega)
              · intro q h1 h2
                rw [hlen2] at h2
                have h0 := bmn q (by omega) (by omega)
                rwa [show (size - i - 1) - ((size - i) - i) = i - 1 by omega]
                  at h0
            rwa [show (i - 1) + 1 = i by omega] at hstep
          obtain ⟨lk', hrun, hperm, hsorted⟩ := ih size (i + 1) lk3
            (by rw [hn3, bl, hlen2]) (by omega) (by omega)
            (by rw [show i + 1 - 1 = i by omega]; exact hinvB)
          refine ⟨lk', hrun, ?_, hsorted⟩
          rw [hn3] at hperm
          have hp2 : lk2.nums.Perm lk.nums := by rw [hn2]; exact sp
          exact hperm.trans (bp.trans hp2)

theorem shaker_sort_correct (lk : ArrayLock) (size : Nat)
    (hsz : lk.nums.length = size) :
    ∃ lk', shaker_sort lk size = some lk' ∧
      lk'.nums.Perm lk.nums ∧ lk'.nums.Sorted (· ≤ ·) := by
  exact shaker_outer_correct (size / 2) size 1 lk hsz le_rfl (by omega)
    (shakerInv_zero lk.nums)

/-!
### Double selection sort
-/

/-- Pure mirror of `dsel_find_max`: descending maximum scan. -/
def dsel_find_maxP (cnt j mx : Nat) (l : List Nat) : Nat :=
  match cnt with
  | 0 => mx
  | c + 1 =>
      if l.getD mx 0 < l.getD j 0 then dsel_find_maxP c (j - 1) j l
      else dsel_find_maxP c (j - 1) mx l

theorem dsel_find_max_nums (cnt : Nat) :
    ∀ (j mx : Nat) (lk : ArrayLock), mx < lk.nums.length →
      j < lk.nums.length → cnt ≤ j + 1 →
      ∃ lk', dsel_find_max cnt j mx lk =
          some (dsel_find_maxP cnt j mx lk.nums, lk') ∧
        lk'.nums = lk.nums := by
  induction cnt with
  | zero => intro j mx lk _ _ _; exact ⟨lk, rfl, rfl⟩
  | succ c ih =>
      intro j mx lk hmx hj hcnt
      obtain ⟨lk1, hc, hn1⟩ := ArrayLock.cmp_two_nums lk mx j hmx hj
      rw [dsel_find_max, hc]
      simp only [Option.bind_eq_bind, Option.some_bind]
      by_cases hlt : lk.nums.getD mx 0 < lk.nums.getD j 0
      · rw [if_pos (by rw [Nat.compare_eq_lt]; exact hlt)]
        obtain ⟨lk', hrec, hn'⟩ := ih (j - 1) j lk1 (by rw [hn1]; omega)
          (by rw [hn1]; omega) (by omega)
        rw [hn1] at hrec
        refine ⟨lk', ?_, hn'.trans hn1⟩
        rw [hrec, dsel_find_maxP, if_pos hlt]
      · rw [if_neg (by rw [Nat.compare_eq_lt]; exact hlt)]
        obtain ⟨lk', hrec, hn'⟩ := ih (j - 1) mx lk1 (by rw [hn1]; omega)
          (by rw [hn1]; omega) (by omega)
        rw [hn1] at hrec
        refine ⟨lk', ?_, hn'.trans hn1⟩
        rw [hrec, dsel_find_maxP, if_neg hlt]

theorem dsel_find_maxP_spec (cnt : Nat) :
    ∀ (j mx : Nat) (l : List Nat), mx < l.length → j < l.length →
      cnt ≤ j + 1 →
      (dsel_find_maxP cnt j mx l = mx ∨
        (j + 1 - cnt ≤ dsel_find_maxP cnt j mx l ∧
          dsel_find_maxP cnt j mx l ≤ j)) ∧
      dsel_find_maxP cnt j mx l < l.length ∧
      l.getD mx 0 ≤ l.getD (dsel_find_maxP cnt j mx l) 0 ∧
      (∀ q, j + 1 - cnt ≤ q → q ≤ j →
        l.getD q 0 ≤ l.getD (dsel_find_maxP cnt j mx l) 0) := by
  induction cnt with
  | zero =>
      intro j mx l hmx hj _
      exact ⟨Or.inl rfl, hmx, le_rfl, fun q h1 h2 => absurd (h1.trans h2) (by omega)⟩
  | succ c ih =>
      intro j mx l hmx hj hcnt
      rw [dsel_find_maxP]
      by_cases hlt : l.getD mx 0 < l.getD j 0
      · rw [if_pos hlt]
        obtain ⟨im, il, id_, iq⟩ := ih (j - 1) j l hj (by omega) (by omega)
        refine ⟨by omega, il, le_trans (le_of_lt hlt) id_, ?_⟩
        intro q h1 h2
        rcases eq_or_lt_of_le h2 with heq | hgt
        · rw [heq]; exact id_
        · exact iq q (by omega) (by omega)
      · rw [if_neg hlt]
        push_neg at hlt
        obtain ⟨im, il, id_, iq⟩ := ih (j - 1) mx l hmx (by omega) (by omega)
        refine ⟨by omega, il, id_, ?_⟩
        intro q h1 h2
        rcases eq_or_lt_of_le h2 with heq | hgt
        · rw [heq]; exact le_trans hlt id_
        · exact iq q (by omega) (by omega)

/-- A conditional swap `if a ≠ b then swap a b else nothing` always succeeds
and permutes only positions `a` and `b`. -/
theorem cond_swap_nums (lk : ArrayLock) (a b : Nat) (ha : a < lk.nums.length)
    (hb : b < lk.nums.length) :
    ∃ lk', (if a ≠ b then lk.swap a b else some lk) = some lk' ∧
      lk'.nums.length = lk.nums.length ∧ lk'.nums.Perm lk.nums ∧
      (∀ p, p ≠ a → p ≠ b → lk'.nums.getD p 0 = lk.nums.getD p 0) ∧
      lk'.nums.getD a 0 = lk.nums.getD b 0 ∧
      lk'.nums.getD b 0 = lk.nums.getD a 0 := by
  by_cases hne : a ≠ b
  · rw [if_pos hne]
    obtain ⟨lk', hsw, hn'⟩ := ArrayLock.swap_nums lk a b ha hb
    have hg : ∀ x, (swapL a b lk.nums).getD x 0 =
        if x = b then lk.nums.getD a 0
        else if x = a then lk.nums.getD b 0
        else lk.nums.getD x 0 := fun x => getD_swapL a b x lk.nums ha hb
    refine ⟨lk', hsw, by rw [hn', swapL_length],
      by rw [hn']; exact swapL_perm a b lk.nums ha hb, ?_, ?_, ?_⟩
    · intro p hpa hpb
      rw [hn', hg p, if_neg hpb, if_neg hpa]
    · rw [hn', hg a, if_neg hne, if_pos rfl]
    · rw [hn', hg b, if_pos rfl]
  · rw [if_neg hne]
    push_neg at hne
    subst hne
    exact ⟨lk, rfl, rfl, List.Perm.refl _, fun p _ _ => rfl, rfl, rfl⟩

theorem dsel_outer_correct (cnt : Nat) :
    ∀ (size i : Nat) (lk : ArrayLock), lk.nums.length = size →
      i + cnt = size / 2 → shakerInv lk.nums i i →
      ∃ lk', dsel_outer size cnt i lk = some lk' ∧
        lk'.nums.Perm lk.nums ∧ lk'.nums.Sorted (· ≤ ·) := by
  induction cnt with
  | zero =>
      intro size i lk hsz his hinv
      refine ⟨lk, rfl, List.Perm.refl _, ?_⟩
      refine shakerInv_adj_sorted lk.nums i i hinv ?_
      intro k h1 h2
      omega
  | succ c ih =>
      intro size i lk hsz his hinv
      have h2i : 2 * i + 2 ≤ size := by omega
      have hi : i < lk.nums.length := by omega
      obtain ⟨lk1, hfind, hn1⟩ := selection_find_nums ((size - i) - (i + 1))
        (i + 1) i lk hi (by omega)
      obtain ⟨fm, fl, fd, fq⟩ := selection_findP_spec ((size - i) - (i + 1))
        (i + 1) i lk.nums hi (by omega)
      set mn := selection_findP ((size - i) - (i + 1)) (i + 1) i lk.nums
        with hmn
      rw [dsel_outer, hfind]
      simp only [Option.bind_eq_bind, Option.some_bind]
      obtain ⟨lk2, hcs, hl2, hp2, ho2, ha2, hb2⟩ := cond_swap_nums lk1 mn i
        (by rw [hn1]; exact fl) (by rw [hn1]; exact hi)
      rw [hcs]
      simp only [Option.some_bind]
      rw [hn1] at hl2 hp2 ho2 ha2 hb2
      have hmin0 : ∀ q, i ≤ q → q ≤ size - i - 1 →
          lk.nums.getD mn 0 ≤ lk.nums.getD q 0 := by
        intro q h1 h2
        rcases eq_or_lt_of_le h1 with heq | hgt
        · rw [← heq]; exact fd
        · exact fq q (by omega) (by omega)
      have hinv2 : shakerInv lk2.nums (i + 1) i := by
        refine shakerInv_backward_step lk.nums lk2.nums i i hl2 hp2 (by omega)
          ?_ ?_ hinv
        · intro p hp
          exact ho2 p (by omega) (by omega)
        · intro q h1 h2
          rw [hb2]
          by_cases hqi : q = i
          · rw [hqi, hb2]
          · by_cases hqm : q = mn
            · rw [hqm, ha2]
              exact fd
            · rw [ho2 q hqm hqi]
              exact hmin0 q h1 (by omega)
      have hlen2 : lk2.nums.length = size := by rw [hl2, hsz]
      obtain ⟨lk3, hfmax, hn3⟩ := dsel_find_max_nums ((size - i - 1) - (i + 1))
        (size - i - 2) (size - i - 1) lk2 (by omega) (by omega) (by omega)
      obtain ⟨gm, gl, gd, gq⟩ := dsel_find_maxP_spec ((size - i - 1) - (i + 1))
        (size - i - 2) (size - i - 1) lk2.nums (by omega) (by omega) (by omega)
      set mx := dsel_find_maxP ((size - i - 1) - (i + 1)) (size - i - 2)
        (size - i - 1) lk2.nums with hmx
      rw [hfmax]
      simp only [Option.bind_eq_bind, Option.some_bind]
      obtain ⟨lk4, hcs4, hl4, hp4, ho4, ha4, hb4⟩ := cond_swap_nums lk3 mx
        (size - i - 1) (by rw [hn3]; exact gl) (by rw [hn3]; omega)
      rw [hcs4]
      simp only [Option.some_bind]
      rw [hn3] at hl4 hp4 ho4 ha4 hb4
      have hmax0 : ∀ q, i + 1 ≤ q → q ≤ size - i - 1 →
          lk2.nums.getD q 0 ≤ lk2.nums.getD mx 0 := by
        intro q h1 h2
        rcases eq_or_lt_of_le h2 with heq | hgt
        · rw [heq]; exact gd
        · exact gq q (by omega) (by omega)
      have hinv4 : shakerInv lk4.nums (i + 1) (i + 1) := by
        refine shakerInv_forward_step lk2.nums lk4.nums (i + 1) i hl4 hp4
          (by omega) ?_ ?_ hinv2
        · intro p hp
          exact ho4 p (by omega) (by omega)
        · intro q h1 h2
          simp only [hlen2] at h2 ⊢
          rw [hb4]
          by_cases hq1 : q = size - i - 1
          · rw [hq1, hb4]
          · by_cases hqm : q = mx
            · rw [hqm, ha4]
              exact gd
            · rw [ho4 q hqm hq1]
              exact hmax0 q h1 (by omega)
      obtain ⟨lk', hrun, hperm, hsorted⟩ := ih size (i + 1) lk4
        (by rw [hl4, hlen2]) (by omega) hinv4
      refine ⟨lk', hrun, ?_, hsorted⟩
      exact hperm.trans (hp4.trans hp2)

theorem double_selection_sort_correct (lk : ArrayLock) (size : Nat)
    (hsz : lk.nums.length = size) :
    ∃ lk', double_selection_sort lk size = some lk' ∧
      lk'.nums.Perm lk.nums ∧ lk'.nums.Sorted (· ≤ ·) := by
  exact dsel_outer_correct (size / 2) size 0 lk hsz (by omega)
    (shakerInv_zero lk.nums)

/-!
### Insertion sort
-/

theorem getD_set_eq (l : List Nat) (i v : Nat) (hi : i < l.length) :
    (l.set i v).getD i 0 = v := by
  rw [List.getD_eq_getElem _ _ (by simp [hi]), List.getElem_set, if_pos rfl]

theorem getD_set_ne (l : List Nat) (i j v : Nat) (h : i ≠ j) :
    (l.set i v).getD j 0 = l.getD j 0 := by
  by_cases hj : j < l.length
  · rw [List.getD_eq_getElem _ _ (by simp [hj]), List.getD_eq_getElem _ _ hj,
      List.getElem_set, if_neg h]
  · rw [List.getD_eq_default _ _ (by simp; omega),
      List.getD_eq_default _ _ (by omega)]

/-- Pure mirror of `insertion_shift`: shift larger elements one to the right,
returning the insertion point and the shifted list. -/
def insertion_shiftP (j current : Nat) (l : List Nat) : Nat × List Nat :=
  match j with
  | 0 => (0, l)
  | jj + 1 =>
      if current < l.getD jj 0 then
        insertion_shiftP jj current (l.set (jj + 1) (l.getD jj 0))
      else (jj + 1, l)

theorem insertion_shift_nums (j : Nat) : ∀ (current : Nat) (lk : ArrayLock),
    j < lk.nums.length →
    ∃ lk', insertion_shift j current lk =
        some ((insertion_shiftP j current lk.nums).1, lk') ∧
      lk'.nums = (insertion_shiftP j current lk.nums).2 := by
  induction j with
  | zero => intro current lk _; exact ⟨lk, rfl, rfl⟩
  | succ jj ih =>
      intro current lk hj
      have hjj : jj < lk.nums.length := by omega
      obtain ⟨lk1, hc, hn1⟩ := ArrayLock.cmp_nums lk jj current hjj
      rw [insertion_shift, hc]
      simp only [Option.bind_eq_bind, Option.some_bind]
      by_cases hlt : current < lk.nums.getD jj 0
      · rw [if_pos (by rw [Nat.compare_eq_gt]; exact hlt)]
        obtain ⟨lk2, hg, hn2⟩ := ArrayLock.get_nums lk1 jj (by rw [hn1]; omega)
        rw [hg]
        simp only [Option.bind_eq_bind, Option.some_bind]
        obtain ⟨lk3, hs, hn3⟩ := ArrayLock.set_nums lk2 (jj + 1)
          (lk1.nums.getD jj 0) (by rw [hn2, hn1]; omega)
        rw [hs]
        simp only [Option.some_bind]
        have hn3' : lk3.nums = lk.nums.set (jj + 1) (lk.nums.getD jj 0) := by
          rw [hn3, hn2, hn1]
        obtain ⟨lk', hrec, hn'⟩ := ih current lk3 (by rw [hn3']; simp; omega)
        rw [hn3'] at hrec hn'
        refine ⟨lk', ?_, ?_⟩
        · rw [hrec, insertion_shiftP, if_pos hlt]
        · rw [hn', insertion_shiftP, if_pos hlt]
      · rw [if_neg (by rw [Nat.compare_eq_gt]; exact hlt)]
        refine ⟨lk1, ?_, ?_⟩
        · rw [insertion_shiftP, if_neg hlt]
        · rw [hn1, insertion_shiftP, if_neg hlt]

theorem insertion_shiftP_spec (j : Nat) : ∀ (current : Nat) (l : List Nat),
    j < l.length →
    (insertion_shiftP j current l).1 ≤ j ∧
    (insertion_shiftP j current l).2.length = l.length ∧
    (∀ p, p ≤ (insertion_shiftP j current l).1 ∨ j < p →
      (insertion_shiftP j current l).2.getD p 0 = l.getD p 0) ∧
    (∀ p, (insertion_shiftP j current l).1 < p → p ≤ j →
      (insertion_shiftP j current l).2.getD p 0 = l.getD (p - 1) 0) ∧
    (∀ p, (insertion_shiftP j current l).1 ≤ p → p < j →
      current < l.getD p 0) ∧
    ((insertion_shiftP j current l).1 = 0 ∨
      l.getD ((insertion_shiftP j current l).1 - 1) 0 ≤ current) ∧
    ((insertion_shiftP j current l).2.set (insertion_shiftP j current l).1
      current).Perm (l.set j current) := by
  induction j with
  | zero =>
      intro current l _
      exact ⟨le_rfl, rfl, fun p _ => rfl, fun p h1 h2 => absurd (h1.trans_le h2)
        (by omega), fun p h1 h2 => absurd (h1.trans_lt h2) (by omega),
        Or.inl rfl, List.Perm.refl _⟩
  | succ jj ih =>
      intro current l hj
      rw [insertion_shiftP]
      by_cases hlt : current < l.getD jj 0
      · rw [if_pos hlt]
        have hlen' : (l.set (jj + 1) (l.getD jj 0)).length = l.length := by simp
        obtain ⟨i1, i2, i3, i4, i5, i6, i7⟩ := ih current
          (l.set (jj + 1) (l.getD jj 0)) (by omega)
        set P := insertion_shiftP jj current (l.set (jj + 1) (l.getD jj 0))
          with hP
        have hgset : ∀ p, p ≠ jj + 1 →
            (l.set (jj + 1) (l.getD jj 0)).getD p 0 = l.getD p 0 :=
          fun p hp => getD_set_ne l (jj + 1) p _ (fun h => hp h.symm)
        refine ⟨by omega, by rw [i2, hlen'], ?_, ?_, ?_, ?_, ?_⟩
        · intro p hp
          rcases hp with hp | hp
          · rw [i3 p (Or.inl hp), hgset p (by omega)]
          · rw [i3 p (Or.inr (by omega)), hgset p (by omega)]
        · intro p h1 h2
          rcases Nat.lt_or_ge p (jj + 1) with h3 | h3
          · rw [i4 p h1 (by omega), hgset (p - 1) (by omega)]
          · have hp : p = jj + 1 := by omega
            rw [hp, i3 (jj + 1) (Or.inr (by omega)),
              getD_set_eq l (jj + 1) _ hj, Nat.add_sub_cancel]
        · intro p h1 h2
          rcases Nat.lt_or_ge p jj with h3 | h3
          · have := i5 p h1 h3
            rwa [hgset p (by omega)] at this
          · have hp : p = jj := by omega
            rw [hp]; exact hlt
        · rcases i6 with h | h
          · exact Or.inl h
          · refine Or.inr ?_
            rwa [hgset (P.1 - 1) (by omega)] at h
        · refine i7.trans ?_
          have heq : (l.set (jj + 1) (l.getD jj 0)).set jj current =
              swapL (jj + 1) jj (l.set (jj + 1) current) := by
            unfold swapL
            rw [getD_set_ne l (jj + 1) jj current (by omega),
              getD_set_eq l (jj + 1) current hj, List.set_set]
          rw [heq]
          exact swapL_perm (jj + 1) jj (l.set (jj + 1) current)
            (by simp; omega) (by simp; omega)
      · rw [if_neg hlt]
        push_neg at hlt
        exact ⟨le_rfl, rfl, fun p _ => rfl,
          fun p h1 h2 => absurd (h1.trans_le h2) (by omega),
          fun p h1 h2 => absurd (h1.trans_lt h2) (by omega),
          Or.inr (by simpa using hlt), List.Perm.refl _⟩

/-- The first `i` positions are mutually sorted. -/
def prefixSorted (l : List Nat) (i : Nat) : Prop :=
  ∀ p q, p < q → q < i → l.getD p 0 ≤ l.getD q 0

theorem insertion_outer_correct (cnt : Nat) :
    ∀ (i : Nat) (lk : ArrayLock), i + cnt = lk.nums.length →
      prefixSorted lk.nums i →
      ∃ lk', insertion_outer cnt i lk = some lk' ∧
        lk'.nums.Perm lk.nums ∧ lk'.nums.Sorted (· ≤ ·) := by
  induction cnt with
  | zero =>
      intro i lk hsz hinv
      refine ⟨lk, rfl, List.Perm.refl _, ?_⟩
      apply sorted_of_adj
      intro p hp
      exact hinv p (p + 1) (by omega) (by omega)
  | succ c ih =>
      intro i lk hsz hinv
      have hi : i < lk.nums.length := by omega
      obtain ⟨lk1, hg, hn1⟩ := ArrayLock.get_nums lk i hi
      rw [insertion_outer, hg]
      simp only [Option.bind_eq_bind, Option.some_bind]
      set current := lk.nums.getD i 0 with hcur
      obtain ⟨lk2, hsh, hn2⟩ := insertion_shift_nums i current lk1
        (by rw [hn1]; exact hi)
      rw [hn1] at hsh hn2
      rw [hsh]
      simp only [Option.some_bind]
      obtain ⟨s1, s2, s3, s4, s5, s6, s7⟩ := insertion_shiftP_spec i current
        lk.nums hi
      set P := insertion_shiftP i current lk.nums with hP
      obtain ⟨lk3, hst, hn3⟩ := ArrayLock.set_nums lk2 P.1 current
        (by rw [hn2, s2]; omega)
      rw [hst]
      simp only [Option.some_bind]
      have hn3' : lk3.nums = P.2.set P.1 current := by rw [hn3, hn2]
      have hperm3 : lk3.nums.Perm lk.nums := by
        rw [hn3']
        refine s7.trans ?_
        rw [hcur, set_getD_self lk.nums i hi]
      have hlen3 : lk3.nums.length = lk.nums.length := by
        rw [hn3']; simp [s2]
      have hg3 : ∀ x, x ≤ i → lk3.nums.getD x 0 =
          if x = P.1 then current
          else if x < P.1 then lk.nums.getD x 0
          else lk.nums.getD (x - 1) 0 := by
        intro x hx
        rw [hn3']
        by_cases hxp : x = P.1
        · rw [if_pos hxp, hxp, getD_set_eq _ _ _ (by rw [s2]; omega)]
        · rw [if_neg hxp, getD_set_ne _ _ _ _ (fun h => hxp h.symm)]
          by_cases hxl : x < P.1
          · rw [if_pos hxl, s3 x (Or.inl (by omega))]
          · rw [if_neg hxl, s4 x (by omega) hx]
      have hinv3 : prefixSorted lk3.nums (i + 1) := by
        intro p q hpq hq
        rw [hg3 p (by omega), hg3 q (by omega)]
        by_cases hqp : q = P.1
        · rw [if_pos hqp, if_neg (by omega), if_pos (by omega)]
          rcases s6 with h0 | h0
          · omega
          · rcases Nat.lt_or_ge p (P.1 - 1) with h2 | h2
            · exact le_trans (hinv p (P.1 - 1) h2 (by omega)) h0
            · have hp1 : p = P.1 - 1 := by omega
              rw [hp1]; exact h0
        · rw [if_neg hqp]
          by_cases hql : q < P.1
          · rw [if_pos hql, if_neg (by omega), if_pos (by omega)]
            exact hinv p q hpq (by omega)
          · rw [if_neg hql]
            by_cases hpp : p = P.1
            · rw [if_pos hpp]
              exact le_of_lt (s5 (q - 1) (by omega) (by omega))
            · rw [if_neg hpp]
              by_cases hpl : p < P.1
              · rw [if_pos hpl]
                exact hinv p (q - 1) (by omega) (by omega)
              · rw [if_neg hpl]
                exact hinv (p - 1) (q - 1) (by omega) (by omega)
      obtain ⟨lk', hrun, hperm, hsorted⟩ := ih (i + 1) lk3
        (by rw [hlen3]; omega) hinv3
      exact ⟨lk', hrun, hperm.trans hperm3, hsorted⟩

theorem insertion_sort_correct (lk : ArrayLock) (size : Nat)
    (hsz : lk.nums.length = size) :
    ∃ lk', insertion_sort lk size = some lk' ∧
      lk'.nums.Perm lk.nums ∧ lk'.nums.Sorted (· ≤ ·) := by
  match size, hsz with
  | 0, hsz =>
      refine ⟨lk, rfl, List.Perm.refl _, ?_⟩
      rw [List.eq_nil_of_length_eq_zero hsz]
      exact List.sorted_nil
  | s + 1, hsz =>
      exact insertion_outer_correct s 1 lk (by omega)
        (fun p q hpq hq => by omega)

/-!
### Shell sort
-/

theorem shell_shift_one (fuel : Nat) : ∀ (j tmp : Nat) (lk : ArrayLock),
    j < fuel → shell_shift fuel j 1 tmp lk = insertion_shift j tmp lk := by
  induction fuel with
  | zero => intro j tmp lk h; omega
  | succ f ih =>
      intro j tmp lk h
      match j with
      | 0 => rw [shell_shift, insertion_shift, if_neg (by omega)]
      | jj + 1 =>
          rw [shell_shift, insertion_shift, if_pos (by omega)]
          simp only [Nat.add_sub_cancel]
          cases hc : lk.cmp jj tmp with
          | none => rfl
          | some p =>
              obtain ⟨r, lk1⟩ := p
              simp only [Option.bind_eq_bind, Option.some_bind]
              by_cases hr : r = Ordering.gt
              · rw [if_pos hr, if_pos hr]
                cases hg : lk1.get jj with
                | none => rfl
                | some q =>
                    obtain ⟨x, lk2⟩ := q
                    simp only [Option.bind_eq_bind, Option.some_bind]
                    cases hs : lk2.set (jj + 1) x with
                    | none => rfl
                    | some lk3 =>
                        simp only [Option.bind_eq_bind, Option.some_bind]
                        exact ih jj tmp lk3 (by omega)
              · rw [if_neg hr, if_neg hr]

theorem shell_pass_one (cnt : Nat) : ∀ (i : Nat) (lk : ArrayLock),
    shell_pass cnt i 1 lk = insertion_outer cnt i lk := by
  induction cnt with
  | zero => intro i lk; rfl
  | succ c ih =>
      intro i lk
      rw [shell_pass, insertion_outer]
      cases hg : lk.get i with
      | none => rfl
      | some p =>
          obtain ⟨tmp, lk1⟩ := p
          simp only [Option.bind_eq_bind, Option.some_bind]
          rw [shell_shift_one (i + 1) i tmp lk1 (by omega)]
          cases hsh : insertion_shift i tmp lk1 with
          | none => rfl
          | some q =>
              obtain ⟨j, lk2⟩ := q
              simp only [Option.some_bind]
              cases hs : lk2.set j tmp with
              | none => rfl
              | some lk3 =>
                  simp only [Option.some_bind]
                  exact ih (i + 1) lk3

theorem shell_shift_run (fuel : Nat) : ∀ (j gap tmp : Nat) (lk : ArrayLock),
    1 ≤ gap → j < lk.nums.length → j < fuel →
    ∃ jf lk', shell_shift fuel j gap tmp lk = some (jf, lk') ∧ jf ≤ j ∧
      lk'.nums.length = lk.nums.length ∧
      (lk'.nums.set jf tmp).Perm (lk.nums.set j tmp) ∧
      (∀ p, j < p → lk'.nums.getD p 0 = lk.nums.getD p 0) := by
  induction fuel with
  | zero => intro j gap tmp lk hgap hj hf; omega
  | succ f ih =>
      intro j gap tmp lk hgap hj hf
      rw [shell_shift]
      by_cases hgj : gap ≤ j
      · rw [if_pos hgj]
        obtain ⟨lk1, hc, hn1⟩ := ArrayLock.cmp_nums lk (j - gap) tmp (by omega)
        rw [hc]
        simp only [Option.bind_eq_bind, Option.some_bind]
        by_cases hlt : tmp < lk.nums.getD (j - gap) 0
        · rw [if_pos (by rw [Nat.compare_eq_gt]; exact hlt)]
          obtain ⟨lk2, hg, hn2⟩ := ArrayLock.get_nums lk1 (j - gap)
            (by rw [hn1]; omega)
          rw [hg]
          simp only [Option.bind_eq_bind, Option.some_bind]
          obtain ⟨lk3, hs, hn3⟩ := ArrayLock.set_nums lk2 j
            (lk1.nums.getD (j - gap) 0) (by rw [hn2, hn1]; omega)
          rw [hs]
          simp only [Option.some_bind]
          have hn3' : lk3.nums = lk.nums.set j (lk.nums.getD (j - gap) 0) := by
            rw [hn3, hn2, hn1]
          obtain ⟨jf, lk', hrec, h1, h2, h3, h4⟩ := ih (j - gap) gap tmp lk3
            hgap (by rw [hn3']; simp; omega) (by omega)
          refine ⟨jf, lk', hrec, by omega, ?_, ?_, ?_⟩
          · rw [h2, hn3']; simp
          · refine h3.trans ?_
            rw [hn3']
            have heq : (lk.nums.set j (lk.nums.getD (j - gap) 0)).set (j - gap)
                tmp = swapL j (j - gap) (lk.nums.set j tmp) := by
              unfold swapL
              rw [getD_set_ne lk.nums j (j - gap) tmp (by omega),
                getD_set_eq lk.nums j tmp hj, List.set_set]
            rw [heq]
            exact swapL_perm j (j - gap) (lk.nums.set j tmp)
              (by simp; omega) (by simp; omega)
          · intro p hp
            rw [h4 p (by omega), hn3',
              getD_set_ne lk.nums j p _ (by omega)]
        · rw [if_neg (by rw [Nat.compare_eq_gt]; exact hlt)]
          exact ⟨j, lk1, rfl, le_rfl, by rw [hn1], by rw [hn1],
            fun p _ => by rw [hn1]⟩
      · rw [if_neg hgj]
        exact ⟨j, lk, rfl, le_rfl, rfl, List.Perm.refl _, fun p _ => rfl⟩

theorem shell_pass_run (cnt : Nat) : ∀ (i gap : Nat) (lk : ArrayLock),
    1 ≤ gap → i + cnt ≤ lk.nums.length ∨ cnt = 0 →
    ∃ lk', shell_pass cnt i gap lk = some lk' ∧
      lk'.nums.Perm lk.nums ∧ lk'.nums.length = lk.nums.length := by
  induction cnt with
  | zero => intro i gap lk _ _; exact ⟨lk, rfl, List.Perm.refl _, rfl⟩
  | succ c ih =>
      intro i gap lk hgap hcnt0
      have hcnt : i + (c + 1) ≤ lk.nums.length := by omega
      have hi : i < lk.nums.length := by omega
      obtain ⟨lk1, hg, hn1⟩ := ArrayLock.get_nums lk i hi
      rw [shell_pass, hg]
      simp only [Option.bind_eq_bind, Option.some_bind]
      obtain ⟨jf, lk2, hsh, h1, h2, h3, h4⟩ := shell_shift_run (i + 1) i gap
        (lk.nums.getD i 0) lk1 hgap (by rw [hn1]; exact hi) (by omega)
      rw [hn1] at h2 h3 h4
      rw [hsh]
      simp only [Option.some_bind]
      obtain ⟨lk3, hs, hn3⟩ := ArrayLock.set_nums lk2 jf (lk.nums.getD i 0)
        (by omega)
      rw [hs]
      simp only [Option.some_bind]
      have hperm3 : lk3.nums.Perm lk.nums := by
        rw [hn3]
        refine h3.trans ?_
        rw [set_getD_self lk.nums i hi]
      have hlen3 : lk3.nums.length = lk.nums.length := by
        rw [hn3]; simp [h2]
      obtain ⟨lk', hrun, hp, hl⟩ := ih (i + 1) gap lk3 hgap
        (Or.inl (by omega))
      exact ⟨lk', hrun, hp.trans hperm3, by rw [hl, hlen3]⟩

theorem shell_loop_correct (gap : Nat) : ∀ (size : Nat) (lk : ArrayLock),
    lk.nums.length = size → 2 ≤ gap →
    ∃ lk', shell_loop gap size lk = some lk' ∧
      lk'.nums.Perm lk.nums ∧ lk'.nums.Sorted (· ≤ ·) := by
  induction gap using Nat.strong_induction_on with
  | _ gap ih =>
      intro size lk hsz hgap
      rw [shell_loop]
      rw [dif_pos (by omega : gap > 1)]
      have hmax : max 1 (gap / 2) = gap / 2 := by omega
      rcases Nat.lt_or_ge (gap / 2) 2 with hg1 | hg2
      · -- final pass: gap / 2 = 1, an insertion pass
        have hg : max 1 (gap / 2) = 1 := by omega
        rw [hg]
        dsimp only
        rw [shell_pass_one]
        match size, hsz with
        | 0, hsz =>
            refine ⟨lk, ?_, List.Perm.refl _, ?_⟩
            · rw [show insertion_outer (0 - 1) 1 lk = some lk from rfl]
              simp only [Option.bind_eq_bind, Option.some_bind]
              rw [shell_loop, dif_neg (by omega)]
            · rw [List.eq_nil_of_length_eq_zero hsz]
              exact List.sorted_nil
        | s + 1, hsz =>
            obtain ⟨lk1, hrun, hperm, hsorted⟩ := insertion_outer_correct s 1
              lk (by omega) (fun p q hpq hq => by omega)
            rw [show s + 1 - 1 = s from rfl, hrun]
            refine ⟨lk1, ?_, hperm, hsorted⟩
            simp only [Option.bind_eq_bind, Option.some_bind]
            rw [shell_loop, dif_neg (by omega)]
      · rw [hmax]
        dsimp only
        obtain ⟨lk1, hpass, hperm1, hlen1⟩ := shell_pass_run (size - gap / 2)
          (gap / 2) (gap / 2) lk (by omega) (by omega)
        rw [hpass]
        simp only [Option.bind_eq_bind, Option.some_bind]
        obtain ⟨lk', hrun, hperm, hsorted⟩ := ih (gap / 2) (by omega) size lk1
          (by rw [hlen1, hsz]) hg2
        exact ⟨lk', hrun, hperm.trans hperm1, hsorted⟩

theorem shell_sort_correct (lk : ArrayLock) (size : Nat)
    (hsz : lk.nums.length = size) :
    ∃ lk', shell_sort lk size = some lk' ∧
      lk'.nums.Perm lk.nums ∧ lk'.nums.Sorted (· ≤ ·) := by
  rcases Nat.lt_or_ge size 2 with h1 | h2
  · refine ⟨lk, ?_, List.Perm.refl _, ?_⟩
    · rw [shell_sort, shell_loop, dif_neg (by omega)]
    · apply sorted_of_adj
      intro i hi
      omega
  · exact shell_loop_correct size size lk hsz h2

/-!
### Segments of an array, and the counting argument for stooge sort
-/

/-- The sublist of positions `a..b` (inclusive). -/
def seg (l : List Nat) (a b : Nat) : List Nat :=
  (l.drop a).take (b + 1 - a)

theorem seg_length (l : List Nat) (a b : Nat) (hab : a ≤ b)
    (hb : b < l.length) : (seg l a b).length = b + 1 - a := by
  simp [seg]
  omega

theorem seg_getD (l : List Nat) (a b k : Nat) (hk : a + k ≤ b)
    (hb : b < l.length) : (seg l a b).getD k 0 = l.getD (a + k) 0 := by
  unfold seg
  have h1 : k < ((l.drop a).take (b + 1 - a)).length := by simp; omega
  have h2 : k < (l.drop a).length := by simp; omega
  rw [List.getD_eq_getElem _ _ h1, List.getD_eq_getElem _ _ (by omega)]
  have h3 : ((l.drop a).take (b + 1 - a))[k] = (l.drop a)[k] :=
    List.getElem_take _
  rw [h3, List.getElem_drop]

theorem seg_mem_getD (l : List Nat) (a b : Nat) (hb : b < l.length)
    (x : Nat) (hx : x ∈ seg l a b) :
    ∃ p, a ≤ p ∧ p ≤ b ∧ l.getD p 0 = x := by
  obtain ⟨q, hq1, hq2, hq3⟩ := mem_take_getD (l.drop a) (b + 1 - a) x hx
  refine ⟨a + q, by omega, by omega, ?_⟩
  rw [← hq3, getD_drop l a q (by simp at hq2; omega)]

theorem seg_perm (l l2 : List Nat) (a b : Nat)
    (hlen : l2.length = l.length) (hperm : l2.Perm l)
    (hout : ∀ p, p < a ∨ b < p → l2.getD p 0 = l.getD p 0)
    (hab : a ≤ b) (hb : b < l.length) :
    (seg l2 a b).Perm (seg l a b) := by
  have hdrop : l2.drop (b + 1) = l.drop (b + 1) :=
    drop_eq_of_getD l2 l (b + 1) hlen
      (fun p h1 h2 => hout p (Or.inr (by omega)))
  have htp : (l2.take (b + 1)).Perm (l.take (b + 1)) :=
    take_perm_of_perm_drop_eq l2 l (b + 1) hperm hdrop
  have htake : l2.take a = l.take a :=
    take_eq_of_getD l2 l a hlen (fun p hp => hout p (Or.inl hp))
  have ht2 : (l2.take (b + 1)).take a = (l.take (b + 1)).take a := by
    rw [List.take_take, List.take_take,
      show min a (b + 1) = a from by omega, htake]
  have hfin := drop_perm_of_perm_take_eq _ _ a htp ht2
  rwa [List.drop_take, List.drop_take] at hfin

theorem seg_sorted (l : List Nat) (a b : Nat) (hb : b < l.length)
    (hadj : ∀ p q, a ≤ p → p < q → q ≤ b → l.getD p 0 ≤ l.getD q 0) :
    (seg l a b).Sorted (· ≤ ·) := by
  apply sorted_of_adj
  intro k hk
  rcases Nat.lt_or_ge b a with hba | hba
  · simp [seg] at hk; omega
  rw [seg_length l a b hba hb] at hk
  rw [seg_getD l a b k (by omega) hb, seg_getD l a b (k + 1) (by omega) hb]
  exact hadj (a + k) (a + (k + 1)) (by omega) (by omega) (by omega)

theorem sorted_getD_mono (l : List Nat) (hs : l.Sorted (· ≤ ·)) (p q : Nat)
    (hpq : p ≤ q) (hq : q < l.length) : l.getD p 0 ≤ l.getD q 0 := by
  rcases eq_or_lt_of_le hpq with heq | hlt
  · rw [heq]
  · rw [List.getD_eq_getElem _ _ (by omega), List.getD_eq_getElem _ _ hq]
    exact List.pairwise_iff_getElem.mp hs p q (by omega) hq hlt

/-- In a sorted permutation `m2` of `m1`, if at least `K` elements of `m1` are
`≥ x`, then the last `K` positions of `m2` hold values `≥ x`. -/
theorem sorted_count_top (m1 m2 : List Nat) (hp : m2.Perm m1)
    (hs : m2.Sorted (· ≤ ·)) (x K : Nat)
    (hK : K ≤ m1.countP (fun v => decide (x ≤ v))) :
    ∀ i, m2.length - K ≤ i → i < m2.length → x ≤ m2.getD i 0 := by
  intro i h1 h2
  by_contra hlt
  push_neg at hlt
  have hcnt : m2.countP (fun v => decide (x ≤ v)) =
      m1.countP (fun v => decide (x ≤ v)) := hp.countP_eq _
  have hsplit := List.take_append_drop (i + 1) m2
  have hzero : (m2.take (i + 1)).countP (fun v => decide (x ≤ v)) = 0 := by
    rw [List.countP_eq_zero]
    intro v hv
    obtain ⟨q, hq1, hq2, hq3⟩ := mem_take_getD m2 (i + 1) v hv
    simp only [decide_eq_true_eq]
    rw [← hq3]
    intro hxv
    exact absurd (hxv.trans (sorted_getD_mono m2 hs q i (by omega) h2)) (by omega)
  have hle : m2.countP (fun v => decide (x ≤ v)) ≤ m2.length - i - 1 := by
    conv_lhs => rw [← hsplit]
    rw [List.countP_append, hzero]
    have := List.countP_le_length (l := m2.drop (i + 1))
      (p := fun v => decide (x ≤ v))
    simp only [List.length_drop] at this
    omega
  omega

theorem seg_countP_ge (l : List Nat) (a b bb x : Nat)
    (hb' : bb ≤ b) (hab : a ≤ bb) (hb : b < l.length)
    (h : ∀ p, a ≤ p → p ≤ bb → x ≤ l.getD p 0) :
    bb + 1 - a ≤ (seg l a b).countP (fun v => decide (x ≤ v)) := by
  have hsub : List.Sublist (seg l a bb) (seg l a b) := by
    unfold seg
    rw [show (l.drop a).take (bb + 1 - a) =
        ((l.drop a).take (b + 1 - a)).take (bb + 1 - a) from by
      rw [List.take_take, show min (bb + 1 - a) (b + 1 - a) = bb + 1 - a
        from by omega]]
    exact List.take_sublist _ _
  have hfull : (seg l a bb).countP (fun v => decide (x ≤ v)) =
      (seg l a bb).length := by
    rw [List.countP_eq_length]
    intro v hv
    obtain ⟨p, hp1, hp2, hp3⟩ := seg_mem_getD l a bb (by omega) v hv
    simp only [decide_eq_true_eq]
    rw [← hp3]
    exact h p hp1 hp2
  have hlen : (seg l a bb).length = bb + 1 - a := seg_length l a bb hab (by omega)
  have := hsub.countP_le (fun v => decide (x ≤ v))
  omega

/-!
### Stooge sort
-/

theorem stooge_sort_correct_aux (d : Nat) : ∀ (start end_ : Nat)
    (lk : ArrayLock), end_ - start = d → end_ < lk.nums.length →
    ∃ lk', stooge_sort start end_ lk = some lk' ∧
      lk'.nums.length = lk.nums.length ∧ lk'.nums.Perm lk.nums ∧
      (∀ p, p < start ∨ end_ < p → lk'.nums.getD p 0 = lk.nums.getD p 0) ∧
      (∀ p q, start ≤ p → p < q → q ≤ end_ →
        lk'.nums.getD p 0 ≤ lk'.nums.getD q 0) := by
  induction d using Nat.strong_induction_on with
  | _ d ih =>
      intro start end_ lk hd he
      by_cases h1 : end_ = start + 1
      · rw [stooge_sort, if_pos h1]
        obtain ⟨lk1, hc, hn1⟩ := ArrayLock.cmp_two_nums lk start end_
          (by omega) he
        rw [hc]
        simp only [Option.bind_eq_bind, Option.some_bind]
        by_cases hlt : lk.nums.getD end_ 0 < lk.nums.getD start 0
        · rw [if_pos (by rw [Nat.compare_eq_gt]; exact hlt)]
          obtain ⟨lk2, hsw, hn2⟩ := ArrayLock.swap_nums lk1 start end_
            (by rw [hn1]; omega) (by rw [hn1]; exact he)
          rw [hsw]
          have hn2' : lk2.nums = swapL start end_ lk.nums := by rw [hn2, hn1]
          have hg : ∀ x, (swapL start end_ lk.nums).getD x 0 =
              if x = end_ then lk.nums.getD start 0
              else if x = start then lk.nums.getD end_ 0
              else lk.nums.getD x 0 :=
            fun x => getD_swapL start end_ x lk.nums (by omega) he
          refine ⟨lk2, rfl, by rw [hn2']; simp,
            by rw [hn2']; exact swapL_perm start end_ lk.nums (by omega) he,
            ?_, ?_⟩
          · intro p hp
            rw [hn2', hg p, if_neg (by omega), if_neg (by omega)]
          · intro p q hp hpq hq
            have hps : p = start := by omega
            have hqe : q = end_ := by omega
            rw [hn2', hg p, hg q, hps, hqe, if_pos rfl, if_neg (by omega),
              if_pos rfl]
            exact le_of_lt hlt
        · rw [if_neg (by rw [Nat.compare_eq_gt]; exact hlt)]
          push_neg at hlt
          refine ⟨lk1, rfl, by rw [hn1], by rw [hn1], fun p _ => by rw [hn1],
            ?_⟩
          intro p q hp hpq hq
          have hps : p = start := by omega
          have hqe : q = end_ := by omega
          rw [hn1, hps, hqe]
          exact hlt
      · rw [stooge_sort, if_neg h1]
        by_cases h2 : end_ > start + 1
        · rw [dif_pos h2]
          dsimp only
          set t := (end_ - start + 1) / 3 with ht
          have ht1 : 1 ≤ t := by omega
          have ht3 : 3 * t ≤ end_ - start + 1 := by omega
          obtain ⟨lk1, hr1, hl1, hp1, ho1, hs1⟩ := ih (end_ - t - start)
            (by omega) start (end_ - t) lk (by omega) (by omega)
          rw [hr1]
          simp only [Option.bind_eq_bind, Option.some_bind]
          obtain ⟨lk2, hr2, hl2, hp2, ho2, hs2⟩ := ih (end_ - (start + t))
            (by omega) (start + t) end_ lk1 (by omega) (by omega)
          rw [hr2]
          simp only [Option.some_bind]
          have hlen1 : end_ < lk1.nums.length := by rw [hl1]; exact he
          have hlen2 : lk2.nums.length = lk.nums.length := by rw [hl2, hl1]
          -- after sorting the first two thirds, every element of the last
          -- third dominates the prefix
          have hbound : ∀ p q, start ≤ p → p ≤ end_ - t → end_ - t < q →
              q ≤ end_ → lk2.nums.getD p 0 ≤ lk2.nums.getD q 0 := by
            intro p q hp hpe hq hqe
            rcases Nat.lt_or_ge p (start + t) with hpt | hpt
            · have hx : lk2.nums.getD p 0 = lk1.nums.getD p 0 :=
                ho2 p (Or.inl hpt)
              set x := lk1.nums.getD p 0 with hxdef
              have hA : ∀ r, start + t ≤ r → r ≤ end_ - t →
                  x ≤ lk1.nums.getD r 0 := by
                intro r hr1 hr2
                exact hs1 p r hp (by omega) hr2
              have hsegp : (seg lk2.nums (start + t) end_).Perm
                  (seg lk1.nums (start + t) end_) :=
                seg_perm lk1.nums lk2.nums (start + t) end_
                  (by rw [hl2]) hp2 ho2 (by omega) hlen1
              have hsegs : (seg lk2.nums (start + t) end_).Sorted (· ≤ ·) :=
                seg_sorted lk2.nums (start + t) end_
                  (by rw [hlen2]; exact he) hs2
              have hcnt := seg_countP_ge lk1.nums (start + t) end_ (end_ - t) x
                (by omega) (by omega) hlen1 hA
              have hstep := sorted_count_top (seg lk1.nums (start + t) end_)
                (seg lk2.nums (start + t) end_) hsegp hsegs x
                ((end_ - t) + 1 - (start + t)) hcnt (q - (start + t))
                (by rw [seg_length lk2.nums (start + t) end_ (by omega)
                  (by rw [hlen2]; exact he)]; omega)
                (by rw [seg_length lk2.nums (start + t) end_ (by omega)
                  (by rw [hlen2]; exact he)]; omega)
              rw [seg_getD lk2.nums (start + t) end_ (q - (start + t))
                (by omega) (by rw [hlen2]; exact he),
                show start + t + (q - (start + t)) = q from by omega] at hstep
              rw [hx]
              exact hstep
            · exact hs2 p q hpt (by omega) hqe
          obtain ⟨lk3, hr3, hl3, hp3, ho3, hs3⟩ := ih (end_ - t - start)
            (by omega) start (end_ - t) lk2 (by omega)
            (by rw [hlen2]; omega)
          rw [hr3]
          refine ⟨lk3, rfl, by rw [hl3, hlen2],
            hp3.trans (hp2.trans hp1), ?_, ?_⟩
          · intro p hp
            rcases hp with hp | hp
            · rw [ho3 p (Or.inl hp), ho2 p (Or.inl (by omega)),
                ho1 p (Or.inl hp)]
            · rw [ho3 p (Or.inr (by omega)), ho2 p (Or.inr (by omega)),
                ho1 p (Or.inr (by omega))]
          · intro p q hp hpq hq
            rcases le_or_lt q (end_ - t) with hqt | hqt
            · exact hs3 p q hp hpq hqt
            · have hq3 : lk3.nums.getD q 0 = lk2.nums.getD q 0 :=
                ho3 q (Or.inr hqt)
              rcases le_or_lt p (end_ - t) with hpt | hpt
              · have hmid := middle_mem lk2.nums lk3.nums start (end_ - t + 1)
                  hl3 hp3 (fun p' hp' => ho3 p' (Or.inl hp'))
                  (fun q' h1' h2' => ho3 q' (Or.inr (by omega)))
                  (by rw [hlen2]; omega) p hp (by omega)
                obtain ⟨r, hr1, hr2, hr3⟩ := hmid
                rw [hq3, ← hr3]
                exact hbound r q hr1 (by omega) hqt (by omega)
              · rw [hq3, ho3 p (Or.inr hpt)]
                exact hs2 p q (by omega) hpq hq
        · rw [dif_neg h2]
          refine ⟨lk, rfl, rfl, List.Perm.refl _, fun p _ => rfl, ?_⟩
          intro p q hp hpq hq
          omega

theorem stooge_sort_correct (lk : ArrayLock) (size : Nat)
    (hsz : lk.nums.length = size) (hpos : 1 ≤ size) :
    ∃ lk', stooge_sort 0 (size - 1) lk = some lk' ∧
      lk'.nums.Perm lk.nums ∧ lk'.nums.Sorted (· ≤ ·) := by
  obtain ⟨lk', hrun, hl, hp, ho, hs⟩ := stooge_sort_correct_aux (size - 1)
    0 (size - 1) lk rfl (by omega)
  refine ⟨lk', hrun, hp, ?_⟩
  apply sorted_of_adj
  intro i hi
  exact hs i (i + 1) (by omega) (by omega) (by rw [hl] at hi; omega)

/-!
### Slow sort
-/

theorem slow_sort_correct_aux (d : Nat) : ∀ (start end_ : Nat)
    (lk : ArrayLock), end_ - start = d → end_ < lk.nums.length →
    ∃ lk', slow_sort start end_ lk = some lk' ∧
      lk'.nums.length = lk.nums.length ∧ lk'.nums.Perm lk.nums ∧
      (∀ p, p < start ∨ end_ < p → lk'.nums.getD p 0 = lk.nums.getD p 0) ∧
      (∀ p q, start ≤ p → p < q → q ≤ end_ →
        lk'.nums.getD p 0 ≤ lk'.nums.getD q 0) := by
  induction d using Nat.strong_induction_on with
  | _ d ih =>
      intro start end_ lk hd he
      by_cases h1 : start < end_
      · rw [slow_sort, dif_pos h1]
        set m := (start + end_) / 2 with hm
        have hm1 : start ≤ m := by omega
        have hm2 : m < end_ := by omega
        obtain ⟨lk1, hr1, hl1, hp1, ho1, hs1⟩ := ih (m - start)
          (by omega) start m lk (by omega) (by omega)
        rw [hr1]
        simp only [Option.bind_eq_bind, Option.some_bind]
        obtain ⟨lk2, hr2, hl2, hp2, ho2, hs2⟩ := ih (end_ - (m + 1))
          (by omega) (m + 1) end_ lk1 (by omega) (by rw [hl1]; exact he)
        rw [hr2]
        simp only [Option.some_bind]
        have hlen2 : lk2.nums.length = lk.nums.length := by rw [hl2, hl1]
        have hml : m < lk2.nums.length := by omega
        have hel : end_ < lk2.nums.length := by omega
        obtain ⟨lk2c, hc, hn2c⟩ := ArrayLock.cmp_two_nums lk2 m end_ hml hel
        rw [hc]
        simp only [Option.bind_eq_bind, Option.some_bind]
        -- the maximum of the two sorted halves ends up at position end_
        have hhalf1 : ∀ p, start ≤ p → p ≤ m →
            lk2.nums.getD p 0 ≤ lk2.nums.getD m 0 := by
          intro p hp1 hp2
          rcases eq_or_lt_of_le hp2 with heq | hp3
          · rw [heq]
          · rw [ho2 p (Or.inl (by omega)), ho2 m (Or.inl (by omega))]
            exact hs1 p m hp1 hp3 le_rfl
        have hhalf2 : ∀ p, m < p → p ≤ end_ →
            lk2.nums.getD p 0 ≤ lk2.nums.getD end_ 0 := by
          intro p hp1 hp2
          rcases eq_or_lt_of_le hp2 with heq | hp3
          · rw [heq]
          · exact hs2 p end_ (by omega) hp3 le_rfl
        by_cases hlt : lk2.nums.getD end_ 0 < lk2.nums.getD m 0
        · rw [if_pos (by rw [Nat.compare_eq_gt]; exact hlt)]
          obtain ⟨lk3, hsw, hn3⟩ := ArrayLock.swap_nums lk2c m end_
            (by rw [hn2c]; exact hml) (by rw [hn2c]; exact hel)
          rw [hsw]
          simp only [Option.some_bind]
          have hn3' : lk3.nums = swapL m end_ lk2.nums := by rw [hn3, hn2c]
          have hg : ∀ x, (swapL m end_ lk2.nums).getD x 0 =
              if x = end_ then lk2.nums.getD m 0
              else if x = m then lk2.nums.getD end_ 0
              else lk2.nums.getD x 0 :=
            fun x => getD_swapL m end_ x lk2.nums hml hel
          have hlen3 : lk3.nums.length = lk.nums.length := by
            rw [hn3']; simp [hlen2]
          have hmax : ∀ p, start ≤ p → p < end_ →
              lk3.nums.getD p 0 ≤ lk3.nums.getD end_ 0 := by
            intro p hp1 hp2
            rw [hn3', hg p, hg end_, if_pos rfl, if_neg (by omega)]
            by_cases hpm : p = m
            · rw [if_pos hpm]
              exact le_of_lt hlt
            · rw [if_neg hpm]
              rcases Nat.lt_or_ge p m with h3 | h3
              · exact hhalf1 p hp1 (by omega)
              · exact le_trans (hhalf2 p (by omega) (by omega)) (le_of_lt hlt)
          have hout3 : ∀ p, p < start ∨ end_ < p →
              lk3.nums.getD p 0 = lk.nums.getD p 0 := by
            intro p hp
            rw [hn3', hg p, if_neg (by omega), if_neg (by omega)]
            rcases hp with hp | hp
            · rw [ho2 p (Or.inl (by omega)), ho1 p (Or.inl hp)]
            · rw [ho2 p (Or.inr hp), ho1 p (Or.inr (by omega))]
          have hperm3 : lk3.nums.Perm lk.nums := by
            rw [hn3']
            exact (swapL_perm m end_ lk2.nums hml hel).trans
              (hp2.trans hp1)
          obtain ⟨lk4, hr4, hl4, hp4, ho4, hs4⟩ := ih (end_ - 1 - start)
            (by omega) start (end_ - 1) lk3 (by omega) (by rw [hlen3]; omega)
          rw [hr4]
          refine ⟨lk4, rfl, by rw [hl4, hlen3], hp4.trans hperm3, ?_, ?_⟩
          · intro p hp
            rcases hp with hp | hp
            · rw [ho4 p (Or.inl hp), hout3 p (Or.inl hp)]
            · rw [ho4 p (Or.inr (by omega)), hout3 p (Or.inr hp)]
          · intro p q hp hpq hq
            rcases le_or_lt q (end_ - 1) with hqt | hqt
            · exact hs4 p q hp hpq hqt
            · have hqe : q = end_ := by omega
              have hq4 : lk4.nums.getD q 0 = lk3.nums.getD q 0 :=
                ho4 q (Or.inr (by omega))
              obtain ⟨r, hr1', hr2', hr3'⟩ := middle_mem lk3.nums lk4.nums
                start (end_ - 1 + 1) hl4 hp4
                (fun p' hp' => ho4 p' (Or.inl hp'))
                (fun q' h1' h2' => ho4 q' (Or.inr (by omega)))
                (by rw [hlen3]; omega) p hp (by omega)
              rw [hq4, ← hr3', hqe]
              exact hmax r hr1' (by omega)
        · rw [if_neg (by rw [Nat.compare_eq_gt]; exact hlt)]
          simp only [Option.some_bind]
          push_neg at hlt
          have hmax : ∀ p, start ≤ p → p < end_ →
              lk2c.nums.getD p 0 ≤ lk2c.nums.getD end_ 0 := by
            intro p hp1 hp2
            rw [hn2c]
            rcases Nat.lt_or_ge p (m + 1) with h3 | h3
            · exact le_trans (hhalf1 p hp1 (by omega)) hlt
            · exact hhalf2 p (by omega) (by omega)
          have hout3 : ∀ p, p < start ∨ end_ < p →
              lk2c.nums.getD p 0 = lk.nums.getD p 0 := by
            intro p hp
            rw [hn2c]
            rcases hp with hp | hp
            · rw [ho2 p (Or.inl (by omega)), ho1 p (Or.inl hp)]
            · rw [ho2 p (Or.inr hp), ho1 p (Or.inr (by omega))]
          have hlen3 : lk2c.nums.length = lk.nums.length := by
            rw [hn2c, hlen2]
          have hperm3 : lk2c.nums.Perm lk.nums := by
            rw [hn2c]; exact hp2.trans hp1
          obtain ⟨lk4, hr4, hl4, hp4, ho4, hs4⟩ := ih (end_ - 1 - start)
            (by omega) start (end_ - 1) lk2c (by omega)
            (by rw [hlen3]; omega)
          rw [hr4]
          refine ⟨lk4, rfl, by rw [hl4, hlen3], hp4.trans hperm3, ?_, ?_⟩
          · intro p hp
            rcases hp with hp | hp
            · rw [ho4 p (Or.inl hp), hout3 p (Or.inl hp)]
            · rw [ho4 p (Or.inr (by omega)), hout3 p (Or.inr hp)]
          · intro p q hp hpq hq
            rcases le_or_lt q (end_ - 1) with hqt | hqt
            · exact hs4 p q hp hpq hqt
            · have hqe : q = end_ := by omega
              have hq4 : lk4.nums.getD q 0 = lk2c.nums.getD q 0 :=
                ho4 q (Or.inr (by omega))
              obtain ⟨r, hr1', hr2', hr3'⟩ := middle_mem lk2c.nums lk4.nums
                start (end_ - 1 + 1) hl4 hp4
                (fun p' hp' => ho4 p' (Or.inl hp'))
                (fun q' h1' h2' => ho4 q' (Or.inr (by omega)))
                (by rw [hlen3]; omega) p hp (by omega)
              rw [hq4, ← hr3', hqe]
              exact hmax r hr1' (by omega)
      · rw [slow_sort, dif_neg h1]
        refine ⟨lk, rfl, rfl, List.Perm.refl _, fun p _ => rfl, ?_⟩
        intro p q hp hpq hq
        omega

theorem slow_sort_correct (lk : ArrayLock) (size : Nat)
    (hsz : lk.nums.length = size) (hpos : 1 ≤ size) :
    ∃ lk', slow_sort 0 (size - 1) lk = some lk' ∧
      lk'.nums.Perm lk.nums ∧ lk'.nums.Sorted (· ≤ ·) := by
  obtain ⟨lk', hrun, hl, hp, ho, hs⟩ := slow_sort_correct_aux (size - 1)
    0 (size - 1) lk rfl (by omega)
  refine ⟨lk', hrun, hp, ?_⟩
  apply sorted_of_adj
  intro i hi
  exact hs i (i + 1) (by omega) (by omega) (by rw [hl] at hi; omega)

/-!
### Quick sort
-/

theorem nodup_getD_ne (l : List Nat) (hnd : l.Nodup) (p q : Nat)
    (hpq : p < q) (hq : q < l.length) : l.getD p 0 ≠ l.getD q 0 := by
  rw [List.getD_eq_getElem _ _ (by omega), List.getD_eq_getElem _ _ hq]
  exact List.pairwise_iff_getElem.mp hnd p q (by omega) hq hpq

theorem quick_left_run (fuel : Nat) : ∀ (l end_ : Nat) (lk : ArrayLock),
    end_ < lk.nums.length → l ≤ end_ → end_ - l < fuel →
    ∃ l2 lk', quick_left fuel l end_ lk = some (l2, lk') ∧
      lk'.nums = lk.nums ∧ l ≤ l2 ∧ l2 ≤ end_ ∧
      (∀ p, l ≤ p → p < l2 → lk.nums.getD p 0 < lk.nums.getD end_ 0) ∧
      (l2 < end_ → ¬ lk.nums.getD l2 0 < lk.nums.getD end_ 0) := by
  induction fuel with
  | zero => intro l end_ lk _ _ h; omega
  | succ f ih =>
      intro l end_ lk he hle hf
      rw [quick_left]
      by_cases hguard : l < end_
      · rw [if_pos hguard]
        obtain ⟨lk1, hc, hn1⟩ := ArrayLock.cmp_two_nums lk l end_
          (by omega) he
        rw [hc]
        simp only [Option.bind_eq_bind, Option.some_bind]
        by_cases hlt : lk.nums.getD l 0 < lk.nums.getD end_ 0
        · rw [if_pos (by rw [Nat.compare_eq_lt]; exact hlt)]
          obtain ⟨l2, lk', hrec, hn', h1, h2, h3, h4⟩ := ih (l + 1) end_ lk1
            (by rw [hn1]; exact he) (by omega) (by omega)
          rw [hn1] at hn' h3 h4
          refine ⟨l2, lk', hrec, hn', by omega, h2, ?_, h4⟩
          intro p hp1 hp2
          rcases eq_or_lt_of_le hp1 with heq | hgt
          · rw [← heq]; exact hlt
          · exact h3 p (by omega) hp2
        · rw [if_neg (by rw [Nat.compare_eq_lt]; exact hlt)]
          exact ⟨l, lk1, rfl, hn1, le_rfl, by omega,
            fun p h1 h2 => absurd (h1.trans_lt h2) (by omega),
            fun _ => hlt⟩
      · rw [if_neg hguard]
        exact ⟨l, lk, rfl, rfl, le_rfl, hle,
          fun p h1 h2 => absurd (h1.trans_lt h2) (by omega),
          fun h => absurd h hguard⟩

theorem quick_right_run (fuel : Nat) : ∀ (r start end_ : Nat) (lk : ArrayLock),
    end_ < lk.nums.length → r < end_ → start ≤ r → r - start < fuel →
    ∃ r2 lk', quick_right fuel r start end_ lk = some (r2, lk') ∧
      lk'.nums = lk.nums ∧ start ≤ r2 ∧ r2 ≤ r ∧
      (∀ p, r2 < p → p ≤ r → lk.nums.getD end_ 0 < lk.nums.getD p 0) ∧
      (start < r2 → ¬ lk.nums.getD end_ 0 < lk.nums.getD r2 0) := by
  induction fuel with
  | zero => intro r start end_ lk _ _ _ h; omega
  | succ f ih =>
      intro r start end_ lk he hre hsr hf
      rw [quick_right]
      by_cases hguard : start < r
      · rw [if_pos hguard]
        obtain ⟨lk1, hc, hn1⟩ := ArrayLock.cmp_two_nums lk r end_
          (by omega) he
        rw [hc]
        simp only [Option.bind_eq_bind, Option.some_bind]
        by_cases hgt : lk.nums.getD end_ 0 < lk.nums.getD r 0
        · rw [if_pos (by rw [Nat.compare_eq_gt]; exact hgt)]
          obtain ⟨r2, lk', hrec, hn', h1, h2, h3, h4⟩ := ih (r - 1) start end_
            lk1 (by rw [hn1]; exact he) (by omega) (by omega) (by omega)
          rw [hn1] at hn' h3 h4
          refine ⟨r2, lk', hrec, hn', h1, by omega, ?_, h4⟩
          intro p hp1 hp2
          rcases eq_or_lt_of_le hp2 with heq | hgt2
          · rw [heq]; exact hgt
          · exact h3 p hp1 (by omega)
        · rw [if_neg (by rw [Nat.compare_eq_gt]; exact hgt)]
          exact ⟨r, lk1, rfl, hn1, by omega, le_rfl,
            fun p h1 h2 => absurd (h2.trans_lt h1) (by omega),
            fun _ => hgt⟩
      · rw [if_neg hguard]
        exact ⟨r, lk, rfl, rfl, hsr, le_rfl,
          fun p h1 h2 => absurd (h2.trans_lt h1) (by omega),
          fun h => absurd h hguard⟩

theorem quick_part_run (fuel : Nat) : ∀ (start end_ l r : Nat)
    (lk : ArrayLock) (piv : Nat), end_ < lk.nums.length →
    lk.nums.getD end_ 0 = piv → start < end_ →
    start ≤ l → l ≤ end_ → start ≤ r → r ≤ end_ - 1 →
    (∀ p, start ≤ p → p < end_ → lk.nums.getD p 0 ≠ piv) →
    (∀ p, start ≤ p → p < l → lk.nums.getD p 0 < piv) →
    (∀ p, r < p → p ≤ end_ - 1 → piv < lk.nums.getD p 0) →
    ((r - l) + 2 ≤ fuel ∨
      ((r - l) + 1 ≤ fuel ∧ lk.nums.getD l 0 < piv ∧
        piv < lk.nums.getD r 0)) →
    ∃ lf lk', quick_part fuel start end_ l r lk = some (lf, lk') ∧
      l ≤ lf ∧ lf ≤ end_ ∧
      lk'.nums.length = lk.nums.length ∧ lk'.nums.Perm lk.nums ∧
      (∀ p, p < l ∨ r < p → lk'.nums.getD p 0 = lk.nums.getD p 0) ∧
      (∀ p, start ≤ p → p < lf → lk'.nums.getD p 0 < piv) ∧
      (∀ p, lf < p → p ≤ end_ - 1 → piv < lk'.nums.getD p 0) ∧
      (l < r → lf = end_ ∨ piv < lk'.nums.getD lf 0) := by
  induction fuel with
  | zero => intro start end_ l r lk piv _ _ _ _ _ _ _ _ _ _ hfl; omega
  | succ f ih =>
      intro start end_ l r lk piv he hpiv hse hsl hle hsr hre hne inv1 inv2 hfl
      rw [quick_part]
      by_cases hguard : l < r
      · rw [if_pos hguard]
        obtain ⟨l2, lka, hlrun, hna, hl1, hl2, hlscan, hlstop⟩ :=
          quick_left_run (end_ - l + 1) l end_ lk he hle (by omega)
        rw [hlrun]
        simp only [Option.bind_eq_bind, Option.some_bind]
        obtain ⟨r2, lkb, hrrun, hnb, hr1, hr2, hrscan, hrstop⟩ :=
          quick_right_run (r - start + 1) r start end_ lka
            (by rw [hna]; exact he) (by omega) hsr (by omega)
        rw [hna] at hnb hrscan hrstop
        rw [hrrun]
        simp only [Option.some_bind]
        -- combined prefix/suffix facts at the scan results
        have hP1 : ∀ p, start ≤ p → p < l2 → lk.nums.getD p 0 < piv := by
          intro p h1 h2
          rcases Nat.lt_or_ge p l with h3 | h3
          · exact inv1 p h1 h3
          · rw [← hpiv]; exact hlscan p h3 h2
        have hP2 : ∀ p, r2 < p → p ≤ end_ - 1 → piv < lk.nums.getD p 0 := by
          intro p h1 h2
          rcases Nat.lt_or_ge r p with h3 | h3
          · exact inv2 p h3 h2
          · rw [← hpiv]; exact hrscan p h1 h3
        by_cases hcross : l2 < r2
        · rw [if_pos hcross]
          obtain ⟨lk3, hsw, hn3⟩ := ArrayLock.swap_nums lkb l2 r2
            (by rw [hnb]; omega) (by rw [hnb]; omega)
          rw [hsw]
          simp only [Option.some_bind]
          have hn3' : lk3.nums = swapL l2 r2 lk.nums := by rw [hn3, hnb]
          have hg : ∀ x, (swapL l2 r2 lk.nums).getD x 0 =
              if x = r2 then lk.nums.getD l2 0
              else if x = l2 then lk.nums.getD r2 0
              else lk.nums.getD x 0 :=
            fun x => getD_swapL l2 r2 x lk.nums (by omega) (by omega)
          have hval_l : lk3.nums.getD l2 0 = lk.nums.getD r2 0 := by
            rw [hn3', hg l2, if_neg (by omega), if_pos rfl]
          have hval_r : lk3.nums.getD r2 0 = lk.nums.getD l2 0 := by
            rw [hn3', hg r2, if_pos rfl]
          have hother : ∀ x, x ≠ l2 → x ≠ r2 →
              lk3.nums.getD x 0 = lk.nums.getD x 0 := by
            intro x hx1 hx2
            rw [hn3', hg x, if_neg hx2, if_neg hx1]
          -- the swapped-in values straddle the pivot strictly
          have hlv : lk.nums.getD r2 0 < piv := by
            have hstop := hrstop (by omega)
            push_neg at hstop
            rcases eq_or_lt_of_le hstop with heq | hgt2
            · exact absurd (heq.trans hpiv) (hne r2 (by omega) (by omega))
            · rwa [hpiv] at hgt2
          have hrv : piv < lk.nums.getD l2 0 := by
            have hstop := hlstop (by omega)
            push_neg at hstop
            rcases eq_or_lt_of_le hstop with heq | hgt2
            · exact absurd (heq.symm.trans hpiv)
                (hne l2 (by omega) (by omega))
            · rwa [hpiv] at hgt2
          have hlen3 : lk3.nums.length = lk.nums.length := by
            rw [hn3']; simp
          have hne3 : ∀ p, start ≤ p → p < end_ →
              lk3.nums.getD p 0 ≠ piv := by
            intro p h1 h2
            by_cases hp1 : p = l2
            · rw [hp1, hval_l]
              omega
            · by_cases hp2 : p = r2
              · rw [hp2, hval_r]
                omega
              · rw [hother p hp1 hp2]
                exact hne p h1 h2
          have inv1' : ∀ p, start ≤ p → p < l2 →
              lk3.nums.getD p 0 < piv := by
            intro p h1 h3
            rw [hother p (by omega) (by omega)]
            exact hP1 p h1 h3
          have inv2' : ∀ p, r2 < p → p ≤ end_ - 1 →
              lk3.nums.getD p 0 > piv := by
            intro p h3 h2
            rw [hother p (by omega) (by omega)]
            exact hP2 p h3 h2
          have hfl' : ((r2 - l2) + 2 ≤ f ∨
              ((r2 - l2) + 1 ≤ f ∧ lk3.nums.getD l2 0 < piv ∧
                piv < lk3.nums.getD r2 0)) := by
            right
            refine ⟨?_, by rw [hval_l]; exact hlv, by rw [hval_r]; exact hrv⟩
            rcases hfl with hm | ⟨hm, hml, hmr⟩
            · omega
            · have hl2' : l ≠ l2 := by
                intro heq
                have hstop := hlstop (by omega)
                rw [← heq, hpiv] at hstop
                exact hstop hml
              have hr2' : r ≠ r2 := by
                intro heq
                have hstop := hrstop (by omega)
                rw [← heq, hpiv] at hstop
                exact hstop hmr
              omega
          have hswperm : lk3.nums.Perm lk.nums := by
            rw [hn3']
            exact swapL_perm l2 r2 lk.nums (by omega) (by omega)
          obtain ⟨lf, lk', hrec, k1, k2, k3, k4, k5, k6, k7, k8⟩ :=
            ih start end_ l2 r2 lk3 piv (by omega)
              (by rw [hother end_ (by omega) (by omega)]; exact hpiv)
              hse (by omega) (by omega) (by omega) (by omega)
              hne3 inv1' inv2' hfl'
          rw [hrec]
          have hlenf : lk'.nums.length = lk.nums.length := by
            rw [k3, hlen3]
          refine ⟨lf, lk', rfl, by omega, k2, hlenf,
            k4.trans hswperm, ?_, k6, k7, fun _ => k8 hcross⟩
          intro p hp
          rw [k5 p (by omega), hother p (by omega) (by omega)]
        · rw [if_neg hcross]
          refine ⟨l2, lkb, rfl, hl1, hl2, by rw [hnb], by rw [hnb],
            fun p _ => by rw [hnb], by rw [hnb]; exact hP1, ?_, ?_⟩
          · intro p h1 h2
            rw [hnb]
            exact hP2 p (by omega) h2
          · intro _
            rcases eq_or_lt_of_le hl2 with heq | hlt2
            · exact Or.inl heq
            · right
              have hstop := hlstop hlt2
              push_neg at hstop
              rw [hnb]
              rcases eq_or_lt_of_le hstop with heq | hgt2
              · exact absurd (heq.symm.trans hpiv)
                  (hne l2 (by omega) (by omega))
              · rwa [hpiv] at hgt2
      · rw [if_neg hguard]
        refine ⟨l, lk, rfl, le_rfl, hle, rfl, List.Perm.refl _,
          fun p _ => rfl, inv1, ?_, fun h => absurd h hguard⟩
        intro p h1 h2
        exact inv2 p (by omega) h2

/-- The two recursive calls of `quick_sort` after partitioning: given a
partitioned state (`piv` at `lf`, smaller values below, larger above up to the
stated slack), they produce a fully sorted range. -/
theorem quick_sort_steps (f : Nat)
    (ih : ∀ (start end_ rng : Nat) (lk : ArrayLock),
      end_ < lk.nums.length → end_ - start < f → lk.nums.Nodup →
      ∃ lk', quick_sort f start end_ rng lk = some lk' ∧
        lk'.nums.length = lk.nums.length ∧ lk'.nums.Perm lk.nums ∧
        (∀ p, p < start ∨ end_ < p → lk'.nums.getD p 0 = lk.nums.getD p 0) ∧
        (∀ p q, start ≤ p → p < q → q ≤ end_ →
          lk'.nums.getD p 0 ≤ lk'.nums.getD q 0))
    (start end_ lf rng piv : Nat) (lk2 : ArrayLock)
    (he : end_ < lk2.nums.length) (hse : start < end_)
    (hfuel : end_ - start ≤ f)
    (hlf1 : start ≤ lf) (hlf2 : lf ≤ end_) (hnd : lk2.nums.Nodup)
    (S1 : ∀ p, start ≤ p → p < lf → lk2.nums.getD p 0 < piv)
    (S2 : ∀ q, lf < q → q ≤ end_ → piv ≤ lk2.nums.getD q 0)
    (S3 : lk2.nums.getD lf 0 = piv ∨
      (lf = start ∧ lk2.nums.getD lf 0 ≤ piv)) :
    ∃ lk', (do
        let lk ← (if start < lf then quick_sort f start (lf - 1) rng lk2
          else some lk2)
        if lf < end_ then quick_sort f (lf + 1) end_ rng lk
        else some lk) = some lk' ∧
      lk'.nums.length = lk2.nums.length ∧ lk'.nums.Perm lk2.nums ∧
      (∀ p, p < start ∨ end_ < p → lk'.nums.getD p 0 = lk2.nums.getD p 0) ∧
      (∀ p q, start ≤ p → p < q → q ≤ end_ →
        lk'.nums.getD p 0 ≤ lk'.nums.getD q 0) := by
  have hstage3 : ∃ lk3, (if start < lf then quick_sort f start (lf - 1) rng
        lk2 else some lk2) = some lk3 ∧
      lk3.nums.length = lk2.nums.length ∧ lk3.nums.Perm lk2.nums ∧
      (∀ p, p < start ∨ lf ≤ p → lk3.nums.getD p 0 = lk2.nums.getD p 0) ∧
      (∀ p q, start ≤ p → p < q → q ≤ lf - 1 →
        lk3.nums.getD p 0 ≤ lk3.nums.getD q 0) := by
    by_cases hsl : start < lf
    · rw [if_pos hsl]
      obtain ⟨lk3, hrun, h1, h2, h3, h4⟩ := ih start (lf - 1) rng lk2
        (by omega) (by omega) hnd
      exact ⟨lk3, hrun, h1, h2, fun p hp => h3 p (by omega), h4⟩
    · rw [if_neg hsl]
      exact ⟨lk2, rfl, rfl, List.Perm.refl _, fun p _ => rfl,
        fun p q h1 h2 h3 => absurd (by omega : q < q) (lt_irrefl q)⟩
  obtain ⟨lk3, hrun3, hl3, hp3, ho3, hs3⟩ := hstage3
  rw [hrun3]
  simp only [Option.bind_eq_bind, Option.some_bind]
  have hnd3 : lk3.nums.Nodup := (hp3.nodup_iff).mpr hnd
  have hstage4 : ∃ lk4, (if lf < end_ then quick_sort f (lf + 1) end_ rng
        lk3 else some lk3) = some lk4 ∧
      lk4.nums.length = lk3.nums.length ∧ lk4.nums.Perm lk3.nums ∧
      (∀ p, p ≤ lf ∨ end_ < p → lk4.nums.getD p 0 = lk3.nums.getD p 0) ∧
      (∀ p q, lf + 1 ≤ p → p < q → q ≤ end_ →
        lk4.nums.getD p 0 ≤ lk4.nums.getD q 0) := by
    by_cases hsl : lf < end_
    · rw [if_pos hsl]
      obtain ⟨lk4, hrun, h1, h2, h3, h4⟩ := ih (lf + 1) end_ rng lk3
        (by omega) (by omega) hnd3
      exact ⟨lk4, hrun, h1, h2, fun p hp => h3 p (by omega), h4⟩
    · rw [if_neg hsl]
      exact ⟨lk3, rfl, rfl, List.Perm.refl _, fun p _ => rfl,
        fun p q h1 h2 h3 => absurd (by omega : q < q) (lt_irrefl q)⟩
  obtain ⟨lk4, hrun4, hl4, hp4, ho4, hs4⟩ := hstage4
  rw [hrun4]
  have hval_lf : lk4.nums.getD lf 0 = lk2.nums.getD lf 0 := by
    rw [ho4 lf (Or.inl le_rfl), ho3 lf (Or.inr le_rfl)]
  have hbelow : ∀ p, start ≤ p → p < lf → lk4.nums.getD p 0 < piv := by
    intro p h1 h2
    rw [ho4 p (Or.inl (by omega))]
    obtain ⟨r, hr1, hr2, hr3⟩ := middle_mem lk2.nums lk3.nums start lf
      hl3 hp3 (fun p' hp' => ho3 p' (Or.inl hp'))
      (fun q' h1' h2' => ho3 q' (Or.inr h1')) (by omega) p h1 h2
    rw [← hr3]
    exact S1 r hr1 hr2
  have habove : ∀ q, lf < q → q ≤ end_ → piv ≤ lk4.nums.getD q 0 := by
    intro q h1 h2
    obtain ⟨r, hr1, hr2, hr3⟩ := middle_mem lk3.nums lk4.nums (lf + 1)
      (end_ + 1) hl4 hp4 (fun p' hp' => ho4 p' (Or.inl (by omega)))
      (fun q' h1' h2' => ho4 q' (Or.inr (by omega)))
      (by omega) q (by omega) (by omega)
    rw [← hr3, ho3 r (Or.inr (by omega))]
    exact S2 r (by omega) (by omega)
  refine ⟨lk4, rfl, by rw [hl4, hl3], hp4.trans hp3, ?_, ?_⟩
  · intro p hp
    rcases hp with hp | hp
    · rw [ho4 p (Or.inl (by omega)), ho3 p (Or.inl hp)]
    · rw [ho4 p (Or.inr hp), ho3 p (Or.inr (by omega))]
  · intro p q hp hpq hq
    rcases Nat.lt_or_ge q lf with hql | hql
    · rw [ho4 p (Or.inl (by omega)), ho4 q (Or.inl (by omega))]
      exact hs3 p q hp hpq (by omega)
    · rcases eq_or_lt_of_le hql with heq | hql2
      · rcases S3 with h | ⟨h, _⟩
        · rw [← heq, hval_lf, h]
          exact le_of_lt (hbelow p hp (by omega))
        · omega
      · rcases Nat.lt_or_ge p lf with hpl | hpl
        · exact le_of_lt (lt_of_lt_of_le (hbelow p hp hpl)
            (habove q (by omega) hq))
        · rcases eq_or_lt_of_le hpl with heqp | hpl2
          · rw [← heqp, hval_lf]
            refine le_trans ?_ (habove q (by omega) hq)
            rcases S3 with h | ⟨h, h2⟩
            · omega
            · exact h2
          · exact hs4 p q (by omega) hpq hq

theorem quick_sort_run (fuel : Nat) : ∀ (start end_ rng : Nat)
    (lk : ArrayLock), end_ < lk.nums.length → end_ - start < fuel →
    lk.nums.Nodup →
    ∃ lk', quick_sort fuel start end_ rng lk = some lk' ∧
      lk'.nums.length = lk.nums.length ∧ lk'.nums.Perm lk.nums ∧
      (∀ p, p < start ∨ end_ < p → lk'.nums.getD p 0 = lk.nums.getD p 0) ∧
      (∀ p q, start ≤ p → p < q → q ≤ end_ →
        lk'.nums.getD p 0 ≤ lk'.nums.getD q 0) := by
  induction fuel with
  | zero => intro start end_ rng lk _ h _; omega
  | succ f ih =>
      intro start end_ rng lk he hf hnd
      rw [quick_sort]
      by_cases hends : end_ ≤ start
      · rw [if_pos hends]
        exact ⟨lk, rfl, rfl, List.Perm.refl _, fun p _ => rfl,
          fun p q h1 h2 h3 => absurd (by omega : q < q) (lt_irrefl q)⟩
      · rw [if_neg hends]
        push_neg at hends
        set piv := lk.nums.getD end_ 0 with hpivdef
        have hne : ∀ p, start ≤ p → p < end_ → lk.nums.getD p 0 ≠ piv :=
          fun p h1 h2 => nodup_getD_ne lk.nums hnd p end_ h2 he
        obtain ⟨lf, lk1, hpart, hl1, hl2, hlen1, hperm1, hout1, hP1, hP2,
          hlast⟩ := quick_part_run (end_ - start + 2) start end_ start
            (end_ - 1) lk piv he rfl hends le_rfl (by omega) (by omega)
            le_rfl hne
            (fun p h1 h2 => absurd (h1.trans_lt h2) (lt_irrefl start))
            (fun p h1 h2 => absurd (h1.trans_le h2) (lt_irrefl (end_ - 1)))
            (Or.inl (by omega))
        rw [hpart]
        simp only [Option.bind_eq_bind, Option.some_bind]
        have hpivot1 : lk1.nums.getD end_ 0 = piv :=
          hout1 end_ (Or.inr (by omega))
        obtain ⟨lk1c, hc, hn1c⟩ := ArrayLock.cmp_two_nums lk1 lf end_
          (by omega) (by omega)
        rw [hc]
        simp only [Option.bind_eq_bind, Option.some_bind]
        have hnd1 : lk1.nums.Nodup := (hperm1.nodup_iff).mpr hnd
        by_cases hgt : lk1.nums.getD end_ 0 < lk1.nums.getD lf 0
        · -- the pivot is swapped into position lf
          rw [if_pos (by rw [Nat.compare_eq_gt]; exact hgt)]
          have hlf_ne : lf ≠ end_ := by
            intro h
            rw [h] at hgt
            exact lt_irrefl _ hgt
          obtain ⟨lk2, hsw, hn2⟩ := ArrayLock.swap_nums lk1c lf end_
            (by rw [hn1c]; omega) (by rw [hn1c]; omega)
          rw [hsw]
          simp only [Option.some_bind]
          have hn2' : lk2.nums = swapL lf end_ lk1.nums := by rw [hn2, hn1c]
          have hg : ∀ x, (swapL lf end_ lk1.nums).getD x 0 =
              if x = end_ then lk1.nums.getD lf 0
              else if x = lf then lk1.nums.getD end_ 0
              else lk1.nums.getD x 0 :=
            fun x => getD_swapL lf end_ x lk1.nums (by omega) (by omega)
          have hlen2 : lk2.nums.length = lk.nums.length := by
            rw [hn2']; simp [hlen1]
          have hperm2 : lk2.nums.Perm lk.nums := by
            rw [hn2']
            exact (swapL_perm lf end_ lk1.nums (by omega) (by omega)).trans
              hperm1
          have S1 : ∀ p, start ≤ p → p < lf → lk2.nums.getD p 0 < piv := by
            intro p h1 h2
            rw [hn2', hg p, if_neg (by omega), if_neg (by omega)]
            exact hP1 p h1 h2
          have S2 : ∀ q, lf < q → q ≤ end_ → piv ≤ lk2.nums.getD q 0 := by
            intro q h1 h2
            rcases eq_or_lt_of_le h2 with heq | hlt
            · rw [heq, hn2', hg end_, if_pos rfl]
              rw [hpivot1] at hgt
              exact le_of_lt hgt
            · rw [hn2', hg q, if_neg (by omega), if_neg (by omega)]
              exact le_of_lt (hP2 q h1 (by omega))
          have S3 : lk2.nums.getD lf 0 = piv ∨
              (lf = start ∧ lk2.nums.getD lf 0 ≤ piv) := by
            left
            rw [hn2', hg lf, if_neg hlf_ne, if_pos rfl]
            exact hpivot1
          obtain ⟨lk', hrun, k1, k2, k3, k4⟩ := quick_sort_steps f ih start
            end_ lf rng piv lk2 (by omega) hends (by omega) hl1 hl2
            ((hperm2.nodup_iff).mpr hnd) S1 S2 S3
          refine ⟨lk', hrun, by rw [k1, hlen2], k2.trans hperm2, ?_, k4⟩
          intro p hp
          rw [k3 p hp, hn2', hg p, if_neg (by omega), if_neg (by omega)]
          rcases hp with hp | hp
          · exact hout1 p (Or.inl hp)
          · exact hout1 p (Or.inr (by omega))
        · -- no swap: the pivot already delimits the partition
          rw [if_neg (by rw [Nat.compare_eq_gt]; exact hgt)]
          simp only [Option.some_bind]
          push_neg at hgt
          have hcase : lf = end_ ∨ lf = start := by
            rcases eq_or_lt_of_le hl2 with heq | hlt
            · exact Or.inl heq
            · by_cases hbig : start < end_ - 1
              · rcases hlast hbig with h | h
                · exact Or.inl h
                · rw [hpivot1] at hgt
                  omega
              · right
                omega
          have S1 : ∀ p, start ≤ p → p < lf → lk1c.nums.getD p 0 < piv := by
            intro p h1 h2
            rw [hn1c]
            exact hP1 p h1 h2
          have S2 : ∀ q, lf < q → q ≤ end_ → piv ≤ lk1c.nums.getD q 0 := by
            intro q h1 h2
            rw [hn1c]
            rcases eq_or_lt_of_le h2 with heq | hlt
            · rw [heq, hpivot1]
            · exact le_of_lt (hP2 q h1 (by omega))
          have S3 : lk1c.nums.getD lf 0 = piv ∨
              (lf = start ∧ lk1c.nums.getD lf 0 ≤ piv) := by
            rcases hcase with h | h
            · left
              rw [hn1c, h]
              exact hpivot1
            · right
              rw [hn1c]
              rw [hpivot1] at hgt
              exact ⟨h, hgt⟩
          obtain ⟨lk', hrun, k1, k2, k3, k4⟩ := quick_sort_steps f ih start
            end_ lf rng piv lk1c (by rw [hn1c]; omega) hends (by omega) hl1
            hl2 (by rw [hn1c]; exact hnd1) S1 S2 S3
          refine ⟨lk', hrun, by rw [k1, hn1c, hlen1],
            k2.trans (by rw [hn1c]; exact hperm1), ?_, k4⟩
          intro p hp
          rw [k3 p hp, hn1c]
          rcases hp with hp | hp
          · exact hout1 p (Or.inl hp)
          · exact hout1 p (Or.inr (by omega))

theorem quick_sort_correct (lk : ArrayLock) (size : Nat)
    (hsz : lk.nums.length = size) (hpos : 1 ≤ size) (hnd : lk.nums.Nodup) :
    ∃ lk', quick_sort (size - 1 + 1) 0 (size - 1) 0 lk = some lk' ∧
      lk'.nums.Perm lk.nums ∧ lk'.nums.Sorted (· ≤ ·) := by
  obtain ⟨lk', hrun, hl, hp, ho, hs⟩ := quick_sort_run (size - 1 + 1) 0
    (size - 1) 0 lk (by omega) (by omega) hnd
  refine ⟨lk', hrun, hp, ?_⟩
  apply sorted_of_adj
  intro i hi
  exact hs i (i + 1) (by omega) (by omega) (by rw [hl] at hi; omega)

/-!
### Merge sort
-/

theorem seg_cons (l : List Nat) (a b : Nat) (hab : a ≤ b)
    (hb : b < l.length) : seg l a b = l.getD a 0 :: seg l (a + 1) b := by
  unfold seg
  rw [show b + 1 - a = (b - a) + 1 from by omega,
    List.drop_eq_getElem_cons (show a < l.length by omega),
    List.take_succ_cons, List.getD_eq_getElem _ _ (by omega),
    show b + 1 - (a + 1) = b - a from by omega]

theorem seg_append (l : List Nat) (a m b : Nat) (h1 : a ≤ m + 1)
    (h2 : m ≤ b) : seg l a b = seg l a m ++ seg l (m + 1) b := by
  unfold seg
  rw [show b + 1 - a = (m + 1 - a) + (b - m) from by omega, List.take_add,
    List.drop_drop, show a + (m + 1 - a) = m + 1 from by omega,
    show b + 1 - (m + 1) = b - m from by omega]

theorem seg_decomp (l : List Nat) (a b : Nat) (hab : a ≤ b + 1) :
    l = l.take a ++ (seg l a b ++ l.drop (b + 1)) := by
  conv_lhs => rw [← List.take_append_drop a l]
  congr 1
  unfold seg
  conv_lhs => rw [← List.take_append_drop (b + 1 - a) (l.drop a)]
  congr 1
  rw [List.drop_drop]
  congr 1
  omega

theorem write_back_run (tmp : List Nat) : ∀ (i : Nat) (lk : ArrayLock),
    i + tmp.length ≤ lk.nums.length →
    ∃ lk', write_back i tmp lk = some lk' ∧
      lk'.nums.length = lk.nums.length ∧
      (∀ p, p < i ∨ i + tmp.length ≤ p →
        lk'.nums.getD p 0 = lk.nums.getD p 0) ∧
      (∀ k, k < tmp.length → lk'.nums.getD (i + k) 0 = tmp.getD k 0) := by
  induction tmp with
  | nil =>
      intro i lk _
      exact ⟨lk, rfl, rfl, fun p _ => rfl, fun k hk => absurd hk (by simp)⟩
  | cons v rest ih =>
      intro i lk hlen
      simp only [List.length_cons] at hlen
      obtain ⟨lk1, hset, hn1⟩ := ArrayLock.set_nums lk i v (by omega)
      rw [write_back, hset]
      simp only [Option.bind_eq_bind, Option.some_bind]
      obtain ⟨lk', hrec, h1, h2, h3⟩ := ih (i + 1) lk1
        (by rw [hn1]; simp; omega)
      refine ⟨lk', hrec, by rw [h1, hn1]; simp, ?_, ?_⟩
      · intro p hp
        simp only [List.length_cons] at hp
        rw [h2 p (by omega), hn1, getD_set_ne _ _ _ _ (by omega)]
      · intro k hk
        match k with
        | 0 =>
            rw [Nat.add_zero, h2 i (Or.inl (by omega)), hn1,
              getD_set_eq _ _ _ (by omega)]
            rfl
        | kk + 1 =>
            simp only [List.length_cons] at hk
            have := h3 kk (by omega)
            rw [show i + (kk + 1) = i + 1 + kk from by omega]
            rw [this]
            rfl

theorem merge_read_run (cnt : Nat) : ∀ (l r m end_ : Nat) (tmp : List Nat)
    (lk : ArrayLock), end_ < lk.nums.length →
    l ≤ m + 1 → m + 1 ≤ r → r ≤ end_ + 1 → m ≤ end_ →
    cnt = (m + 1 - l) + (end_ + 1 - r) →
    (∀ p q, l ≤ p → p < q → q ≤ m →
      lk.nums.getD p 0 ≤ lk.nums.getD q 0) →
    (∀ p q, r ≤ p → p < q → q ≤ end_ →
      lk.nums.getD p 0 ≤ lk.nums.getD q 0) →
    (∀ x, x ∈ tmp → ∀ p, l ≤ p → p ≤ m → x ≤ lk.nums.getD p 0) →
    (∀ x, x ∈ tmp → ∀ p, r ≤ p → p ≤ end_ → x ≤ lk.nums.getD p 0) →
    tmp.Sorted (· ≤ ·) →
    ∃ tmp2 lk', merge_read cnt l r m end_ tmp lk = some (tmp2, lk') ∧
      lk'.nums = lk.nums ∧
      tmp2.Perm (tmp ++ (seg lk.nums l m ++ seg lk.nums r end_)) ∧
      tmp2.Sorted (· ≤ ·) := by
  induction cnt with
  | zero =>
      intro l r m end_ tmp lk he h1 h2 h3 h4 hcnt hs1 hs2 htl htr hst
      have hl : l = m + 1 := by omega
      have hr : r = end_ + 1 := by omega
      refine ⟨tmp, lk, rfl, rfl, ?_, hst⟩
      have e1 : seg lk.nums l m = [] := by
        unfold seg
        rw [show m + 1 - l = 0 from by omega]
        rfl
      have e2 : seg lk.nums r end_ = [] := by
        unfold seg
        rw [show end_ + 1 - r = 0 from by omega]
        rfl
      rw [e1, e2]
      simp
  | succ c ih =>
      intro l r m end_ tmp lk he h1 h2 h3 h4 hcnt hs1 hs2 htl htr hst
      rw [merge_read]
      by_cases hb1 : end_ < r
      · rw [if_pos hb1]
        have hlm : l ≤ m := by omega
        obtain ⟨lkg, hget, hng⟩ := ArrayLock.get_nums lk l (by omega)
        rw [hget]
        simp only [Option.bind_eq_bind, Option.some_bind]
        set x := lk.nums.getD l 0 with hx
        have htl' : ∀ y ∈ tmp ++ [x], ∀ p, l + 1 ≤ p → p ≤ m →
            y ≤ lk.nums.getD p 0 := by
          intro y hy p hp1 hp2
          rcases List.mem_append.mp hy with hy | hy
          · exact htl y hy p (by omega) hp2
          · have hyx : y = x := by simpa using hy
            rw [hyx, hx]
            exact hs1 l p le_rfl (by omega) hp2
        have htr' : ∀ y ∈ tmp ++ [x], ∀ p, r ≤ p → p ≤ end_ →
            y ≤ lk.nums.getD p 0 := by
          intro y hy p hp1 hp2
          omega
        have hst' : (tmp ++ [x]).Sorted (· ≤ ·) := by
          refine List.pairwise_append.mpr ⟨hst, List.sorted_singleton x, ?_⟩
          intro a ha b hb
          have hbx : b = x := by simpa using hb
          rw [hbx, hx]
          exact htl a ha l le_rfl hlm
        rw [← hng] at htl' htr'
        obtain ⟨tmp2, lk', hrec, hn', hperm, hsort⟩ := ih (l + 1) r m end_
          (tmp ++ [x]) lkg (by rw [hng]; exact he) (by omega) h2 h3 h4
          (by omega)
          (by rw [hng]; exact fun p q a b c1 => hs1 p q (by omega) b c1)
          (by rw [hng]; exact hs2) htl' htr' hst'
        rw [hng] at hn' hperm
        refine ⟨tmp2, lk', hrec, hn', ?_, hsort⟩
        refine hperm.trans ?_
        rw [seg_cons lk.nums l m hlm (by omega), ← hx]
        simp [List.append_assoc]
      · rw [if_neg hb1]
        push_neg at hb1
        by_cases hb2 : l ≤ m
        · rw [if_pos hb2]
          obtain ⟨lkc, hcmp, hnc⟩ := ArrayLock.cmp_two_nums lk l r
            (by omega) (by omega)
          rw [hcmp]
          simp only [Option.bind_eq_bind, Option.some_bind]
          by_cases hlt : lk.nums.getD l 0 < lk.nums.getD r 0
          · rw [if_pos (by rw [Nat.compare_eq_lt]; exact hlt)]
            obtain ⟨lkg, hget, hng⟩ := ArrayLock.get_nums lkc l
              (by rw [hnc]; omega)
            rw [hget]
            simp only [Option.bind_eq_bind, Option.some_bind]
            rw [hnc]
            set x := lk.nums.getD l 0 with hx
            have hngg : lkg.nums = lk.nums := by rw [hng, hnc]
            have htl' : ∀ y ∈ tmp ++ [x], ∀ p, l + 1 ≤ p → p ≤ m →
                y ≤ lkg.nums.getD p 0 := by
              intro y hy p hp1 hp2
              rw [hngg]
              rcases List.mem_append.mp hy with hy | hy
              · exact htl y hy p (by omega) hp2
              · have hyx : y = x := by simpa using hy
                rw [hyx, hx]
                exact hs1 l p le_rfl (by omega) hp2
            have htr' : ∀ y ∈ tmp ++ [x], ∀ p, r ≤ p → p ≤ end_ →
                y ≤ lkg.nums.getD p 0 := by
              intro y hy p hp1 hp2
              rw [hngg]
              rcases List.mem_append.mp hy with hy | hy
              · exact htr y hy p hp1 hp2
              · have hyx : y = x := by simpa using hy
                rw [hyx, hx]
                refine le_of_lt (lt_of_lt_of_le hlt ?_)
                rcases eq_or_lt_of_le hp1 with heq | hgt
                · rw [← heq]
                · exact hs2 r p le_rfl hgt hp2
            have hst' : (tmp ++ [x]).Sorted (· ≤ ·) := by
              refine List.pairwise_append.mpr
                ⟨hst, List.sorted_singleton x, ?_⟩
              intro a ha b hb
              have hbx : b = x := by simpa using hb
              rw [hbx, hx]
              exact htl a ha l le_rfl hb2
            obtain ⟨tmp2, lk', hrec, hn', hperm, hsort⟩ := ih (l + 1) r m
              end_ (tmp ++ [x]) lkg (by rw [hngg]; exact he) (by omega) h2 h3
              h4 (by omega)
              (by rw [hngg]; exact fun p q a b c1 => hs1 p q (by omega) b c1)
              (by rw [hngg]; exact hs2) htl' htr' hst'
            rw [hngg] at hn' hperm
            refine ⟨tmp2, lk', hrec, hn', ?_, hsort⟩
            refine hperm.trans ?_
            rw [seg_cons lk.nums l m hb2 (by omega), ← hx]
            simp [List.append_assoc]
          · rw [if_neg (by rw [Nat.compare_eq_lt]; exact hlt)]
            push_neg at hlt
            obtain ⟨lkg, hget, hng⟩ := ArrayLock.get_nums lkc r
              (by rw [hnc]; omega)
            rw [hget]
            simp only [Option.bind_eq_bind, Option.some_bind]
            rw [hnc]
            set x := lk.nums.getD r 0 with hx
            have hngg : lkg.nums = lk.nums := by rw [hng, hnc]
            have htl' : ∀ y ∈ tmp ++ [x], ∀ p, l ≤ p → p ≤ m →
                y ≤ lkg.nums.getD p 0 := by
              intro y hy p hp1 hp2
              rw [hngg]
              rcases List.mem_append.mp hy with hy | hy
              · exact htl y hy p hp1 hp2
              · have hyx : y = x := by simpa using hy
                rw [hyx, hx]
                refine le_trans hlt ?_
                rcases eq_or_lt_of_le hp1 with heq | hgt
                · rw [← heq]
                · exact hs1 l p le_rfl hgt hp2
            have htr' : ∀ y ∈ tmp ++ [x], ∀ p, r + 1 ≤ p → p ≤ end_ →
                y ≤ lkg.nums.getD p 0 := by
              intro y hy p hp1 hp2
              rw [hngg]
              rcases List.mem_append.mp hy with hy | hy
              · exact htr y hy p (by omega) hp2
              · have hyx : y = x := by simpa using hy
                rw [hyx, hx]
                exact hs2 r p le_rfl (by omega) hp2
            have hst' : (tmp ++ [x]).Sorted (· ≤ ·) := by
              refine List.pairwise_append.mpr
                ⟨hst, List.sorted_singleton x, ?_⟩
              intro a ha b hb
              have hbx : b = x := by simpa using hb
              rw [hbx, hx]
              exact htr a ha r le_rfl (by omega)
            obtain ⟨tmp2, lk', hrec, hn', hperm, hsort⟩ := ih l (r + 1) m
              end_ (tmp ++ [x]) lkg (by rw [hngg]; exact he) h1 (by omega)
              (by omega) (by omega) (by omega)
              (by rw [hngg]; exact hs1)
              (by rw [hngg]; exact fun p q a b c1 => hs2 p q (by omega) b c1)
              htl' htr' hst'
            rw [hngg] at hn' hperm
            refine ⟨tmp2, lk', hrec, hn', ?_, hsort⟩
            refine hperm.trans ?_
            rw [seg_cons lk.nums r end_ (by omega) (by omega), ← hx]
            have heq2 : (tmp ++ [x]) ++ (seg lk.nums l m ++
                seg lk.nums (r + 1) end_) =
                tmp ++ (x :: (seg lk.nums l m ++
                  seg lk.nums (r + 1) end_)) := by
              simp [List.append_assoc]
            rw [heq2]
            exact List.Perm.append_left tmp List.perm_middle.symm
        · rw [if_neg hb2]
          push_neg at hb2
          obtain ⟨lkg, hget, hng⟩ := ArrayLock.get_nums lk r (by omega)
          rw [hget]
          simp only [Option.bind_eq_bind, Option.some_bind]
          set x := lk.nums.getD r 0 with hx
          have htl' : ∀ y ∈ tmp ++ [x], ∀ p, l ≤ p → p ≤ m →
              y ≤ lkg.nums.getD p 0 := by
            intro y hy p hp1 hp2
            omega
          have htr' : ∀ y ∈ tmp ++ [x], ∀ p, r + 1 ≤ p → p ≤ end_ →
              y ≤ lkg.nums.getD p 0 := by
            intro y hy p hp1 hp2
            rw [hng]
            rcases List.mem_append.mp hy with hy | hy
            · exact htr y hy p (by omega) hp2
            · have hyx : y = x := by simpa using hy
              rw [hyx, hx]
              exact hs2 r p le_rfl (by omega) hp2
          have hst' : (tmp ++ [x]).Sorted (· ≤ ·) := by
            refine List.pairwise_append.mpr
              ⟨hst, List.sorted_singleton x, ?_⟩
            intro a ha b hb
            have hbx : b = x := by simpa using hb
            rw [hbx, hx]
            exact htr a ha r le_rfl (by omega)
          obtain ⟨tmp2, lk', hrec, hn', hperm, hsort⟩ := ih l (r + 1) m end_
            (tmp ++ [x]) lkg (by rw [hng]; exact he) h1 (by omega) (by omega)
            (by omega) (by omega)
            (by rw [hng]; exact hs1)
            (by rw [hng]; exact fun p q a b c1 => hs2 p q (by omega) b c1)
            htl' htr' hst'
          rw [hng] at hn' hperm
          refine ⟨tmp2, lk', hrec, hn', ?_, hsort⟩
          refine hperm.trans ?_
          rw [seg_cons lk.nums r end_ (by omega) (by omega), ← hx]
          have heq2 : (tmp ++ [x]) ++ (seg lk.nums l m ++
              seg lk.nums (r + 1) end_) =
              tmp ++ (x :: (seg lk.nums l m ++
                seg lk.nums (r + 1) end_)) := by
            simp [List.append_assoc]
          rw [heq2]
          exact List.Perm.append_left tmp List.perm_middle.symm

theorem merge_sort_correct_aux (d : Nat) : ∀ (start end_ : Nat)
    (lk : ArrayLock), end_ - start = d → end_ < lk.nums.length →
    ∃ lk', merge_sort start end_ lk = some lk' ∧
      lk'.nums.length = lk.nums.length ∧ lk'.nums.Perm lk.nums ∧
      (∀ p, p < start ∨ end_ < p → lk'.nums.getD p 0 = lk.nums.getD p 0) ∧
      (∀ p q, start ≤ p → p < q → q ≤ end_ →
        lk'.nums.getD p 0 ≤ lk'.nums.getD q 0) := by
  induction d using Nat.strong_induction_on with
  | _ d ih =>
      intro start end_ lk hd he
      by_cases h1 : end_ = start + 1
      · rw [merge_sort, if_pos h1]
        obtain ⟨lk1, hc, hn1⟩ := ArrayLock.cmp_two_nums lk start end_
          (by omega) he
        rw [hc]
        simp only [Option.bind_eq_bind, Option.some_bind]
        by_cases hlt : lk.nums.getD end_ 0 < lk.nums.getD start 0
        · rw [if_pos (by rw [Nat.compare_eq_gt]; exact hlt)]
          obtain ⟨lk2, hsw, hn2⟩ := ArrayLock.swap_nums lk1 start end_
            (by rw [hn1]; omega) (by rw [hn1]; exact he)
          rw [hsw]
          have hn2' : lk2.nums = swapL start end_ lk.nums := by rw [hn2, hn1]
          have hg : ∀ x, (swapL start end_ lk.nums).getD x 0 =
              if x = end_ then lk.nums.getD start 0
              else if x = start then lk.nums.getD end_ 0
              else lk.nums.getD x 0 :=
            fun x => getD_swapL start end_ x lk.nums (by omega) he
          refine ⟨lk2, rfl, by rw [hn2']; simp,
            by rw [hn2']; exact swapL_perm start end_ lk.nums (by omega) he,
            ?_, ?_⟩
          · intro p hp
            rw [hn2', hg p, if_neg (by omega), if_neg (by omega)]
          · intro p q hp hpq hq
            have hps : p = start := by omega
            have hqe : q = end_ := by omega
            rw [hn2', hg p, hg q, hps, hqe, if_pos rfl, if_neg (by omega),
              if_pos rfl]
            exact le_of_lt hlt
        · rw [if_neg (by rw [Nat.compare_eq_gt]; exact hlt)]
          push_neg at hlt
          refine ⟨lk1, rfl, by rw [hn1], by rw [hn1], fun p _ => by rw [hn1],
            ?_⟩
          intro p q hp hpq hq
          have hps : p = start := by omega
          have hqe : q = end_ := by omega
          rw [hn1, hps, hqe]
          exact hlt
      · rw [merge_sort, if_neg h1]
        by_cases h2 : end_ > start + 1
        · rw [dif_pos h2]
          set m := (start + end_) / 2 with hm
          have hm1 : start ≤ m := by omega
          have hm2 : m < end_ := by omega
          obtain ⟨lk1, hr1, hl1, hp1, ho1, hs1⟩ := ih (m - start)
            (by omega) start m lk (by omega) (by omega)
          rw [hr1]
          simp only [Option.bind_eq_bind, Option.some_bind]
          obtain ⟨lk2, hr2, hl2, hp2, ho2, hs2⟩ := ih (end_ - (m + 1))
            (by omega) (m + 1) end_ lk1 (by omega) (by rw [hl1]; exact he)
          rw [hr2]
          simp only [Option.some_bind]
          have hlen2 : lk2.nums.length = lk.nums.length := by rw [hl2, hl1]
          have hs1' : ∀ p q, start ≤ p → p < q → q ≤ m →
              lk2.nums.getD p 0 ≤ lk2.nums.getD q 0 := by
            intro p q a b c1
            rw [ho2 p (Or.inl (by omega)), ho2 q (Or.inl (by omega))]
            exact hs1 p q a b c1
          obtain ⟨tmp, lk3, hread, hn3, hperm, hsort⟩ := merge_read_run
            (end_ - start + 1) start (m + 1) m end_ [] lk2
            (by omega) (by omega) le_rfl (by omega) (by omega) (by omega)
            hs1' hs2 (fun x hx => absurd hx (by simp))
            (fun x hx => absurd hx (by simp)) List.sorted_nil
          rw [hread]
          simp only [Option.some_bind]
          simp only [List.nil_append] at hperm
          have htmplen : tmp.length = end_ + 1 - start := by
            rw [hperm.length_eq, List.length_append,
              seg_length lk2.nums start m hm1 (by omega),
              seg_length lk2.nums (m + 1) end_ (by omega) (by omega)]
            omega
          obtain ⟨lk4, hwrite, hwl, hwo, hwv⟩ := write_back_run tmp start lk3
            (by rw [hn3]; omega)
          rw [hn3] at hwl hwo
          refine ⟨lk4, hwrite, by rw [hwl, hlen2], ?_, ?_, ?_⟩
          · -- permutation: decompose into prefix, segment, suffix
            have hseg4 : seg lk4.nums start end_ = tmp := by
              apply List.ext_getElem
              · rw [seg_length lk4.nums start end_ (by omega)
                  (by rw [hwl, hlen2]; omega), htmplen]
              · intro n hn1' hn2'
                rw [seg_length lk4.nums start end_ (by omega)
                  (by rw [hwl, hlen2]; omega)] at hn1'
                rw [← List.getD_eq_getElem _ 0 hn2',
                  ← List.getD_eq_getElem _ 0 (by
                    rw [seg_length lk4.nums start end_ (by omega)
                      (by rw [hwl, hlen2]; omega)]; omega),
                  seg_getD lk4.nums start end_ n (by omega)
                    (by rw [hwl, hlen2]; omega)]
                exact hwv n (by omega)
            have hdec4 := seg_decomp lk4.nums start end_ (by omega)
            have hdec2 := seg_decomp lk2.nums start end_ (by omega)
            have htk : lk4.nums.take start = lk2.nums.take start :=
              take_eq_of_getD lk4.nums lk2.nums start (by rw [hwl, hlen2])
                (fun p hp => hwo p (Or.inl hp))
            have hdp : lk4.nums.drop (end_ + 1) = lk2.nums.drop (end_ + 1) :=
              drop_eq_of_getD lk4.nums lk2.nums (end_ + 1)
                (by rw [hwl, hlen2])
                (fun p hp1 hp2 => hwo p (Or.inr (by omega)))
            have hperm4 : lk4.nums.Perm lk2.nums := by
              rw [hdec4, hdec2, htk, hdp, hseg4]
              refine List.Perm.append_left _ ?_
              refine List.Perm.append_right _ ?_
              refine hperm.trans ?_
              rw [← seg_append lk2.nums start m end_ (by omega) (by omega)]
            exact hperm4.trans (hp2.trans hp1)
          · intro p hp
            rw [hwo p (by omega)]
            rcases hp with hp | hp
            · rw [ho2 p (Or.inl (by omega)), ho1 p (Or.inl hp)]
            · rw [ho2 p (Or.inr hp), ho1 p (Or.inr (by omega))]
          · intro p q hp hpq hq
            have hgp : lk4.nums.getD p 0 = tmp.getD (p - start) 0 := by
              have := hwv (p - start) (by omega)
              rwa [show start + (p - start) = p from by omega] at this
            have hgq : lk4.nums.getD q 0 = tmp.getD (q - start) 0 := by
              have := hwv (q - start) (by omega)
              rwa [show start + (q - start) = q from by omega] at this
            rw [hgp, hgq]
            exact sorted_getD_mono tmp hsort (p - start) (q - start)
              (by omega) (by omega)
        · rw [dif_neg h2]
          refine ⟨lk, rfl, rfl, List.Perm.refl _, fun p _ => rfl, ?_⟩
          intro p q hp hpq hq
          omega

theorem merge_sort_correct (lk : ArrayLock) (size : Nat)
    (hsz : lk.nums.length = size) (hpos : 1 ≤ size) :
    ∃ lk', merge_sort 0 (size - 1) lk = some lk' ∧
      lk'.nums.Perm lk.nums ∧ lk'.nums.Sorted (· ≤ ·) := by
  obtain ⟨lk', hrun, hl, hp, ho, hs⟩ := merge_sort_correct_aux (size - 1)
    0 (size - 1) lk rfl (by omega)
  refine ⟨lk', hrun, hp, ?_⟩
  apply sorted_of_adj
  intro i hi
  exact hs i (i + 1) (by omega) (by omega) (by rw [hl] at hi; omega)

/-!
### Inversions: the termination measure of the `while !sorted` loops
-/

/-- Number of inverted pairs. -/
def inversions : List Nat → Nat
  | [] => 0
  | x :: xs => (xs.filter (fun y => decide (y < x))).length + inversions xs

theorem inversions_le (l : List Nat) :
    inversions l ≤ l.length * l.length := by
  induction l with
  | nil => simp [inversions]
  | cons x xs ih =>
      rw [inversions]
      have h1 : (xs.filter (fun y => decide (y < x))).length ≤ xs.length :=
        List.length_filter_le _ _
      simp only [List.length_cons]
      nlinarith

theorem inversions_append_swap (A : List Nat) : ∀ (B : List Nat) (a b : Nat),
    b < a →
    inversions (A ++ b :: a :: B) + 1 = inversions (A ++ a :: b :: B) := by
  induction A with
  | nil =>
      intro B a b hba
      simp only [List.nil_append, inversions, List.filter_cons,
        decide_eq_true_eq]
      rw [if_neg (show ¬ a < b by omega), if_pos (show b < a from hba)]
      simp only [List.length_cons]
      omega
  | cons x A ih =>
      intro B a b hba
      simp only [List.cons_append, inversions, List.append_eq]
      have hperm : (A ++ b :: a :: B).Perm (A ++ a :: b :: B) :=
        List.Perm.append_left A (List.Perm.swap a b B)
      rw [(hperm.filter (fun y => decide (y < x))).length_eq]
      have := ih B a b hba
      omega

theorem swapL_adj_decomp (l : List Nat) (i : Nat) (h : i + 1 < l.length) :
    l = l.take i ++ l.getD i 0 :: l.getD (i + 1) 0 :: l.drop (i + 2) ∧
    swapL i (i + 1) l =
      l.take i ++ l.getD (i + 1) 0 :: l.getD i 0 :: l.drop (i + 2) := by
  have hseg : seg l i (i + 1) = [l.getD i 0, l.getD (i + 1) 0] := by
    rw [seg_cons l i (i + 1) (by omega) h,
      seg_cons l (i + 1) (i + 1) le_rfl h]
    congr 2
    unfold seg
    rw [show i + 1 + 1 - (i + 2) = 0 from by omega]
    rfl
  constructor
  · have := seg_decomp l i (i + 1) (by omega)
    rw [hseg] at this
    simpa using this
  · set l2 := swapL i (i + 1) l with hl2
    have hlen2 : l2.length = l.length := by rw [hl2]; simp
    have hg : ∀ x, l2.getD x 0 =
        if x = i + 1 then l.getD i 0
        else if x = i then l.getD (i + 1) 0
        else l.getD x 0 :=
      fun x => getD_swapL i (i + 1) x l (by omega) h
    have hseg2 : seg l2 i (i + 1) = [l.getD (i + 1) 0, l.getD i 0] := by
      rw [seg_cons l2 i (i + 1) (by omega) (by omega),
        seg_cons l2 (i + 1) (i + 1) le_rfl (by omega)]
      rw [hg i, if_neg (by omega), if_pos rfl, hg (i + 1), if_pos rfl]
      congr 1
      congr 1
      unfold seg
      rw [show i + 1 + 1 - (i + 2) = 0 from by omega]
      rfl
    have htk : l2.take i = l.take i :=
      take_eq_of_getD l2 l i hlen2
        (fun p hp => by rw [hg p, if_neg (by omega), if_neg (by omega)])
    have hdp : l2.drop (i + 2) = l.drop (i + 2) :=
      drop_eq_of_getD l2 l (i + 2) hlen2
        (fun p hp1 hp2 => by rw [hg p, if_neg (by omega), if_neg (by omega)])
    have := seg_decomp l2 i (i + 1) (by omega)
    rw [hseg2, htk, hdp] at this
    simpa using this

theorem inversions_swap_adj (l : List Nat) (i : Nat) (h : i + 1 < l.length)
    (hlt : l.getD (i + 1) 0 < l.getD i 0) :
    inversions (swapL i (i + 1) l) + 1 = inversions l := by
  obtain ⟨h1, h2⟩ := swapL_adj_decomp l i h
  rw [h2]
  conv_rhs => rw [h1]
  exact inversions_append_swap (l.take i) (l.drop (i + 2))
    (l.getD i 0) (l.getD (i + 1) 0) hlt

/-!
### Odd-even sort
-/

theorem odd_even_pass_run (cnt : Nat) : ∀ (i : Nat) (s : Bool)
    (lk : ArrayLock), (i + 2 * cnt ≤ lk.nums.length ∨ cnt = 0) →
    ∃ s2 lk', odd_even_pass cnt i s lk = some (s2, lk') ∧
      lk'.nums.length = lk.nums.length ∧ lk'.nums.Perm lk.nums ∧
      inversions lk'.nums ≤ inversions lk.nums ∧
      (s2 = true → s = true ∧ lk'.nums = lk.nums ∧
        (∀ k, i ≤ k → k < i + 2 * cnt → (k - i) % 2 = 0 →
          lk.nums.getD k 0 ≤ lk.nums.getD (k + 1) 0)) ∧
      (s2 = false → s = false ∨ inversions lk'.nums < inversions lk.nums) := by
  induction cnt with
  | zero =>
      intro i s lk _
      refine ⟨s, lk, rfl, rfl, List.Perm.refl _, le_rfl, ?_, ?_⟩
      · intro hs
        exact ⟨hs, rfl, fun k h1 h2 _ => absurd (h1.trans_lt h2) (by omega)⟩
      · intro hs
        exact Or.inl hs
  | succ c ih =>
      intro i s lk hcnt
      have hi1 : i + 1 < lk.nums.length := by omega
      obtain ⟨lk1, hc, hn1⟩ := ArrayLock.cmp_two_nums lk i (i + 1)
        (by omega) hi1
      rw [odd_even_pass, hc]
      simp only [Option.bind_eq_bind, Option.some_bind]
      by_cases hlt : lk.nums.getD (i + 1) 0 < lk.nums.getD i 0
      · rw [if_pos (by rw [Nat.compare_eq_gt]; exact hlt)]
        obtain ⟨lk2, hsw, hn2⟩ := ArrayLock.swap_nums lk1 i (i + 1)
          (by rw [hn1]; omega) (by rw [hn1]; exact hi1)
        rw [hsw]
        simp only [Option.some_bind]
        have hn2' : lk2.nums = swapL i (i + 1) lk.nums := by rw [hn2, hn1]
        have hinv2 : inversions lk2.nums + 1 = inversions lk.nums := by
          rw [hn2']
          exact inversions_swap_adj lk.nums i hi1 hlt
        obtain ⟨s2, lk', hrec, k1, k2, k3, k4, k5⟩ := ih (i + 2) false lk2
          (by rw [hn2']; simp; omega)
        refine ⟨s2, lk', hrec, by rw [k1, hn2']; simp, ?_, by omega, ?_, ?_⟩
        · refine k2.trans ?_
          rw [hn2']
          exact swapL_perm i (i + 1) lk.nums (by omega) hi1
        · intro hs2
          obtain ⟨hfalse, -, -⟩ := k4 hs2
          exact absurd hfalse (by simp)
        · intro _
          right
          omega
      · rw [if_neg (by rw [Nat.compare_eq_gt]; exact hlt)]
        push_neg at hlt
        obtain ⟨s2, lk', hrec, k1, k2, k3, k4, k5⟩ := ih (i + 2) s lk1
          (by rw [hn1]; omega)
        rw [hn1] at k1 k2 k3 k4 k5
        refine ⟨s2, lk', hrec, k1, k2, k3, ?_, k5⟩
        intro hs2
        obtain ⟨hstrue, heq, hadj⟩ := k4 hs2
        refine ⟨hstrue, heq, ?_⟩
        intro k h1 h2 h3
        rcases eq_or_lt_of_le h1 with heqk | hgtk
        · rw [← heqk]
          exact hlt
        · exact hadj k (by omega) (by omega) (by omega)

theorem odd_even_loop_run (fuel : Nat) : ∀ (size : Nat) (lk : ArrayLock),
    lk.nums.length = size → inversions lk.nums < fuel →
    ∃ lk', odd_even_loop fuel size lk = some lk' ∧
      lk'.nums.Perm lk.nums ∧ lk'.nums.Sorted (· ≤ ·) := by
  induction fuel with
  | zero => intro size lk _ h; omega
  | succ f ih =>
      intro size lk hsz hf
      rw [odd_even_loop]
      have hb1 : 0 + 2 * (size / 2) ≤ lk.nums.length ∨ size / 2 = 0 := by
        omega
      obtain ⟨s1, lk1, hp1, e1, e2, e3, e4, e5⟩ :=
        odd_even_pass_run (size / 2) 0 true lk hb1
      rw [hp1]
      simp only [Option.bind_eq_bind, Option.some_bind]
      have hb2 : 1 + 2 * ((size - 1) / 2) ≤ lk1.nums.length ∨
          (size - 1) / 2 = 0 := by
        rw [e1]
        omega
      obtain ⟨s2, lk2, hp2, f1, f2, f3, f4, f5⟩ :=
        odd_even_pass_run ((size - 1) / 2) 1 s1 lk1 hb2
      rw [hp2]
      simp only [Option.some_bind]
      by_cases hs2 : s2 = true
      · rw [hs2, if_pos rfl]
        obtain ⟨hs1, heq2, hadj2⟩ := f4 hs2
        obtain ⟨-, heq1, hadj1⟩ := e4 hs1
        refine ⟨lk2, rfl, by rw [heq2, heq1], ?_⟩
        rw [heq2, heq1]
        apply sorted_of_adj
        intro k hk
        rw [hsz] at hk
        rcases Nat.even_or_odd k with ⟨m, hm⟩ | ⟨m, hm⟩
        · exact hadj1 k (by omega) (by omega) (by omega)
        · have := hadj2 k (by omega) (by omega) (by omega)
          rw [heq1] at this
          exact this
      · have hs2f : s2 = false := by
          cases s2
          · rfl
          · exact absurd rfl hs2
        rw [hs2f, if_neg (by simp)]
        have hinv2 : inversions lk2.nums < inversions lk.nums := by
          rcases f5 hs2f with hs1f | hlt2
          · rcases e5 hs1f with habs | hlt1
            · exact absurd habs (by simp)
            · omega
          · omega
        obtain ⟨lk', hrun, hperm, hsort⟩ := ih size lk2
          (by rw [f1, e1, hsz]) (by omega)
        exact ⟨lk', hrun, hperm.trans (f2.trans e2), hsort⟩

theorem odd_even_sort_correct (lk : ArrayLock) (size : Nat)
    (hsz : lk.nums.length = size) :
    ∃ lk', odd_even_sort lk size = some lk' ∧
      lk'.nums.Perm lk.nums ∧ lk'.nums.Sorted (· ≤ ·) := by
  refine odd_even_loop_run (size * size + 2) size lk hsz ?_
  have := inversions_le lk.nums
  rw [hsz] at this
  omega

/-!
### Comb sort
-/

theorem comb_pass_run (cnt : Nat) : ∀ (i gap : Nat) (s : Bool)
    (lk : ArrayLock), 1 ≤ gap →
    (i + cnt + gap ≤ lk.nums.length ∨ cnt = 0) →
    ∃ s2 lk', comb_pass cnt i gap s lk = some (s2, lk') ∧
      lk'.nums.length = lk.nums.length ∧ lk'.nums.Perm lk.nums ∧
      (gap = 1 → inversions lk'.nums ≤ inversions lk.nums) ∧
      (s2 = true → s = true ∧ lk'.nums = lk.nums ∧
        (∀ k, i ≤ k → k < i + cnt →
          lk.nums.getD k 0 ≤ lk.nums.getD (k + gap) 0)) ∧
      (s2 = false → gap = 1 →
        s = false ∨ inversions lk'.nums < inversions lk.nums) := by
  induction cnt with
  | zero =>
      intro i gap s lk _ _
      refine ⟨s, lk, rfl, rfl, List.Perm.refl _, fun _ => le_rfl, ?_, ?_⟩
      · intro hs
        exact ⟨hs, rfl, fun k h1 h2 => absurd (h1.trans_lt h2) (by omega)⟩
      · intro hs _
        exact Or.inl hs
  | succ c ih =>
      intro i gap s lk hgap hcnt
      have hig : i + gap < lk.nums.length := by omega
      obtain ⟨lk1, hc, hn1⟩ := ArrayLock.cmp_two_nums lk i (i + gap)
        (by omega) hig
      rw [comb_pass, hc]
      simp only [Option.bind_eq_bind, Option.some_bind]
      by_cases hlt : lk.nums.getD (i + gap) 0 < lk.nums.getD i 0
      · rw [if_pos (by rw [Nat.compare_eq_gt]; exact hlt)]
        obtain ⟨lk2, hsw, hn2⟩ := ArrayLock.swap_nums lk1 i (i + gap)
          (by rw [hn1]; omega) (by rw [hn1]; exact hig)
        rw [hsw]
        simp only [Option.some_bind]
        have hn2' : lk2.nums = swapL i (i + gap) lk.nums := by rw [hn2, hn1]
        have hinv2 : gap = 1 → inversions lk2.nums + 1 = inversions lk.nums := by
          intro hg1
          rw [hn2', hg1]
          rw [hg1] at hlt
          exact inversions_swap_adj lk.nums i (by omega) hlt
        obtain ⟨s2, lk', hrec, k1, k2, k3, k4, k5⟩ := ih (i + 1) gap false lk2
          hgap (by rw [hn2']; simp; omega)
        refine ⟨s2, lk', hrec, by rw [k1, hn2']; simp, ?_, ?_, ?_, ?_⟩
        · refine k2.trans ?_
          rw [hn2']
          exact swapL_perm i (i + gap) lk.nums (by omega) hig
        · intro hg1
          have := k3 hg1
          have := hinv2 hg1
          omega
        · intro hs2
          obtain ⟨hfalse, -, -⟩ := k4 hs2
          exact absurd hfalse (by simp)
        · intro _ hg1
          right
          have := k3 hg1
          have := hinv2 hg1
          omega
      · rw [if_neg (by rw [Nat.compare_eq_gt]; exact hlt)]
        push_neg at hlt
        obtain ⟨s2, lk', hrec, k1, k2, k3, k4, k5⟩ := ih (i + 1) gap s lk1
          hgap (by rw [hn1]; omega)
        rw [hn1] at k1 k2 k3 k4 k5
        refine ⟨s2, lk', hrec, k1, k2, k3, ?_, k5⟩
        intro hs2
        obtain ⟨hstrue, heq, hadj⟩ := k4 hs2
        refine ⟨hstrue, heq, ?_⟩
        intro k h1 h2
        rcases eq_or_lt_of_le h1 with heqk | hgtk
        · rw [← heqk]
          exact hlt
        · exact hadj k (by omega) (by omega)

theorem comb_loop_run (fuel : Nat) : ∀ (gap size : Nat) (lk : ArrayLock),
    lk.nums.length = size →
    ((2 ≤ gap ∧ gap + size * size + 2 ≤ fuel) ∨
      (gap ≤ 1 ∧ inversions lk.nums + 2 ≤ fuel)) →
    ∃ lk', comb_loop fuel gap size lk = some lk' ∧
      lk'.nums.Perm lk.nums ∧ lk'.nums.Sorted (· ≤ ·) := by
  induction fuel with
  | zero => intro gap size lk _ h; omega
  | succ f ih =>
      intro gap size lk hsz hfl
      rw [comb_loop]
      have hshr : comb_shrink gap = gap * 10 / 13 := rfl
      have hinvle : inversions lk.nums ≤ size * size := by
        have := inversions_le lk.nums
        rw [hsz] at this
        exact this
      by_cases hg : comb_shrink gap ≤ 1
      · rw [if_pos hg]
        dsimp only
        obtain ⟨s2, lk2, hpass, e1, e2, e3, e4, e5⟩ := comb_pass_run
          (size - 1) 0 1 true lk le_rfl (by omega)
        rw [hpass]
        simp only [Option.bind_eq_bind, Option.some_bind]
        by_cases hs2 : s2 = true
        · rw [hs2, if_pos rfl]
          obtain ⟨-, heq, hadj⟩ := e4 hs2
          refine ⟨lk2, rfl, by rw [heq], ?_⟩
          rw [heq]
          apply sorted_of_adj
          intro k hk
          rw [hsz] at hk
          have := hadj k (by omega) (by omega)
          simpa using this
        · have hs2f : s2 = false := by
            cases s2
            · rfl
            · exact absurd rfl hs2
          rw [hs2f, if_neg (by simp)]
          have hinv2 : inversions lk2.nums < inversions lk.nums := by
            rcases e5 hs2f rfl with habs | hlt
            · exact absurd habs (by simp)
            · exact hlt
          obtain ⟨lk', hrun, hperm, hsort⟩ := ih 1 size lk2
            (by rw [e1, hsz]) (Or.inr ⟨le_rfl, by omega⟩)
          exact ⟨lk', hrun, hperm.trans e2, hsort⟩
      · rw [if_neg hg]
        dsimp only
        have hgap3 : 3 ≤ gap := by omega
        have hfl2 : 2 ≤ gap ∧ gap + size * size + 2 ≤ f + 1 := by
          rcases hfl with h | h
          · exact h
          · omega
        obtain ⟨s2, lk2, hpass, e1, e2, e3, e4, e5⟩ := comb_pass_run
          (size - comb_shrink gap) 0 (comb_shrink gap) false lk
          (by omega) (by omega)
        rw [hpass]
        simp only [Option.bind_eq_bind, Option.some_bind]
        have hs2f : s2 = false := by
          cases s2 with
          | false => rfl
          | true =>
              obtain ⟨habs, -, -⟩ := e4 rfl
              exact absurd habs (by simp)
        rw [hs2f, if_neg (by simp)]
        obtain ⟨lk', hrun, hperm, hsort⟩ := ih (comb_shrink gap) size lk2
          (by rw [e1, hsz]) (Or.inl ⟨by omega, by omega⟩)
        exact ⟨lk', hrun, hperm.trans e2, hsort⟩

theorem comb_sort_correct (lk : ArrayLock) (size : Nat)
    (hsz : lk.nums.length = size) :
    ∃ lk', comb_sort lk size = some lk' ∧
      lk'.nums.Perm lk.nums ∧ lk'.nums.Sorted (· ≤ ·) := by
  refine comb_loop_run (size * size + size + 2) size size lk hsz ?_
  have := inversions_le lk.nums
  rw [hsz] at this
  rcases Nat.lt_or_ge size 2 with h | h
  · exact Or.inr ⟨by omega, by nlinarith⟩
  · exact Or.inl ⟨h, by omega⟩

/-!
### Cycle sort
-/

theorem getD_set_eq_b (l : List Bool) (i : Nat) (v : Bool)
    (hi : i < l.length) : (l.set i v).getD i false = v := by
  rw [List.getD_eq_getElem _ _ (by simp [hi]), List.getElem_set, if_pos rfl]

theorem getD_set_ne_b (l : List Bool) (i j : Nat) (v : Bool) (h : i ≠ j) :
    (l.set i v).getD j false = l.getD j false := by
  by_cases hj : j < l.length
  · rw [List.getD_eq_getElem _ _ (by simp [hj]),
      List.getD_eq_getElem _ _ hj, List.getElem_set, if_neg h]
  · rw [List.getD_eq_default _ _ (by simp; omega),
      List.getD_eq_default _ _ (by omega)]

/-- Counting a predicate over the values of a list equals counting the
positions whose value satisfies it. -/
theorem countP_positions (m : List Nat) (p : Nat → Bool) :
    List.countP (fun j => p (m.getD j 0)) (List.range m.length) =
      List.countP p m := by
  induction m using List.reverseRecOn with
  | nil => simp
  | append_singleton m x ih =>
      rw [List.length_append, List.length_singleton, List.range_succ,
        List.countP_append, List.countP_append]
      have h1 : List.countP (fun j => p ((m ++ [x]).getD j 0))
          (List.range m.length) =
          List.countP (fun j => p (m.getD j 0)) (List.range m.length) := by
        refine List.countP_congr ?_
        intro j hj
        rw [List.mem_range] at hj
        rw [List.getD_eq_getElem _ _ (by simp; omega),
          List.getD_eq_getElem _ _ hj, List.getElem_append_left hj]
      have h2 : List.countP (fun j => p ((m ++ [x]).getD j 0))
          [m.length] = List.countP p [x] := by
        rw [List.countP_cons, List.countP_cons, List.countP_nil]
        congr 1
        rw [List.getD_eq_getElem _ _ (by simp),
          List.getElem_append_right le_rfl]
        simp
      rw [h1, h2, ih]

theorem countP_lt_range' (N current : Nat) :
    List.countP (fun v => decide (v < current)) (List.range' 1 N) =
      min (current - 1) N := by
  induction N with
  | zero => simp
  | succ n ih =>
      rw [List.range'_concat, List.countP_append, ih, List.countP_cons,
        List.countP_nil]
      simp only [decide_eq_true_eq]
      by_cases h : 1 + 1 * n < current
      · rw [if_pos h]
        omega
      · rw [if_neg h]
        omega

/-- A pointwise change of the counted predicate at one in-range point shifts
the count by exactly one. -/
theorem countP_set_range (size k : Nat) (p p' : Nat → Bool)
    (hsame : ∀ x, x ≠ k → p' x = p x) (hk : k < size)
    (hpk : p k = true) (hpk' : p' k = false) :
    List.countP p' (List.range size) + 1 = List.countP p (List.range size) := by
  induction size with
  | zero => omega
  | succ n ih =>
      rw [List.range_succ, List.countP_append, List.countP_append,
        List.countP_cons, List.countP_cons, List.countP_nil]
      by_cases hkn : k = n
      · subst hkn
        have hcongr : List.countP p' (List.range k) =
            List.countP p (List.range k) := by
          refine List.countP_congr ?_
          intro x hx
          rw [List.mem_range] at hx
          rw [hsame x (by omega)]
        rw [hcongr, hpk, hpk']
        simp
      · have hn := ih (by omega)
        rw [hsame n (fun h => hkn h.symm)]
        simp only [List.countP_nil]
        omega

/-- Pure mirror of `cycle_count`. -/
def cycle_countP (cnt j i current : Nat) (l : List Nat) : Nat :=
  match cnt with
  | 0 => 0
  | c + 1 =>
      if j ≠ i then
        (if l.getD j 0 < current then 1 else 0) +
          cycle_countP c (j + 1) i current l
      else cycle_countP c (j + 1) i current l

theorem cycle_count_nums (cnt : Nat) : ∀ (j i current index : Nat)
    (lk : ArrayLock), j + cnt ≤ lk.nums.length →
    ∃ lk', cycle_count cnt j i current index lk =
        some (index + cycle_countP cnt j i current lk.nums, lk') ∧
      lk'.nums = lk.nums := by
  induction cnt with
  | zero => intro j i current index lk _; exact ⟨lk, rfl, rfl⟩
  | succ c ih =>
      intro j i current index lk hj
      rw [cycle_count, cycle_countP]
      by_cases hji : j ≠ i
      · rw [if_pos hji, if_pos hji]
        obtain ⟨lk1, hc, hn1⟩ := ArrayLock.cmp_nums lk j current (by omega)
        rw [hc]
        simp only [Option.bind_eq_bind, Option.some_bind]
        by_cases hlt : lk.nums.getD j 0 < current
        · rw [if_pos (by rw [Nat.compare_eq_lt]; exact hlt), if_pos hlt]
          obtain ⟨lk', hrec, hn'⟩ := ih (j + 1) i current (index + 1) lk1
            (by rw [hn1]; omega)
          rw [hn1] at hrec hn'
          refine ⟨lk', ?_, hn'⟩
          rw [hrec, show index + 1 + cycle_countP c (j + 1) i current lk.nums
            = index + (1 + cycle_countP c (j + 1) i current lk.nums)
            from by omega]
        · rw [if_neg (by rw [Nat.compare_eq_lt]; exact hlt), if_neg hlt]
          obtain ⟨lk', hrec, hn'⟩ := ih (j + 1) i current index lk1
            (by rw [hn1]; omega)
          rw [hn1] at hrec hn'
          refine ⟨lk', ?_, hn'⟩
          rw [hrec, show index + cycle_countP c (j + 1) i current lk.nums
            = index + (0 + cycle_countP c (j + 1) i current lk.nums)
            from by omega]
      · rw [if_neg hji, if_neg hji]
        exact ih (j + 1) i current index lk (by omega)

theorem cycle_countP_eq_countP (cnt : Nat) : ∀ (j i current : Nat)
    (l : List Nat), cycle_countP cnt j i current l =
      List.countP (fun x => decide (x ≠ i) && decide (l.getD x 0 < current))
        (List.range' j cnt) := by
  induction cnt with
  | zero => intro j i current l; rfl
  | succ c ih =>
      intro j i current l
      show cycle_countP (c + 1) j i current l =
        List.countP _ (j :: List.range' (j + 1) c)
      rw [List.countP_cons, cycle_countP, ih (j + 1) i current l]
      by_cases hji : j ≠ i
      · rw [if_pos hji]
        by_cases hlt : l.getD j 0 < current
        · rw [if_pos hlt, if_pos (by
            rw [Bool.and_eq_true, decide_eq_true_eq, decide_eq_true_eq]
            exact ⟨hji, hlt⟩)]
          omega
        · rw [if_neg hlt, if_neg (by
            rw [Bool.and_eq_true, decide_eq_true_eq, decide_eq_true_eq]
            exact fun h => hlt h.2)]
          omega
      · have hji' : j = i := by omega
        rw [if_neg hji, if_neg (by simp [hji'])]
        omega

/-- With the lifted value written in at `i`, the scan of `cycle_count`
computes exactly `current - 1` on a permutation of `1..=N`. -/
theorem cycle_rank (l : List Nat) (i current : Nat) (size : Nat)
    (hsz : l.length = size) (hi : i < size)
    (hperm : (l.set i current).Perm (List.range' 1 size))
    (hcur1 : 1 ≤ current) (hcur2 : current ≤ size) :
    cycle_countP size 0 i current l = current - 1 := by
  set m := l.set i current with hm
  have hmlen : m.length = size := by rw [hm]; simp [hsz]
  have e0 : cycle_countP size 0 i current l =
      List.countP (fun x => decide (x ≠ i) && decide (l.getD x 0 < current))
        (List.range' 0 size) :=
    cycle_countP_eq_countP size 0 i current l
  have hrange : List.range' 0 size = List.range size :=
    (List.range_eq_range' size).symm
  rw [e0, hrange]
  have e1 : List.countP
      (fun x => decide (x ≠ i) && decide (l.getD x 0 < current))
      (List.range size) =
      List.countP (fun x => decide (m.getD x 0 < current))
        (List.range size) := by
    refine List.countP_congr ?_
    intro x hx
    rw [List.mem_range] at hx
    by_cases hxi : x = i
    · subst hxi
      have hmx : m.getD x 0 = current := getD_set_eq l x current (by omega)
      constructor
      · intro h
        rw [Bool.and_eq_true, decide_eq_true_eq, decide_eq_true_eq] at h
        exact absurd rfl h.1
      · intro h
        rw [decide_eq_true_eq, hmx] at h
        exact absurd h (lt_irrefl current)
    · have hmx : m.getD x 0 = l.getD x 0 :=
        getD_set_ne l i x current (fun h => hxi h.symm)
      rw [hmx]
      simp [hxi]
  rw [e1, ← hmlen, countP_positions m (fun v => decide (v < current)),
    hperm.countP_eq, countP_lt_range']
  omega

theorem getD_range' (s n p : Nat) (h : p < n) :
    (List.range' s n).getD p 0 = s + p := by
  rw [List.getD_eq_getElem _ _ (by simp [List.length_range']; omega),
    List.getElem_range']
  omega

theorem cycle_loop_run (fuel : Nat) : ∀ (size i current : Nat)
    (buf : List Bool) (lk : ArrayLock),
    lk.nums.length = size → i < size →
    (lk.nums.set i current).Perm (List.range' 1 size) →
    (∀ p, buf.getD p false = true → lk.nums.getD p 0 = p + 1) →
    buf.getD i false = false →
    List.countP (fun p => decide (p ≠ i) &&
      decide (lk.nums.getD p 0 ≠ p + 1)) (List.range size) < fuel →
    ∃ buf2 lk', cycle_loop fuel size i current buf lk = some (buf2, lk') ∧
      lk'.nums.length = size ∧
      lk'.nums.Perm (List.range' 1 size) ∧
      lk'.nums.getD i 0 = i + 1 ∧
      (∀ p, p ≠ i → lk.nums.getD p 0 = p + 1 →
        lk'.nums.getD p 0 = p + 1) ∧
      (∀ p, buf2.getD p false = true → lk'.nums.getD p 0 = p + 1) := by
  induction fuel with
  | zero => intro size i current buf lk _ _ _ _ _ h; omega
  | succ f ih =>
      intro size i current buf lk hsz hi hperm hbuf hbi hmeas
      set m := lk.nums.set i current with hm
      have hmlen : m.length = size := by rw [hm]; simp [hsz]
      have hcur : m.getD i 0 = current := getD_set_eq lk.nums i current
        (by omega)
      have hcurmem : current ∈ List.range' 1 size := by
        rw [← hcur]
        refine hperm.mem_iff.mp ?_
        rw [List.getD_eq_getElem _ _ (by omega)]
        exact List.getElem_mem _
      have hcur1 : 1 ≤ current := by
        have := List.mem_range'_1.mp hcurmem
        omega
      have hcur2 : current ≤ size := by
        have := List.mem_range'_1.mp hcurmem
        omega
      have hnodup : m.Nodup :=
        (hperm.nodup_iff).mpr (List.nodup_range' 1 size)
      obtain ⟨lk1, hcount, hn1⟩ := cycle_count_nums size 0 i current 0 lk
        (by omega)
      have hrank : cycle_countP size 0 i current lk.nums = current - 1 :=
        cycle_rank lk.nums i current size hsz hi hperm hcur1 hcur2
      rw [cycle_loop, hcount, hrank]
      simp only [Option.bind_eq_bind, Option.some_bind, Nat.zero_add]
      by_cases hidx : current - 1 ≠ i
      · rw [if_pos hidx]
        obtain ⟨lk2, hget, hn2⟩ := ArrayLock.get_nums lk1 (current - 1)
          (by rw [hn1]; omega)
        rw [hget]
        simp only [Option.bind_eq_bind, Option.some_bind]
        rw [hn1]
        set new := lk.nums.getD (current - 1) 0 with hnew
        obtain ⟨lk3, hset, hn3⟩ := ArrayLock.set_nums lk2 (current - 1)
          current (by rw [hn2, hn1]; omega)
        rw [hset]
        simp only [Option.some_bind]
        have hn3' : lk3.nums = lk.nums.set (current - 1) current := by
          rw [hn3, hn2, hn1]
        have hmnew : m.getD (current - 1) 0 = new := by
          rw [hnew, hm, getD_set_ne lk.nums i (current - 1) current
            (fun h => hidx h.symm)]
        have hnewne : new ≠ current := by
          have h1 : m.getD (current - 1) 0 ≠ m.getD i 0 := by
            rcases Nat.lt_or_ge (current - 1) i with h | h
            · exact nodup_getD_ne m hnodup (current - 1) i h (by omega)
            · exact (nodup_getD_ne m hnodup i (current - 1) (by omega)
                (by omega)).symm
          rw [hmnew, hcur] at h1
          exact h1
        have hlen3 : lk3.nums.length = size := by
          rw [hn3']; simp [hsz]
        have hswap : lk3.nums.set i new = swapL (current - 1) i m := by
          unfold swapL
          rw [hcur, hmnew, hm, List.set_comm _ _ _ (fun h => hidx h.symm),
            List.set_set, hn3']
        have hperm3 : (lk3.nums.set i new).Perm (List.range' 1 size) := by
          rw [hswap]
          exact (swapL_perm (current - 1) i m (by omega) (by omega)).trans
            hperm
        have hbuf3 : ∀ p, (buf.set (current - 1) true).getD p false = true →
            lk3.nums.getD p 0 = p + 1 := by
          intro p hp
          by_cases hpc : p = current - 1
          · rw [hpc, hn3', getD_set_eq lk.nums (current - 1) current
              (by omega)]
            omega
          · rw [getD_set_ne_b buf (current - 1) p true
              (fun h => hpc h.symm)] at hp
            rw [hn3', getD_set_ne lk.nums (current - 1) p current
              (fun h => hpc h.symm)]
            exact hbuf p hp
        have hbi3 : (buf.set (current - 1) true).getD i false = false := by
          rw [getD_set_ne_b buf (current - 1) i true hidx]
          exact hbi
        have hsame : ∀ x, x ≠ current - 1 →
            (fun p => decide (p ≠ i) &&
              decide (lk3.nums.getD p 0 ≠ p + 1)) x =
            (fun p => decide (p ≠ i) &&
              decide (lk.nums.getD p 0 ≠ p + 1)) x := by
          intro x hx
          show (decide (x ≠ i) && decide (lk3.nums.getD x 0 ≠ x + 1)) =
            (decide (x ≠ i) && decide (lk.nums.getD x 0 ≠ x + 1))
          rw [hn3', getD_set_ne lk.nums (current - 1) x current
            (fun h => hx h.symm)]
        have hpk : (fun p => decide (p ≠ i) &&
            decide (lk.nums.getD p 0 ≠ p + 1)) (current - 1) = true := by
          show (decide (current - 1 ≠ i) &&
            decide (lk.nums.getD (current - 1) 0 ≠ current - 1 + 1)) = true
          rw [Bool.and_eq_true, decide_eq_true_eq, decide_eq_true_eq]
          refine ⟨hidx, ?_⟩
          rw [← hnew]
          omega
        have hpk3 : (fun p => decide (p ≠ i) &&
            decide (lk3.nums.getD p 0 ≠ p + 1)) (current - 1) = false := by
          show (decide (current - 1 ≠ i) &&
            decide (lk3.nums.getD (current - 1) 0 ≠ current - 1 + 1)) = false
          have hval : lk3.nums.getD (current - 1) 0 = current := by
            rw [hn3']
            exact getD_set_eq lk.nums (current - 1) current (by omega)
          rw [hval, show current - 1 + 1 = current from by omega]
          simp
        have hmeas3 : List.countP (fun p => decide (p ≠ i) &&
            decide (lk3.nums.getD p 0 ≠ p + 1)) (List.range size) < f := by
          have hstep := countP_set_range size (current - 1)
            (fun p => decide (p ≠ i) && decide (lk.nums.getD p 0 ≠ p + 1))
            (fun p => decide (p ≠ i) && decide (lk3.nums.getD p 0 ≠ p + 1))
            hsame (by omega) hpk hpk3
          omega
        obtain ⟨buf2, lk', hrec, k1, k2, k3, k4, k5⟩ := ih size i new
          (buf.set (current - 1) true) lk3 hlen3 hi hperm3 hbuf3 hbi3 hmeas3
        refine ⟨buf2, lk', hrec, k1, k2, k3, ?_, k5⟩
        intro p hp hfin
        have hpc : p ≠ current - 1 := by
          intro h
          apply hnewne
          rw [h] at hfin
          rw [hnew, hfin]
          omega
        refine k4 p hp ?_
        rw [hn3', getD_set_ne lk.nums (current - 1) p current
          (fun h => hpc h.symm)]
        exact hfin
      · rw [if_neg hidx]
        obtain ⟨lk2, hset, hn2⟩ := ArrayLock.set_nums lk1 i current
          (by rw [hn1]; omega)
        rw [hset]
        simp only [Option.some_bind]
        have hn2' : lk2.nums = m := by rw [hn2, hn1, hm]
        have hcuri : current = i + 1 := by omega
        refine ⟨buf, lk2, rfl, by rw [hn2', hmlen],
          by rw [hn2']; exact hperm, ?_, ?_, ?_⟩
        · rw [hn2', hcur, hcuri]
        · intro p hp hfin
          rw [hn2', hm, getD_set_ne lk.nums i p current
            (fun h => hp h.symm)]
          exact hfin
        · intro p hp
          have hpi : p ≠ i := by
            intro h
            rw [h, hbi] at hp
            exact Bool.noConfusion hp
          rw [hn2', hm, getD_set_ne lk.nums i p current
            (fun h => hpi h.symm)]
          exact hbuf p hp

theorem cycle_outer_run (cnt : Nat) : ∀ (size i : Nat) (buf : List Bool)
    (lk : ArrayLock), lk.nums.length = size → i + cnt + 1 = size →
    lk.nums.Perm (List.range' 1 size) →
    (∀ p, p < i → lk.nums.getD p 0 = p + 1) →
    (∀ p, buf.getD p false = true → lk.nums.getD p 0 = p + 1) →
    ∃ lk', cycle_outer size cnt i buf lk = some lk' ∧
      lk'.nums.Perm (List.range' 1 size) ∧
      (∀ p, p < size - 1 → lk'.nums.getD p 0 = p + 1) := by
  induction cnt with
  | zero =>
      intro size i buf lk hsz his hperm hpre hbuf
      exact ⟨lk, rfl, hperm, fun p hp => hpre p (by omega)⟩
  | succ c ih =>
      intro size i buf lk hsz his hperm hpre hbuf
      rw [cycle_outer]
      by_cases hflag : buf.getD i false = true
      · rw [if_pos hflag]
        refine ih size (i + 1) buf lk hsz (by omega) hperm ?_ hbuf
        intro p hp
        rcases Nat.lt_or_ge p i with h | h
        · exact hpre p h
        · have : p = i := by omega
          rw [this]
          exact hbuf i hflag
      · rw [if_neg hflag]
        have hbi : buf.getD i false = false := by
          cases hb : buf.getD i false
          · rfl
          · exact absurd hb hflag
        have hi : i < size := by omega
        obtain ⟨lk1, hget, hn1⟩ := ArrayLock.get_nums lk i (by omega)
        rw [hget]
        simp only [Option.bind_eq_bind, Option.some_bind]
        have hperm1 : (lk1.nums.set i (lk.nums.getD i 0)).Perm
            (List.range' 1 size) := by
          rw [hn1, set_getD_self lk.nums i (by omega)]
          exact hperm
        have hmeas : List.countP (fun p => decide (p ≠ i) &&
            decide (lk1.nums.getD p 0 ≠ p + 1)) (List.range size) <
            size + 1 := by
          have := List.countP_le_length (l := List.range size)
            (p := fun p => decide (p ≠ i) &&
              decide (lk1.nums.getD p 0 ≠ p + 1))
          rw [List.length_range] at this
          omega
        obtain ⟨buf2, lk2, hloop, k1, k2, k3, k4, k5⟩ := cycle_loop_run
          (size + 1) size i (lk.nums.getD i 0) buf lk1 (by rw [hn1, hsz])
          hi hperm1 (by rw [hn1]; exact hbuf) hbi hmeas
        rw [hloop]
        simp only [Option.some_bind]
        refine ih size (i + 1) buf2 lk2 k1 (by omega) k2 ?_ k5
        intro p hp
        rcases Nat.lt_or_ge p i with h | h
        · refine k4 p (by omega) ?_
          rw [hn1]
          exact hpre p h
        · have : p = i := by omega
          rw [this]
          exact k3

theorem cycle_sort_correct (lk : ArrayLock) (size : Nat)
    (hsz : lk.nums.length = size)
    (hperm0 : lk.nums.Perm (List.range' 1 size)) :
    ∃ lk', cycle_sort lk size = some lk' ∧
      lk'.nums.Perm lk.nums ∧ lk'.nums.Sorted (· ≤ ·) := by
  match size, hsz, hperm0 with
  | 0, hsz, hperm0 =>
      refine ⟨lk, rfl, List.Perm.refl _, ?_⟩
      rw [List.eq_nil_of_length_eq_zero hsz]
      exact List.sorted_nil
  | s + 1, hsz, hperm0 =>
      have hrep : ∀ p, (List.replicate (s + 1) false).getD p false = true →
          lk.nums.getD p 0 = p + 1 := by
        intro p hp
        exfalso
        by_cases hps : p < s + 1
        · rw [List.getD_eq_getElem _ _ (by simpa using hps)] at hp
          simp at hp
        · rw [List.getD_eq_default _ _ (by simp; omega)] at hp
          exact Bool.noConfusion hp
      obtain ⟨lk', hrun, hperm, hpre⟩ := cycle_outer_run s (s + 1) 0
        (List.replicate (s + 1) false) lk hsz (by omega) hperm0
        (fun p hp => absurd hp (by omega)) hrep
      refine ⟨lk', hrun, hperm.trans hperm0.symm, ?_⟩
      have hlen' : lk'.nums.length = s + 1 := by
        rw [hperm.length_eq, List.length_range']
      have hnodup : lk'.nums.Nodup :=
        (hperm.nodup_iff).mpr (List.nodup_range' 1 (s + 1))
      have hlast : lk'.nums.getD s 0 = s + 1 := by
        have hmem : lk'.nums.getD s 0 ∈ List.range' 1 (s + 1) := by
          refine hperm.mem_iff.mp ?_
          rw [List.getD_eq_getElem _ _ (by omega)]
          exact List.getElem_mem _
        have hb := List.mem_range'_1.mp hmem
        by_contra hne
        have hv : lk'.nums.getD s 0 - 1 < s := by omega
        have := hpre (lk'.nums.getD s 0 - 1) (by omega)
        have hcontra := nodup_getD_ne lk'.nums hnodup
          (lk'.nums.getD s 0 - 1) s (by omega) (by omega)
        rw [this] at hcontra
        exact hcontra (by omega)
      apply sorted_of_adj
      intro k hk
      rw [hlen'] at hk
      rcases Nat.lt_or_ge (k + 1) s with h | h
      · rw [hpre k (by omega), hpre (k + 1) (by omega)]
        omega
      · have hks : k + 1 = s := by omega
        rw [hks, hlast, hpre k (by omega)]
        omega

/-!
### Heap sort
-/

theorem heap_root_max (l : List Nat) (max_ : Nat)
    (hdom : ∀ j, 1 ≤ j → j ≤ max_ →
      l.getD j 0 ≤ l.getD ((j - 1) / 2) 0) :
    ∀ j, j ≤ max_ → l.getD j 0 ≤ l.getD 0 0 := by
  intro j
  induction j using Nat.strong_induction_on with
  | _ j ih =>
      intro hj
      match j with
      | 0 => exact le_rfl
      | jj + 1 =>
          refine le_trans (hdom (jj + 1) (by omega) hj) ?_
          exact ih ((jj + 1 - 1) / 2) (by omega) (by omega)

theorem heapify_down_run (fuel : Nat) : ∀ (index max_ s : Nat)
    (lk : ArrayLock), max_ < lk.nums.length → max_ - index < fuel →
    s ≤ index →
    (∀ j, 1 ≤ j → j ≤ max_ → s ≤ (j - 1) / 2 → (j - 1) / 2 ≠ index →
      lk.nums.getD j 0 ≤ lk.nums.getD ((j - 1) / 2) 0) →
    (∀ j, 1 ≤ j → j ≤ max_ → (j - 1) / 2 = index → s ≤ (index - 1) / 2 →
      1 ≤ index → lk.nums.getD j 0 ≤ lk.nums.getD ((index - 1) / 2) 0) →
    ∃ lk', heapify_down fuel index max_ lk = some lk' ∧
      lk'.nums.length = lk.nums.length ∧ lk'.nums.Perm lk.nums ∧
      (∀ p, p < index ∨ max_ < p → lk'.nums.getD p 0 = lk.nums.getD p 0) ∧
      (∀ j, 1 ≤ j → j ≤ max_ → s ≤ (j - 1) / 2 →
        lk'.nums.getD j 0 ≤ lk'.nums.getD ((j - 1) / 2) 0) := by
  induction fuel with
  | zero => intro index max_ s lk _ h _ _ _; omega
  | succ f ih =>
      intro index max_ s lk he hf hs H1 H2
      rw [heapify_down]
      by_cases hc1 : 2 * index + 1 ≤ max_
      · rw [if_pos hc1]
        -- the larger-child computation
        have hstage : ∃ tmp lkt, (if 2 * index + 2 ≤ max_ then do
              let (r, lk) ← lk.cmp_two (2 * index + 1) (2 * index + 2)
              if r = Ordering.lt then some (2 * index + 2, lk)
              else some (2 * index + 1, lk)
            else some (2 * index + 1, lk)) = some (tmp, lkt) ∧
            lkt.nums = lk.nums ∧ 2 * index + 1 ≤ tmp ∧ tmp ≤ max_ ∧
            (tmp - 1) / 2 = index ∧
            (∀ o, (o = 2 * index + 1 ∨ (o = 2 * index + 2 ∧ o ≤ max_)) →
              lk.nums.getD o 0 ≤ lk.nums.getD tmp 0) := by
          by_cases hc2 : 2 * index + 2 ≤ max_
          · rw [if_pos hc2]
            obtain ⟨lkc, hcmp, hnc⟩ := ArrayLock.cmp_two_nums lk
              (2 * index + 1) (2 * index + 2) (by omega) (by omega)
            rw [hcmp]
            simp only [Option.bind_eq_bind, Option.some_bind]
            by_cases hlt : lk.nums.getD (2 * index + 1) 0 <
                lk.nums.getD (2 * index + 2) 0
            · rw [if_pos (by rw [Nat.compare_eq_lt]; exact hlt)]
              refine ⟨2 * index + 2, lkc, rfl, hnc, by omega, hc2,
                by omega, ?_⟩
              intro o ho
              rcases ho with ho | ⟨ho, -⟩
              · rw [ho]; exact le_of_lt hlt
              · rw [ho]
            · rw [if_neg (by rw [Nat.compare_eq_lt]; exact hlt)]
              push_neg at hlt
              refine ⟨2 * index + 1, lkc, rfl, hnc, le_rfl, hc1,
                by omega, ?_⟩
              intro o ho
              rcases ho with ho | ⟨ho, -⟩
              · rw [ho]
              · rw [ho]; exact hlt
          · rw [if_neg hc2]
            refine ⟨2 * index + 1, lk, rfl, rfl, le_rfl, hc1, by omega, ?_⟩
            intro o ho
            rcases ho with ho | ⟨ho, hole⟩
            · rw [ho]
            · omega
        obtain ⟨tmp, lkt, hst, hnt, htmp1, htmp2, htmppar, htmpmax⟩ := hstage
        rw [hst]
        simp only [Option.bind_eq_bind, Option.some_bind]
        obtain ⟨lkc2, hcmp2, hnc2⟩ := ArrayLock.cmp_two_nums lkt index tmp
          (by rw [hnt]; omega) (by rw [hnt]; omega)
        rw [hcmp2]
        simp only [Option.bind_eq_bind, Option.some_bind]
        rw [hnt]
        by_cases hlt2 : lk.nums.getD index 0 < lk.nums.getD tmp 0
        · rw [if_pos (by rw [Nat.compare_eq_lt]; exact hlt2)]
          obtain ⟨lk2, hsw, hn2⟩ := ArrayLock.swap_nums lkc2 index tmp
            (by rw [hnc2, hnt]; omega) (by rw [hnc2, hnt]; omega)
          rw [hsw]
          simp only [Option.some_bind]
          have hn2' : lk2.nums = swapL index tmp lk.nums := by
            rw [hn2, hnc2, hnt]
          have hg : ∀ x, lk2.nums.getD x 0 =
              if x = tmp then lk.nums.getD index 0
              else if x = index then lk.nums.getD tmp 0
              else lk.nums.getD x 0 := by
            intro x
            rw [hn2']
            exact getD_swapL index tmp x lk.nums (by omega) (by omega)
          have hlen2 : lk2.nums.length = lk.nums.length := by
            rw [hn2']; simp
          have vtmp : lk2.nums.getD tmp 0 = lk.nums.getD index 0 := by
            rw [hg tmp, if_pos rfl]
          have vidx : lk2.nums.getD index 0 = lk.nums.getD tmp 0 := by
            rw [hg index, if_neg (by omega), if_pos rfl]
          have val : ∀ x, x ≠ tmp → x ≠ index →
              lk2.nums.getD x 0 = lk.nums.getD x 0 := by
            intro x hx1 hx2
            rw [hg x, if_neg hx1, if_neg hx2]
          have hH1 : ∀ j, 1 ≤ j → j ≤ max_ → s ≤ (j - 1) / 2 →
              (j - 1) / 2 ≠ tmp →
              lk2.nums.getD j 0 ≤ lk2.nums.getD ((j - 1) / 2) 0 := by
            intro j h1 h2 h3 h4
            by_cases hpj : (j - 1) / 2 = index
            · -- j is a child of the original index
              rw [hpj, vidx]
              by_cases hjt : j = tmp
              · rw [hjt, vtmp]
                exact le_of_lt hlt2
              · rw [val j hjt (by omega)]
                refine htmpmax j ?_
                have : j = 2 * index + 1 ∨ j = 2 * index + 2 := by omega
                rcases this with h | h
                · exact Or.inl h
                · exact Or.inr ⟨h, h2⟩
            · by_cases hji : j = index
              · -- dominance at the old index towards its parent
                rw [hji, vidx, val ((index - 1) / 2) (by omega) (by omega)]
                rw [hji] at h1 h3
                exact H2 tmp (by omega) htmp2 htmppar h3 h1
              · by_cases hjt : j = tmp
                · exact absurd (by rw [hjt, htmppar]) hpj
                · rw [val j hjt hji, val ((j - 1) / 2) h4 hpj]
                  exact H1 j h1 h2 h3 hpj
          have hH2 : ∀ j, 1 ≤ j → j ≤ max_ → (j - 1) / 2 = tmp →
              s ≤ (tmp - 1) / 2 → 1 ≤ tmp →
              lk2.nums.getD j 0 ≤ lk2.nums.getD ((tmp - 1) / 2) 0 := by
            intro j h1 h2 h3 h4 h5
            rw [htmppar, vidx, val j (by omega) (by omega), ← h3]
            exact H1 j h1 h2 (by omega) (by omega)
          obtain ⟨lk', hrec, k1, k2, k3, k4⟩ := ih tmp max_ s lk2
            (by omega) (by omega) (by omega) hH1 hH2
          refine ⟨lk', hrec, by rw [k1, hlen2], ?_, ?_, ?_⟩
          · refine k2.trans ?_
            rw [hn2']
            exact swapL_perm index tmp lk.nums (by omega) (by omega)
          · intro p hp
            rw [k3 p (by omega), val p (by omega) (by omega)]
          · exact k4
        · rw [if_neg (by rw [Nat.compare_eq_lt]; exact hlt2)]
          push_neg at hlt2
          refine ⟨lkc2, rfl, by rw [hnc2, hnt], by rw [hnc2, hnt],
            fun p _ => by rw [hnc2, hnt], ?_⟩
          intro j h1 h2 h3
          rw [hnc2, hnt]
          by_cases hpj : (j - 1) / 2 = index
          · rw [hpj]
            refine le_trans (htmpmax j ?_) hlt2
            have : j = 2 * index + 1 ∨ j = 2 * index + 2 := by omega
            rcases this with h | h
            · exact Or.inl h
            · exact Or.inr ⟨h, h2⟩
          · exact H1 j h1 h2 h3 hpj
      · rw [if_neg hc1]
        refine ⟨lk, rfl, rfl, List.Perm.refl _, fun p _ => rfl, ?_⟩
        intro j h1 h2 h3
        by_cases hpj : (j - 1) / 2 = index
        · omega
        · exact H1 j h1 h2 h3 hpj

theorem heap_build_run (cnt : Nat) : ∀ (max_ : Nat) (lk : ArrayLock),
    max_ < lk.nums.length →
    (∀ j, 1 ≤ j → j ≤ max_ → cnt ≤ (j - 1) / 2 →
      lk.nums.getD j 0 ≤ lk.nums.getD ((j - 1) / 2) 0) →
    ∃ lk', heap_build cnt (cnt - 1) max_ lk = some lk' ∧
      lk'.nums.length = lk.nums.length ∧ lk'.nums.Perm lk.nums ∧
      (∀ j, 1 ≤ j → j ≤ max_ →
        lk'.nums.getD j 0 ≤ lk'.nums.getD ((j - 1) / 2) 0) := by
  induction cnt with
  | zero =>
      intro max_ lk he H
      exact ⟨lk, rfl, rfl, List.Perm.refl _,
        fun j h1 h2 => H j h1 h2 (by omega)⟩
  | succ c ih =>
      intro max_ lk he H
      rw [heap_build]
      simp only [Nat.add_sub_cancel]
      obtain ⟨lk1, h1, hlen1, hperm1, hun1, hdom1⟩ :=
        heapify_down_run (max_ + 1) c max_ c lk he (by omega) le_rfl
          (fun j a b hc hne => H j a b (by omega))
          (fun j a b hc hd hcge => absurd hd (by omega))
      rw [h1]
      simp only [Option.bind_eq_bind, Option.some_bind]
      obtain ⟨lk', h2, hlen2, hperm2, hdom2⟩ := ih max_ lk1
        (by rw [hlen1]; exact he) hdom1
      exact ⟨lk', h2, by rw [hlen2, hlen1], hperm2.trans hperm1, hdom2⟩

theorem heap_extract_run (cnt : Nat) : ∀ (lk : ArrayLock),
    cnt < lk.nums.length →
    (∀ j, 1 ≤ j → j ≤ cnt →
      lk.nums.getD j 0 ≤ lk.nums.getD ((j - 1) / 2) 0) →
    (∀ p q, cnt < p → p < q → q < lk.nums.length →
      lk.nums.getD p 0 ≤ lk.nums.getD q 0) →
    (∀ j p, j ≤ cnt → cnt < p → p < lk.nums.length →
      lk.nums.getD j 0 ≤ lk.nums.getD p 0) →
    ∃ lk', heap_extract cnt cnt lk = some lk' ∧
      lk'.nums.Perm lk.nums ∧ lk'.nums.Sorted (· ≤ ·) := by
  induction cnt with
  | zero =>
      intro lk he hheap hsuf hdom
      refine ⟨lk, rfl, List.Perm.refl _, sorted_of_adj _ ?_⟩
      intro i hi
      match i with
      | 0 => exact hdom 0 1 le_rfl Nat.one_pos hi
      | i + 1 => exact hsuf (i + 1) (i + 2) (by omega) (by omega) hi
  | succ c ih =>
      intro lk he hheap hsuf hdom
      rw [heap_extract]
      simp only [Nat.add_sub_cancel]
      obtain ⟨lk2, hsw, hn2⟩ := ArrayLock.swap_nums lk 0 (c + 1)
        (by omega) (by omega)
      rw [hsw]
      simp only [Option.bind_eq_bind, Option.some_bind]
      have hg2 : ∀ x, lk2.nums.getD x 0 =
          if x = c + 1 then lk.nums.getD 0 0
          else if x = 0 then lk.nums.getD (c + 1) 0
          else lk.nums.getD x 0 := by
        intro x
        rw [hn2]
        exact getD_swapL 0 (c + 1) x lk.nums (by omega) (by omega)
      have hlen2 : lk2.nums.length = lk.nums.length := by rw [hn2]; simp
      obtain ⟨lk3, h3, hlen3, hperm3, hun3, hdom3⟩ :=
        heapify_down_run (c + 1) 0 c 0 lk2 (by omega) (by omega) le_rfl
          (fun j a b hc hne => by
            rw [hg2 j, hg2 ((j - 1) / 2), if_neg (by omega),
              if_neg (by omega), if_neg (by omega), if_neg (by omega)]
            exact hheap j a (by omega))
          (fun j a b hc hd hcge => absurd hcge (by omega))
      rw [h3]
      simp only [Option.some_bind]
      have hroot := heap_root_max lk.nums (c + 1) hheap
      -- value of lk3 above position c is the swapped array
      have hsufval : ∀ p, c < p → lk3.nums.getD p 0 = lk2.nums.getD p 0 :=
        fun p hp => hun3 p (Or.inr hp)
      have hmid := middle_mem lk2.nums lk3.nums 0 (c + 1)
        (by rw [hlen3]) hperm3 (fun p hp => by omega)
        (fun q hq1 hq2 => hsufval q (by omega)) (by omega)
      have e_top : lk2.nums.getD (c + 1) 0 = lk.nums.getD 0 0 := by
        rw [hg2 (c + 1), if_pos rfl]
      have e_zero : lk2.nums.getD 0 0 = lk.nums.getD (c + 1) 0 := by
        rw [hg2 0, if_neg (by omega), if_pos rfl]
      have e_other : ∀ x, x ≠ 0 → x ≠ c + 1 →
          lk2.nums.getD x 0 = lk.nums.getD x 0 := by
        intro x h1 h2
        rw [hg2 x, if_neg h2, if_neg h1]
      obtain ⟨lk', h4, hperm4, hsorted⟩ := ih lk3
        (by rw [hlen3, hlen2]; omega)
        (fun j h1 h2 => hdom3 j h1 (by omega) (by omega))
        (by
          intro p q hp hq hql
          rw [hsufval p (by omega), hsufval q (by omega)]
          rw [hlen3, hlen2] at hql
          by_cases hpc : p = c + 1
          · rw [hpc, e_top, e_other q (by omega) (by omega)]
            exact hdom 0 q (by omega) (by omega) hql
          · rw [e_other p (by omega) hpc, e_other q (by omega) (by omega)]
            exact hsuf p q (by omega) hq hql)
        (by
          intro j p hj hp hpl
          rw [hlen3, hlen2] at hpl
          obtain ⟨r, hr0, hrc, hrv⟩ := hmid j (by omega) (by omega)
          rw [hsufval p (by omega), ← hrv]
          by_cases hpc : p = c + 1
          · rw [hpc, e_top]
            by_cases hr : r = 0
            · rw [hr, e_zero]
              exact hroot (c + 1) le_rfl
            · rw [e_other r hr (by omega)]
              exact hroot r (by omega)
          · rw [e_other p (by omega) hpc]
            by_cases hr : r = 0
            · rw [hr, e_zero]
              exact hdom (c + 1) p le_rfl (by omega) hpl
            · rw [e_other r hr (by omega)]
              exact hdom r p (by omega) (by omega) hpl)
      refine ⟨lk', h4, ?_, hsorted⟩
      refine (hperm4.trans hperm3).trans ?_
      rw [hn2]
      exact swapL_perm 0 (c + 1) lk.nums (by omega) (by omega)

theorem heap_sort_correct (lk : ArrayLock) (size : Nat)
    (hsz : lk.nums.length = size) (hpos : 1 ≤ size) :
    ∃ lk', heap_sort (size - 1) lk = some lk' ∧
      lk'.nums.Perm lk.nums ∧ lk'.nums.Sorted (· ≤ ·) := by
  rw [heap_sort]
  obtain ⟨lk1, h1, hlen1, hperm1, hdom1⟩ :=
    heap_build_run ((size - 1) / 2 + 1) (size - 1) lk (by omega)
      (fun j a b hc => absurd hc (by omega))
  simp only [Nat.add_sub_cancel] at h1
  rw [h1]
  simp only [Option.bind_eq_bind, Option.some_bind]
  obtain ⟨lk', h2, hperm2, hsorted⟩ := heap_extract_run (size - 1) lk1
    (by rw [hlen1]; omega) hdom1
    (fun p q hp hq hql => absurd hql (by rw [hlen1, hsz]; omega))
    (fun j p hj hp hpl => absurd hpl (by rw [hlen1, hsz]; omega))
  exact ⟨lk', h2, hperm2.trans hperm1, hsorted⟩

/-!
### Strand sort
-/

theorem strand_build_run (cnt : Nat) : ∀ (j index len : Nat)
    (lk : ArrayLock), j + cnt ≤ lk.nums.length → 1 ≤ len →
    index + len ≤ j →
    (∀ t, t + 1 < len →
      lk.nums.getD (index + t) 0 ≤ lk.nums.getD (index + t + 1) 0) →
    ∃ len' lk', strand_build cnt j index len lk = some (len', lk') ∧
      lk'.nums.length = lk.nums.length ∧ lk'.nums.Perm lk.nums ∧
      len ≤ len' ∧ index + len' ≤ j + cnt ∧
      (∀ p, p ≤ index ∨ j + cnt ≤ p →
        lk'.nums.getD p 0 = lk.nums.getD p 0) ∧
      (∀ t, t + 1 < len' →
        lk'.nums.getD (index + t) 0 ≤ lk'.nums.getD (index + t + 1) 0) := by
  induction cnt with
  | zero =>
      intro j index len lk hj hlen hij hstr
      exact ⟨len, lk, rfl, rfl, List.Perm.refl _, le_rfl, by omega,
        fun p _ => rfl, hstr⟩
  | succ c ih =>
      intro j index len lk hj hlen hij hstr
      rw [strand_build]
      obtain ⟨lkc, hcmp, hnc⟩ := ArrayLock.cmp_two_nums lk
        (index + len - 1) j (by omega) (by omega)
      rw [hcmp]
      simp only [Option.bind_eq_bind, Option.some_bind]
      by_cases hcond : compare (lk.nums.getD (index + len - 1) 0)
          (lk.nums.getD j 0) = Ordering.lt ∧ j ≠ index + len
      · rw [if_pos hcond]
        have hlt : lk.nums.getD (index + len - 1) 0 < lk.nums.getD j 0 :=
          Nat.compare_eq_lt.mp hcond.1
        have hjgt : index + len < j := by omega
        obtain ⟨lk2, hsw, hn2⟩ := ArrayLock.swap_nums lkc j (index + len)
          (by rw [hnc]; omega) (by rw [hnc]; omega)
        rw [hsw]
        simp only [Option.some_bind]
        have hg : ∀ x, lk2.nums.getD x 0 =
            if x = index + len then lk.nums.getD j 0
            else if x = j then lk.nums.getD (index + len) 0
            else lk.nums.getD x 0 := by
          intro x
          rw [hn2, hnc]
          exact getD_swapL j (index + len) x lk.nums (by omega) (by omega)
        have hlen2 : lk2.nums.length = lk.nums.length := by
          rw [hn2, hnc]; simp
        obtain ⟨len', lk', hrec, k1, k2, k3, k4, k5, k6⟩ :=
          ih (j + 1) index (len + 1) lk2 (by omega) (by omega) (by omega)
            (by
              intro t ht
              by_cases htl : t + 1 < len
              · rw [hg (index + t), hg (index + t + 1),
                  if_neg (by omega), if_neg (by omega),
                  if_neg (by omega), if_neg (by omega)]
                exact hstr t htl
              · have ht1 : t + 1 = len := by omega
                rw [hg (index + t), hg (index + t + 1),
                  if_neg (by omega), if_neg (by omega),
                  if_pos (by omega)]
                have : index + t = index + len - 1 := by omega
                rw [this]
                exact le_of_lt hlt)
        refine ⟨len', lk', hrec, by rw [k1, hlen2], ?_, by omega,
          by omega, ?_, k6⟩
        · refine k2.trans ?_
          rw [hn2, hnc]
          exact swapL_perm j (index + len) lk.nums (by omega) (by omega)
        · intro p hp
          rw [k5 p (by omega), hg p, if_neg (by omega), if_neg (by omega)]
      · rw [if_neg hcond]
        obtain ⟨len', lk', hrec, k1, k2, k3, k4, k5, k6⟩ :=
          ih (j + 1) index len lkc (by rw [hnc]; omega) hlen (by omega)
            (by rw [hnc]; exact hstr)
        refine ⟨len', lk', hrec, by rw [k1, hnc], ?_, k3, by omega, ?_, k6⟩
        · exact k2.trans (by rw [hnc])
        · intro p hp
          rw [k5 p (by omega), hnc]

theorem strand_merge_run (cnt : Nat) : ∀ (old_index len x y : Nat)
    (tmp : List Nat) (lk : ArrayLock),
    old_index + len ≤ lk.nums.length →
    x + y + cnt = old_index + len → x ≤ old_index → y ≤ len →
    (∀ t, t + 1 < old_index →
      lk.nums.getD t 0 ≤ lk.nums.getD (t + 1) 0) →
    (∀ t, t + 1 < len →
      lk.nums.getD (old_index + t) 0 ≤ lk.nums.getD (old_index + t + 1) 0) →
    tmp.Sorted (· ≤ ·) →
    (∀ v ∈ tmp, x < old_index → v ≤ lk.nums.getD x 0) →
    (∀ v ∈ tmp, y < len → v ≤ lk.nums.getD (old_index + y) 0) →
    ∃ tmp' lk', strand_merge cnt old_index len x y tmp lk =
        some (tmp', lk') ∧ lk'.nums = lk.nums ∧
      tmp'.Sorted (· ≤ ·) ∧
      tmp'.Perm (tmp ++ ((lk.nums.drop x).take (old_index - x) ++
        (lk.nums.drop (old_index + y)).take (len - y))) := by
  induction cnt with
  | zero =>
      intro old_index len x y tmp lk hb hcnt hx hy hpre hstr hts h1 h2
      have hxo : x = old_index := by omega
      have hyl : y = len := by omega
      refine ⟨tmp, lk, rfl, rfl, hts, ?_⟩
      rw [hxo, hyl]
      simp
  | succ c ih =>
      intro old_index len x y tmp lk hb hcnt hx hy hpre hstr hts h1 h2
      rw [strand_merge]
      have hpush : ∀ v, (tmp ++ [v]).Sorted (· ≤ ·) ↔
          tmp.Sorted (· ≤ ·) ∧ ∀ a ∈ tmp, a ≤ v := by
        intro v
        constructor
        · intro h
          exact ⟨(List.pairwise_append.mp h).1,
            fun a ha => (List.pairwise_append.mp h).2.2 a ha v
              (List.mem_singleton_self v)⟩
        · intro ⟨ha, hbnd⟩
          refine List.pairwise_append.mpr ⟨ha, List.sorted_singleton v, ?_⟩
          intro a ha' b hb'
          rw [List.mem_singleton] at hb'
          rw [hb']
          exact hbnd a ha'
      by_cases hbr1 : old_index ≤ x
      · rw [if_pos hbr1]
        have hylt : y < len := by omega
        obtain ⟨lkg, hget, hng⟩ := ArrayLock.get_nums lk (old_index + y)
          (by omega)
        rw [hget]
        simp only [Option.bind_eq_bind, Option.some_bind]
        obtain ⟨tmp', lk', hrec, g1, g2, g3⟩ := ih old_index len x (y + 1)
          (tmp ++ [lk.nums.getD (old_index + y) 0]) lkg
          (by rw [hng]; omega) (by omega) hx (by omega)
          (by rw [hng]; exact hpre) (by rw [hng]; exact hstr)
          ((hpush _).mpr ⟨hts, fun a ha => h2 a ha hylt⟩)
          (fun v hv hxlt => absurd hxlt (by omega))
          (by
            intro v hv hy1
            rw [hng]
            rw [List.mem_append] at hv
            rcases hv with hv | hv
            · exact le_trans (h2 v hv hylt) (hstr y hy1)
            · rw [List.mem_singleton] at hv
              rw [hv]
              exact hstr y hy1)
        refine ⟨tmp', lk', hrec, by rw [g1, hng], g2, ?_⟩
        rw [hng] at g3
        refine g3.trans ?_
        rw [List.append_assoc]
        refine List.Perm.append_left tmp ?_
        have hd : lk.nums.drop (old_index + y) =
            lk.nums.getD (old_index + y) 0 ::
              lk.nums.drop (old_index + y + 1) := by
          rw [List.getD_eq_getElem _ _ (by omega)]
          rw [List.drop_eq_getElem_cons (by omega)]
        rw [hd, show len - y = (len - (y + 1)) + 1 from by omega,
          List.take_succ_cons,
          show old_index + y + 1 = old_index + (y + 1) from by omega,
          List.singleton_append]
        exact (List.perm_middle).symm
      · rw [if_neg hbr1]
        have hxlt : x < old_index := by omega
        have hprefix_cons : (lk.nums.drop x).take (old_index - x) =
            lk.nums.getD x 0 :: (lk.nums.drop (x + 1)).take
              (old_index - (x + 1)) := by
          rw [List.getD_eq_getElem _ _ (by omega)]
          rw [List.drop_eq_getElem_cons (by omega),
            show old_index - x = (old_index - (x + 1)) + 1 from by omega,
            List.take_succ_cons]
        by_cases hbr2 : y < len
        · rw [if_pos hbr2]
          obtain ⟨lkc, hcmp, hnc⟩ := ArrayLock.cmp_two_nums lk
            (old_index + y) x (by omega) (by omega)
          rw [hcmp]
          simp only [Option.bind_eq_bind, Option.some_bind]
          by_cases hlt : lk.nums.getD (old_index + y) 0 < lk.nums.getD x 0
          · rw [if_pos (by rw [Nat.compare_eq_lt]; exact hlt)]
            obtain ⟨lkg, hget, hng⟩ := ArrayLock.get_nums lkc
              (old_index + y) (by rw [hnc]; omega)
            rw [hget]
            simp only [Option.some_bind, hnc]
            obtain ⟨tmp', lk', hrec, g1, g2, g3⟩ := ih old_index len x
              (y + 1) (tmp ++ [lk.nums.getD (old_index + y) 0]) lkg
              (by rw [hng, hnc]; omega) (by omega) hx (by omega)
              (by rw [hng, hnc]; exact hpre)
              (by rw [hng, hnc]; exact hstr)
              ((hpush _).mpr ⟨hts, fun a ha => h2 a ha hbr2⟩)
              (by
                intro v hv hxlt'
                rw [hng, hnc]
                rw [List.mem_append] at hv
                rcases hv with hv | hv
                · exact h1 v hv hxlt
                · rw [List.mem_singleton] at hv
                  rw [hv]
                  exact le_of_lt hlt)
              (by
                intro v hv hy1
                rw [hng, hnc]
                rw [List.mem_append] at hv
                rcases hv with hv | hv
                · exact le_trans (h2 v hv hbr2) (hstr y hy1)
                · rw [List.mem_singleton] at hv
                  rw [hv]
                  exact hstr y hy1)
            refine ⟨tmp', lk', hrec, by rw [g1, hng, hnc], g2, ?_⟩
            rw [hng, hnc] at g3
            refine g3.trans ?_
            rw [List.append_assoc]
            refine List.Perm.append_left tmp ?_
            have hd : lk.nums.drop (old_index + y) =
                lk.nums.getD (old_index + y) 0 ::
                  lk.nums.drop (old_index + y + 1) := by
              rw [List.getD_eq_getElem _ _ (by omega)]
              rw [List.drop_eq_getElem_cons (by omega)]
            rw [hd, show len - y = (len - (y + 1)) + 1 from by omega,
              List.take_succ_cons,
              show old_index + y + 1 = old_index + (y + 1) from by omega,
              List.singleton_append]
            exact (List.perm_middle).symm
          · rw [if_neg (by rw [Nat.compare_eq_lt]; exact hlt)]
            push_neg at hlt
            obtain ⟨lkg, hget, hng⟩ := ArrayLock.get_nums lkc x
              (by rw [hnc]; omega)
            rw [hget]
            simp only [Option.some_bind, hnc]
            obtain ⟨tmp', lk', hrec, g1, g2, g3⟩ := ih old_index len
              (x + 1) y (tmp ++ [lk.nums.getD x 0]) lkg
              (by rw [hng, hnc]; omega) (by omega) (by omega) hy
              (by rw [hng, hnc]; exact hpre)
              (by rw [hng, hnc]; exact hstr)
              ((hpush _).mpr ⟨hts, fun a ha => h1 a ha hxlt⟩)
              (by
                intro v hv hxlt'
                rw [hng, hnc]
                rw [List.mem_append] at hv
                rcases hv with hv | hv
                · exact le_trans (h1 v hv hxlt) (hpre x hxlt')
                · rw [List.mem_singleton] at hv
                  rw [hv]
                  exact hpre x hxlt')
              (by
                intro v hv hy1
                rw [hng, hnc]
                rw [List.mem_append] at hv
                rcases hv with hv | hv
                · exact h2 v hv hy1
                · rw [List.mem_singleton] at hv
                  rw [hv]
                  exact hlt)
            refine ⟨tmp', lk', hrec, by rw [g1, hng, hnc], g2, ?_⟩
            rw [hng, hnc] at g3
            refine g3.trans ?_
            rw [hprefix_cons, List.append_assoc, List.cons_append,
              ← List.append_assoc]
            exact List.Perm.refl _
        · rw [if_neg hbr2]
          obtain ⟨lkg, hget, hng⟩ := ArrayLock.get_nums lk x (by omega)
          rw [hget]
          simp only [Option.bind_eq_bind, Option.some_bind]
          obtain ⟨tmp', lk', hrec, g1, g2, g3⟩ := ih old_index len
            (x + 1) y (tmp ++ [lk.nums.getD x 0]) lkg
            (by rw [hng]; omega) (by omega) (by omega) hy
            (by rw [hng]; exact hpre) (by rw [hng]; exact hstr)
            ((hpush _).mpr ⟨hts, fun a ha => h1 a ha hxlt⟩)
            (by
              intro v hv hxlt'
              rw [hng]
              rw [List.mem_append] at hv
              rcases hv with hv | hv
              · exact le_trans (h1 v hv hxlt) (hpre x hxlt')
              · rw [List.mem_singleton] at hv
                rw [hv]
                exact hpre x hxlt')
            (fun v hv hy1 => absurd hy1 (by omega))
          refine ⟨tmp', lk', hrec, by rw [g1, hng], g2, ?_⟩
          rw [hng] at g3
          refine g3.trans ?_
          rw [hprefix_cons, List.append_assoc, List.cons_append,
            ← List.append_assoc]
          exact List.Perm.refl _

theorem strand_loop_run (fuel : Nat) : ∀ (size index : Nat)
    (lk : ArrayLock), lk.nums.length = size → index ≤ size →
    size - index < fuel →
    (∀ t, t + 1 < index → lk.nums.getD t 0 ≤ lk.nums.getD (t + 1) 0) →
    ∃ lk', strand_loop fuel size index lk = some lk' ∧
      lk'.nums.Perm lk.nums ∧ lk'.nums.Sorted (· ≤ ·) := by
  induction fuel with
  | zero => intro size index lk _ _ h _; omega
  | succ f ih =>
      intro size index lk hsz hix hf hpre
      rw [strand_loop]
      by_cases hguard : index < size
      · rw [if_pos hguard]
        obtain ⟨len', lk1, hbuild, b1, b2, b3, b4, b5, b6⟩ :=
          strand_build_run (size - (index + 1)) (index + 1) index 1 lk
            (by omega) le_rfl le_rfl (fun t ht => absurd ht (by omega))
        rw [hbuild]
        simp only [Option.bind_eq_bind, Option.some_bind]
        have hK : index + len' ≤ size := by omega
        have hlen1 : lk1.nums.length = size := by rw [b1, hsz]
        obtain ⟨tmp', lk2, hmerge, m1, m2, m3⟩ :=
          strand_merge_run (index + len') index len' 0 0 [] lk1
            (by omega) (by omega) (by omega) (by omega)
            (by
              intro t ht
              rw [b5 t (Or.inl (by omega)), b5 (t + 1) (Or.inl (by omega))]
              exact hpre t ht)
            b6 List.sorted_nil (fun v hv => absurd hv (List.not_mem_nil v))
            (fun v hv => absurd hv (List.not_mem_nil v))
        rw [hmerge]
        simp only [Option.bind_eq_bind, Option.some_bind]
        simp only [List.nil_append, Nat.sub_zero, Nat.add_zero,
          List.drop_zero] at m3
        have htake : tmp'.Perm (lk1.nums.take (index + len')) := by
          refine m3.trans ?_
          rw [← List.take_add]
        have htl : tmp'.length = index + len' := by
          rw [htake.length_eq, List.length_take]
          omega
        obtain ⟨lk3, hwrite, w1, w2, w3⟩ := write_back_run tmp' 0 lk2
          (by rw [m1, hlen1]; omega)
        rw [hwrite]
        simp only [Option.bind_eq_bind, Option.some_bind]
        have hlen3 : lk3.nums.length = size := by rw [w1, m1, hlen1]
        have hval3 : ∀ k, k < index + len' →
            lk3.nums.getD k 0 = tmp'.getD k 0 := by
          intro k hk
          have := w3 k (by omega)
          simpa using this
        obtain ⟨lk', hrec, r1, r2⟩ := ih size (index + len') lk3 hlen3 hK
          (by omega)
          (by
            intro t ht
            rw [hval3 t (by omega), hval3 (t + 1) (by omega)]
            exact sorted_getD_mono tmp' m2 t (t + 1) (by omega) (by omega))
        refine ⟨lk', hrec, ?_, r2⟩
        -- permutation chain: lk3 ~ lk2 = lk1 ~ lk
        have hK1 : 1 ≤ index + len' := by omega
        have hseg3 : seg lk3.nums 0 (index + len' - 1) = tmp' := by
          apply List.ext_getElem
          · rw [seg_length lk3.nums 0 (index + len' - 1) (by omega)
              (by omega), htl]
            omega
          · intro n h1' h2'
            rw [seg_length lk3.nums 0 (index + len' - 1) (by omega)
              (by omega)] at h1'
            rw [← List.getD_eq_getElem _ 0 (by
                rw [seg_length lk3.nums 0 (index + len' - 1) (by omega)
                  (by omega)]; omega),
              ← List.getD_eq_getElem tmp' 0 h2',
              seg_getD lk3.nums 0 (index + len' - 1) n (by omega)
                (by omega)]
            simp only [Nat.zero_add]
            exact hval3 n (by omega)
        have hdec3 := seg_decomp lk3.nums 0 (index + len' - 1) (by omega)
        have hdec2 := seg_decomp lk2.nums 0 (index + len' - 1) (by omega)
        have hdrop : lk3.nums.drop (index + len' - 1 + 1) =
            lk2.nums.drop (index + len' - 1 + 1) := by
          refine drop_eq_of_getD lk3.nums lk2.nums _ (by rw [w1]) ?_
          intro p hp1 hp2
          exact w2 p (Or.inr (by omega))
        have hseg2 : seg lk2.nums 0 (index + len' - 1) =
            lk2.nums.take (index + len') := by
          unfold seg
          rw [List.drop_zero, show index + len' - 1 + 1 - 0 = index + len'
            from by omega]
        have hperm32 : lk3.nums.Perm lk2.nums := by
          rw [hdec3, hdec2, hseg3, hdrop, hseg2]
          simp only [List.take_zero, List.nil_append]
          refine List.Perm.append_right _ ?_
          rw [m1]
          exact htake
        exact r1.trans ((hperm32.trans (by rw [m1])).trans b2)
      · rw [if_neg hguard]
        refine ⟨lk, rfl, List.Perm.refl _, sorted_of_adj _ ?_⟩
        intro i hi
        exact hpre i (by omega)

/-- `Sort::strand_sort` sorts. -/
theorem strand_sort_correct (lk : ArrayLock) (size : Nat)
    (hsz : lk.nums.length = size) :
    ∃ lk', strand_sort lk size = some lk' ∧
      lk'.nums.Perm lk.nums ∧ lk'.nums.Sorted (· ≤ ·) := by
  rw [strand_sort]
  exact strand_loop_run (size + 1) size 0 lk hsz (by omega) (by omega)
    (fun t ht => absurd ht (by omega))

/-!
### Counting sort: bucket decomposition
-/

theorem replicate_getD (B : Nat) : ∀ (k : Nat),
    (List.replicate B (0 : Nat)).getD k 0 = 0 := by
  induction B with
  | zero => intro k; rfl
  | succ b ih =>
      intro k
      rw [List.replicate_succ]
      match k with
      | 0 => rfl
      | k + 1 => exact ih k

theorem countP_lt_succ (t : Nat → Nat) (k : Nat) (l : List Nat) :
    l.countP (fun v => decide (t (v - 1) < k + 1)) =
      l.countP (fun v => decide (t (v - 1) < k)) +
      l.countP (fun v => decide (t (v - 1) = k)) := by
  induction l with
  | nil => rfl
  | cons v rest ih =>
      simp only [List.countP_cons, ih]
      by_cases h1 : t (v - 1) < k
      · rw [if_pos (by simpa using Nat.lt_succ_of_lt h1),
          if_pos (by simpa using h1), if_neg (by simp; omega)]
        omega
      · by_cases h2 : t (v - 1) = k
        · rw [if_pos (by simp; omega), if_neg (by simpa using h1),
            if_pos (by simpa using h2)]
          omega
        · rw [if_neg (by simp; omega), if_neg (by simpa using h1),
            if_neg (by simpa using h2)]
          omega

/-- Partial sums of the bucket counters, `keys[0] + ... + keys[k]`. -/
def psum (keys : List Nat) : Nat → Nat
  | 0 => keys.getD 0 0
  | k + 1 => psum keys k + keys.getD (k + 1) 0

/-- The concatenation `bucket 0 ++ bucket 1 ++ ... ++ bucket (B-1)` of the
key-classes of `l`, which is what the placement loop of `counting_sort`
produces. -/
def buckets_conc (t : Nat → Nat) (l : List Nat) : Nat → List Nat
  | 0 => []
  | k + 1 => buckets_conc t l k ++
      l.filter (fun v => decide (t (v - 1) = k))

theorem buckets_conc_length (t : Nat → Nat) (l : List Nat) : ∀ (B : Nat),
    (buckets_conc t l B).length =
      l.countP (fun v => decide (t (v - 1) < B)) := by
  intro B
  induction B with
  | zero =>
      rw [buckets_conc]
      simp [List.countP_eq_length_filter]
  | succ b ih =>
      rw [buckets_conc, List.length_append, ih, countP_lt_succ,
        List.countP_eq_length_filter, List.countP_eq_length_filter]

theorem buckets_conc_mem (t : Nat → Nat) (l : List Nat) : ∀ (B : Nat)
    (v : Nat), v ∈ buckets_conc t l B → v ∈ l ∧ t (v - 1) < B := by
  intro B
  induction B with
  | zero => intro v hv; exact absurd hv (List.not_mem_nil v)
  | succ b ih =>
      intro v hv
      rw [buckets_conc, List.mem_append] at hv
      rcases hv with hv | hv
      · obtain ⟨h1, h2⟩ := ih v hv
        exact ⟨h1, by omega⟩
      · rw [List.mem_filter, decide_eq_true_eq] at hv
        exact ⟨hv.1, by omega⟩

theorem buckets_conc_getD (t : Nat → Nat) (l : List Nat) : ∀ (B k r : Nat),
    k < B → r < l.countP (fun v => decide (t (v - 1) = k)) →
    (buckets_conc t l B).getD
        (l.countP (fun v => decide (t (v - 1) < k)) + r) 0 =
      (l.filter (fun v => decide (t (v - 1) = k))).getD r 0 := by
  intro B
  induction B with
  | zero => intro k r hk _; omega
  | succ b ih =>
      intro k r hk hr
      rw [buckets_conc]
      by_cases hkb : k < b
      · rw [List.getD_append]
        · exact ih k r hkb hr
        · rw [buckets_conc_length]
          calc l.countP (fun v => decide (t (v - 1) < k)) + r
              < l.countP (fun v => decide (t (v - 1) < k)) +
                l.countP (fun v => decide (t (v - 1) = k)) := by omega
            _ = l.countP (fun v => decide (t (v - 1) < k + 1)) :=
                (countP_lt_succ t k l).symm
            _ ≤ l.countP (fun v => decide (t (v - 1) < b)) := by
                refine List.countP_mono_left ?_
                intro a _ ha
                simp only [decide_eq_true_eq] at ha ⊢
                omega
      · have hkb' : k = b := by omega
        subst hkb'
        have hL : (buckets_conc t l k).length =
            l.countP (fun v => decide (t (v - 1) < k)) :=
          buckets_conc_length t l k
        have hRlen : (l.filter (fun v => decide (t (v - 1) = k))).length =
            l.countP (fun v => decide (t (v - 1) = k)) :=
          (List.countP_eq_length_filter _ _).symm
        rw [List.getD_eq_getElem _ _ (by
            rw [List.length_append, hL, hRlen]; omega),
          List.getD_eq_getElem _ _ (by rw [hRlen]; omega),
          List.getElem_append_right (by omega)]
        congr 1
        omega

theorem buckets_conc_cons_ge (t : Nat → Nat) (v : Nat) (l : List Nat) :
    ∀ (B : Nat), B ≤ t (v - 1) →
    buckets_conc t (v :: l) B = buckets_conc t l B := by
  intro B
  induction B with
  | zero => intro _; rfl
  | succ b ih =>
      intro hB
      rw [buckets_conc, buckets_conc, ih (by omega),
        List.filter_cons_of_neg (by simp; omega)]

theorem buckets_conc_cons_perm (t : Nat → Nat) (v : Nat) (l : List Nat) :
    ∀ (B : Nat), t (v - 1) < B →
    (buckets_conc t (v :: l) B).Perm (v :: buckets_conc t l B) := by
  intro B
  induction B with
  | zero => intro h; omega
  | succ b ih =>
      intro hB
      rw [buckets_conc, buckets_conc]
      by_cases hvb : t (v - 1) = b
      · rw [buckets_conc_cons_ge t v l b (by omega),
          List.filter_cons_of_pos (by simpa using hvb)]
        exact List.perm_middle
      · rw [List.filter_cons_of_neg (by simpa using hvb)]
        refine ((ih (by omega)).append_right _).trans ?_
        rw [List.cons_append]

theorem buckets_conc_nil (t : Nat → Nat) : ∀ (B : Nat),
    buckets_conc t [] B = [] := by
  intro B
  induction B with
  | zero => rfl
  | succ b ih => rw [buckets_conc, ih, List.filter_nil, List.nil_append]

theorem buckets_conc_perm (t : Nat → Nat) : ∀ (l : List Nat) (B : Nat),
    (∀ v ∈ l, t (v - 1) < B) → (buckets_conc t l B).Perm l := by
  intro l
  induction l with
  | nil =>
      intro B _
      rw [buckets_conc_nil]
  | cons v rest ih =>
      intro B hB
      refine (buckets_conc_cons_perm t v rest B
        (hB v (List.mem_cons_self v rest))).trans ?_
      exact (ih B (fun w hw => hB w (List.mem_cons_of_mem v hw))).cons v

theorem buckets_conc_pairwise (t : Nat → Nat) (l : List Nat)
    (S : Nat → Nat → Prop) (hS : l.Pairwise S) : ∀ (B : Nat),
    (buckets_conc t l B).Pairwise
      (fun a b => t (a - 1) < t (b - 1) ∨ (t (a - 1) = t (b - 1) ∧ S a b)) := by
  intro B
  induction B with
  | zero => exact List.Pairwise.nil
  | succ b ih =>
      rw [buckets_conc]
      refine List.pairwise_append.mpr ⟨ih, ?_, ?_⟩
      · -- within the bucket: equal keys, `S` inherited from `l`
        have hsub : (l.filter (fun v => decide (t (v - 1) = b))).Pairwise S :=
          hS.sublist (List.filter_sublist l)
        refine List.pairwise_iff_getElem.mpr ?_
        intro i j hi hj hij
        have hmi := List.getElem_mem hi
        have hmj := List.getElem_mem hj
        rw [List.mem_filter, decide_eq_true_eq] at hmi hmj
        refine Or.inr ⟨by rw [hmi.2, hmj.2], ?_⟩
        exact List.pairwise_iff_getElem.mp hsub i j hi hj hij
      · intro a ha c hc
        obtain ⟨-, hak⟩ := buckets_conc_mem t l b a ha
        rw [List.mem_filter, decide_eq_true_eq] at hc
        exact Or.inl (by omega)


theorem psum_count (t : Nat → Nat) (l : List Nat) (keys0 : List Nat)
    (h : ∀ j, j < keys0.length → keys0.getD j 0 =
      l.countP (fun v => decide (t (v - 1) = j))) :
    ∀ k, k < keys0.length →
      psum keys0 k = l.countP (fun v => decide (t (v - 1) < k + 1)) := by
  intro k
  induction k with
  | zero =>
      intro hk
      rw [psum, h 0 hk, countP_lt_succ t 0 l]
      have h0 : l.countP (fun v => decide (t (v - 1) < 0)) = 0 := by simp
      omega
  | succ kk ih =>
      intro hk
      rw [psum, ih (by omega), h (kk + 1) hk, countP_lt_succ t (kk + 1) l]

theorem exists_bucket (t : Nat → Nat) (l : List Nat) : ∀ (B p : Nat),
    p < l.countP (fun v => decide (t (v - 1) < B)) →
    ∃ k, k < B ∧ l.countP (fun v => decide (t (v - 1) < k)) ≤ p ∧
      p < l.countP (fun v => decide (t (v - 1) < k)) +
        l.countP (fun v => decide (t (v - 1) = k)) := by
  intro B
  induction B with
  | zero =>
      intro p hp
      simp at hp
  | succ b ih =>
      intro p hp
      by_cases hpb : p < l.countP (fun v => decide (t (v - 1) < b))
      · obtain ⟨k, h1, h2, h3⟩ := ih p hpb
        exact ⟨k, by omega, h2, h3⟩
      · refine ⟨b, by omega, by omega, ?_⟩
        rw [countP_lt_succ] at hp
        omega

theorem counting_read_run (cnt : Nat) : ∀ (i : Nat) (keys vals : List Nat)
    (t : Nat → Nat) (lk : ArrayLock),
    i + cnt = lk.nums.length →
    (∀ p, i ≤ p → p < lk.nums.length → 1 ≤ lk.nums.getD p 0) →
    (∀ p, i ≤ p → p < lk.nums.length →
      t (lk.nums.getD p 0 - 1) < keys.length) →
    ∃ keys' lk', counting_read cnt i keys vals t lk =
        some (keys', vals ++ lk.nums.drop i, lk') ∧
      lk'.nums = lk.nums ∧ keys'.length = keys.length ∧
      (∀ k, k < keys.length → keys'.getD k 0 = keys.getD k 0 +
        (lk.nums.drop i).countP (fun v => decide (t (v - 1) = k))) := by
  induction cnt with
  | zero =>
      intro i keys vals t lk hlen h1 h2
      have hd : lk.nums.drop i = [] := by
        apply List.drop_eq_nil_of_le
        omega
      rw [hd, List.append_nil]
      exact ⟨keys, lk, rfl, rfl, rfl, fun k hk => by simp⟩
  | succ c ih =>
      intro i keys vals t lk hlen h1 h2
      rw [counting_read]
      obtain ⟨lkg, hget, hng⟩ := ArrayLock.get_nums lk i (by omega)
      rw [hget]
      simp only [Option.bind_eq_bind, Option.some_bind]
      have hv1 : 1 ≤ lk.nums.getD i 0 := h1 i le_rfl (by omega)
      rw [if_neg (by omega)]
      have hkidx : t (lk.nums.getD i 0 - 1) < keys.length :=
        h2 i le_rfl (by omega)
      have hstep : (match keys[t (lk.nums.getD i 0 - 1)]? with
          | some k => counting_read c (i + 1)
              (keys.set (t (lk.nums.getD i 0 - 1)) (k + 1))
              (vals ++ [lk.nums.getD i 0]) t lkg
          | _ => Option.none) = counting_read c (i + 1)
            (keys.set (t (lk.nums.getD i 0 - 1))
              (keys.getD (t (lk.nums.getD i 0 - 1)) 0 + 1))
            (vals ++ [lk.nums.getD i 0]) t lkg := by
        rw [List.getElem?_eq_getElem hkidx,
          List.getD_eq_getElem _ _ hkidx]
      rw [hstep]
      obtain ⟨keys', lk', hrec, r1, r2, r3⟩ := ih (i + 1)
        (keys.set (t (lk.nums.getD i 0 - 1))
          (keys.getD (t (lk.nums.getD i 0 - 1)) 0 + 1))
        (vals ++ [lk.nums.getD i 0]) t lkg
        (by rw [hng]; omega)
        (by
          intro p hp1 hp2
          rw [hng] at hp2 ⊢
          exact h1 p (by omega) hp2)
        (by
          intro p hp1 hp2
          rw [hng] at hp2 ⊢
          simp only [List.length_set]
          exact h2 p (by omega) hp2)
      have hvals : (vals ++ [lk.nums.getD i 0]) ++ lkg.nums.drop (i + 1) =
          vals ++ lk.nums.drop i := by
        rw [hng, List.append_assoc, List.singleton_append]
        congr 1
        rw [List.getD_eq_getElem _ _ (by omega)]
        exact (List.drop_eq_getElem_cons (by omega)).symm
      rw [hvals] at hrec
      refine ⟨keys', lk', hrec, by rw [r1, hng], by rw [r2, List.length_set],
        ?_⟩
      intro k hk
      have hdropc : lk.nums.drop i = lk.nums.getD i 0 ::
          lk.nums.drop (i + 1) := by
        rw [List.getD_eq_getElem _ _ (by omega)]
        exact List.drop_eq_getElem_cons (by omega)
      have r3' := r3 k (by rw [List.length_set]; exact hk)
      rw [hng] at r3'
      by_cases hke : t (lk.nums.getD i 0 - 1) = k
      · rw [r3', hke, getD_set_eq _ _ _ (by rw [← hke]; exact hkidx),
          hdropc, List.countP_cons]
        simp only [decide_eq_true_eq]
        rw [if_pos hke]
        omega
      · rw [r3', getD_set_ne _ _ _ _ hke, hdropc, List.countP_cons]
        simp only [decide_eq_true_eq]
        rw [if_neg hke]
        omega

theorem counting_read_fail (cnt : Nat) : ∀ (i : Nat) (keys vals : List Nat)
    (t : Nat → Nat) (lk : ArrayLock),
    i + cnt = lk.nums.length →
    (∃ p, i ≤ p ∧ p < lk.nums.length ∧ (lk.nums.getD p 0 = 0 ∨
      keys.length ≤ t (lk.nums.getD p 0 - 1))) →
    counting_read cnt i keys vals t lk = Option.none := by
  induction cnt with
  | zero =>
      intro i keys vals t lk hlen ⟨p, hp1, hp2, _⟩
      omega
  | succ c ih =>
      intro i keys vals t lk hlen ⟨p, hp1, hp2, hpbad⟩
      rw [counting_read]
      obtain ⟨lkg, hget, hng⟩ := ArrayLock.get_nums lk i (by omega)
      rw [hget]
      simp only [Option.bind_eq_bind, Option.some_bind]
      by_cases hv0 : lk.nums.getD i 0 = 0
      · rw [if_pos hv0]
      · rw [if_neg hv0]
        by_cases hkbad : keys.length ≤ t (lk.nums.getD i 0 - 1)
        · rw [List.getElem?_eq_none hkbad]
        · push_neg at hkbad
          have hstep : (match keys[t (lk.nums.getD i 0 - 1)]? with
              | some k => counting_read c (i + 1)
                  (keys.set (t (lk.nums.getD i 0 - 1)) (k + 1))
                  (vals ++ [lk.nums.getD i 0]) t lkg
              | _ => Option.none) = counting_read c (i + 1)
                (keys.set (t (lk.nums.getD i 0 - 1))
                  (keys.getD (t (lk.nums.getD i 0 - 1)) 0 + 1))
                (vals ++ [lk.nums.getD i 0]) t lkg := by
            rw [List.getElem?_eq_getElem hkbad,
              List.getD_eq_getElem _ _ hkbad]
          rw [hstep]
          refine ih (i + 1) _ _ t lkg (by rw [hng]; omega) ?_
          refine ⟨p, ?_, by rw [hng]; exact hp2, ?_⟩
          · -- `p` cannot be `i`, whose value passed both checks
            rcases hpbad with hb | hb
            · have : p ≠ i := fun he => hv0 (by rw [← he]; exact hb)
              omega
            · have : p ≠ i := fun he => by
                rw [he] at hb
                omega
              omega
          · rw [hng, List.length_set]
            exact hpbad

theorem counting_sums_run (cnt : Nat) : ∀ (i : Nat) (keys keys0 : List Nat),
    i + cnt = keys.length → 1 ≤ i → keys.length = keys0.length →
    (∀ j, j < i → j < keys.length → keys.getD j 0 = psum keys0 j) →
    (∀ j, i ≤ j → j < keys.length → keys.getD j 0 = keys0.getD j 0) →
    ∃ keys', counting_sums cnt i keys = some keys' ∧
      keys'.length = keys.length ∧
      (∀ j, j < keys.length → keys'.getD j 0 = psum keys0 j) := by
  induction cnt with
  | zero =>
      intro i keys keys0 hlen hi hk0 hdone htodo
      exact ⟨keys, rfl, rfl, fun j hj => hdone j (by omega) hj⟩
  | succ c ih =>
      intro i keys keys0 hlen hi hk0 hdone htodo
      rw [counting_sums]
      have hii : i < keys.length := by omega
      have hi1 : i - 1 < keys.length := by omega
      have hstep : (match keys[i]?, keys[i - 1]? with
          | some a, some b => counting_sums c (i + 1) (keys.set i (a + b))
          | _, _ => Option.none) = counting_sums c (i + 1)
            (keys.set i (keys.getD i 0 + keys.getD (i - 1) 0)) := by
        rw [List.getElem?_eq_getElem hii, List.getElem?_eq_getElem hi1,
          List.getD_eq_getElem _ _ hii, List.getD_eq_getElem _ _ hi1]
      rw [hstep]
      have hval : keys.getD i 0 + keys.getD (i - 1) 0 = psum keys0 i := by
        rw [htodo i le_rfl hii, hdone (i - 1) (by omega) hi1]
        rw [show i = (i - 1) + 1 from by omega, psum]
        rw [show i - 1 + 1 - 1 = i - 1 from by omega]
        omega
      obtain ⟨keys', hrec, r1, r2⟩ := ih (i + 1)
        (keys.set i (keys.getD i 0 + keys.getD (i - 1) 0)) keys0
        (by rw [List.length_set]; omega) (by omega)
        (by rw [List.length_set]; exact hk0)
        (by
          intro j hj hjl
          rw [List.length_set] at hjl
          by_cases hji : j = i
          · rw [hji, getD_set_eq _ _ _ hii, hval]
          · rw [getD_set_ne _ _ _ _ (fun he => hji he.symm)]
            exact hdone j (by omega) hjl)
        (by
          intro j hj hjl
          rw [List.length_set] at hjl
          rw [getD_set_ne _ _ _ _ (by omega)]
          exact htodo j (by omega) hjl)
      exact ⟨keys', hrec, by rw [r1, List.length_set],
        fun j hj => r2 j (by rw [List.length_set]; exact hj)⟩

theorem counting_place_run (m : Nat) : ∀ (keys : List Nat)
    (t : Nat → Nat) (lk : ArrayLock) (l : List Nat),
    m ≤ l.length → lk.nums.length = l.length →
    (∀ v ∈ l, 1 ≤ v) → (∀ v ∈ l, t (v - 1) < keys.length) →
    (∀ k, k < keys.length → keys.getD k 0 =
      l.countP (fun v => decide (t (v - 1) < k)) +
      (l.take m).countP (fun v => decide (t (v - 1) = k))) →
    (∀ k r, k < keys.length →
      (l.take m).countP (fun v => decide (t (v - 1) = k)) ≤ r →
      r < l.countP (fun v => decide (t (v - 1) = k)) →
      lk.nums.getD (l.countP (fun v => decide (t (v - 1) < k)) + r) 0 =
        (l.filter (fun v => decide (t (v - 1) = k))).getD r 0) →
    ∃ lk', counting_place ((l.take m).reverse) keys t lk = some lk' ∧
      lk'.nums.length = l.length ∧
      (∀ k r, k < keys.length →
        r < l.countP (fun v => decide (t (v - 1) = k)) →
        lk'.nums.getD (l.countP (fun v => decide (t (v - 1) < k)) + r) 0 =
          (l.filter (fun v => decide (t (v - 1) = k))).getD r 0) := by
  induction m with
  | zero =>
      intro keys t lk l hm hlen hv ht hkeys hinv
      rw [List.take_zero, List.reverse_nil]
      exact ⟨lk, rfl, hlen, fun k r hk hr =>
        hinv k r hk (by simp) hr⟩
  | succ mm ih =>
      intro keys t lk l hm hlen hv ht hkeys hinv
      have hmm : mm < l.length := by omega
      have hvm : l.getD mm 0 ∈ l := by
        rw [List.getD_eq_getElem _ _ hmm]
        exact List.getElem_mem hmm
      have htake : (l.take (mm + 1)).reverse =
          l.getD mm 0 :: (l.take mm).reverse := by
        rw [List.take_succ, List.getElem?_eq_getElem hmm,
          List.getD_eq_getElem _ _ hmm]
        simp [List.reverse_append]
      have hsplit : ∀ (q : Nat → Bool), (l.take (mm + 1)).countP q =
          (l.take mm).countP q + (if q (l.getD mm 0) then 1 else 0) := by
        intro q
        rw [List.take_succ, List.getElem?_eq_getElem hmm,
          List.countP_append, List.getD_eq_getElem _ _ hmm]
        simp [List.countP_cons]
      rw [htake, counting_place]
      have hv1 : 1 ≤ l.getD mm 0 := hv _ hvm
      rw [if_neg (by omega)]
      have hkidx : t (l.getD mm 0 - 1) < keys.length := ht _ hvm
      -- abbreviations
      have hcnt1 : (l.take (mm + 1)).countP
          (fun v => decide (t (v - 1) = t (l.getD mm 0 - 1))) =
          (l.take mm).countP
            (fun v => decide (t (v - 1) = t (l.getD mm 0 - 1))) + 1 := by
        rw [hsplit]
        simp
      have hcntle : (l.take (mm + 1)).countP
          (fun v => decide (t (v - 1) = t (l.getD mm 0 - 1))) ≤
          l.countP (fun v => decide (t (v - 1) = t (l.getD mm 0 - 1))) :=
        (List.take_sublist (mm + 1) l).countP_le _
      have hkval := hkeys (t (l.getD mm 0 - 1)) hkidx
      have hkpos : 1 ≤ keys.getD (t (l.getD mm 0 - 1)) 0 := by omega
      have hstep : (match keys[t (l.getD mm 0 - 1)]? with
          | some k =>
              if k = 0 then Option.none else do
                let lk ← lk.set (k - 1) (l.getD mm 0)
                counting_place ((l.take mm).reverse)
                  (keys.set (t (l.getD mm 0 - 1)) (k - 1)) t lk
          | _ => Option.none) =
          (if keys.getD (t (l.getD mm 0 - 1)) 0 = 0 then Option.none else do
            let lk ← lk.set (keys.getD (t (l.getD mm 0 - 1)) 0 - 1)
              (l.getD mm 0)
            counting_place ((l.take mm).reverse)
              (keys.set (t (l.getD mm 0 - 1))
                (keys.getD (t (l.getD mm 0 - 1)) 0 - 1)) t lk) := by
        rw [List.getElem?_eq_getElem hkidx,
          List.getD_eq_getElem _ _ hkidx]
      rw [hstep, if_neg (by omega)]
      -- the write position
      have hpos : keys.getD (t (l.getD mm 0 - 1)) 0 - 1 =
          l.countP (fun v => decide (t (v - 1) < t (l.getD mm 0 - 1))) +
          (l.take mm).countP
            (fun v => decide (t (v - 1) = t (l.getD mm 0 - 1))) := by
        rw [hkval, hcnt1]
        omega
      have hposlt : (l.take mm).countP
          (fun v => decide (t (v - 1) = t (l.getD mm 0 - 1))) <
          l.countP (fun v => decide (t (v - 1) = t (l.getD mm 0 - 1))) := by
        omega
      have hposbound :
          l.countP (fun v => decide (t (v - 1) < t (l.getD mm 0 - 1))) +
          (l.take mm).countP
            (fun v => decide (t (v - 1) = t (l.getD mm 0 - 1))) <
          l.length := by
        have := countP_lt_succ t (t (l.getD mm 0 - 1)) l
        have hle := List.countP_le_length
          (p := fun v => decide (t (v - 1) < t (l.getD mm 0 - 1) + 1))
          (l := l)
        omega
      obtain ⟨lk2, hset, hn2⟩ := ArrayLock.set_nums lk
        (keys.getD (t (l.getD mm 0 - 1)) 0 - 1) (l.getD mm 0)
        (by rw [hlen, hpos]; exact hposbound)
      rw [hset]
      simp only [Option.bind_eq_bind, Option.some_bind]
      -- the value written is the next element of its bucket
      have hmid : ∀ (A B : List Nat) (x : Nat),
          (A ++ x :: B).getD A.length 0 = x := by
        intro A B x
        rw [List.getD_eq_getElem _ _ (by simp)]
        rw [List.getElem_append_right (le_refl A.length)]
        simp
      have hfval : (l.filter
          (fun v => decide (t (v - 1) = t (l.getD mm 0 - 1)))).getD
            ((l.take mm).countP
              (fun v => decide (t (v - 1) = t (l.getD mm 0 - 1)))) 0 =
          l.getD mm 0 := by
        have hdec : l = l.take mm ++ l.getD mm 0 :: l.drop (mm + 1) := by
          rw [List.getD_eq_getElem _ _ hmm]
          rw [← List.drop_eq_getElem_cons (by omega)]
          exact (List.take_append_drop mm l).symm
        have hsplitf : ∀ (q : Nat → Bool), q (l.getD mm 0) = true →
            l.filter q = (l.take mm).filter q ++
              l.getD mm 0 :: ((l.drop (mm + 1)).filter q) := by
          intro q hq
          conv_lhs => rw [hdec]
          rw [List.filter_append, List.filter_cons_of_pos hq]
        rw [hsplitf _ (by simp), List.countP_eq_length_filter]
        exact hmid _ _ _
      obtain ⟨lk', hrec, r1, r2⟩ := ih
        (keys.set (t (l.getD mm 0 - 1))
          (keys.getD (t (l.getD mm 0 - 1)) 0 - 1)) t lk2 l (by omega)
        (by rw [hn2]; simp [hlen])
        hv (fun v hvmem => by rw [List.length_set]; exact ht v hvmem)
        (by
          intro k hk
          rw [List.length_set] at hk
          by_cases hke : k = t (l.getD mm 0 - 1)
          · rw [hke, getD_set_eq _ _ _ hkidx, hpos]
          · rw [getD_set_ne _ _ _ _ (fun he => hke he.symm)]
            rw [hkeys k hk, hsplit]
            simp only [decide_eq_true_eq]
            rw [if_neg (fun he => hke he.symm)]
            omega)
        (by
          intro k r hk hr1 hr2
          rw [List.length_set] at hk
          rw [hn2]
          by_cases hke : k = t (l.getD mm 0 - 1)
          · subst hke
            by_cases hrm : r = (l.take mm).countP
                (fun v => decide (t (v - 1) = t (l.getD mm 0 - 1)))
            · rw [hrm, hpos, getD_set_eq _ _ _ (by
                rw [hlen]; exact hposbound)]
              exact hfval.symm
            · rw [getD_set_ne _ _ _ _ (by rw [hpos]; omega)]
              refine hinv _ r hk ?_ hr2
              omega
          · rw [getD_set_ne _ _ _ _ (by
                rw [hpos]
                rcases Nat.lt_or_ge k (t (l.getD mm 0 - 1)) with hlt | hge
                · have hmono : l.countP
                      (fun v => decide (t (v - 1) < k + 1)) ≤
                      l.countP (fun v => decide
                        (t (v - 1) < t (l.getD mm 0 - 1))) := by
                    refine List.countP_mono_left ?_
                    intro a _ ha
                    simp only [decide_eq_true_eq] at ha ⊢
                    omega
                  have hsum := countP_lt_succ t k l
                  omega
                · have hgt : t (l.getD mm 0 - 1) < k := by omega
                  have hmono : l.countP (fun v => decide
                      (t (v - 1) < t (l.getD mm 0 - 1) + 1)) ≤
                      l.countP (fun v => decide (t (v - 1) < k)) := by
                    refine List.countP_mono_left ?_
                    intro a _ ha
                    simp only [decide_eq_true_eq] at ha ⊢
                    omega
                  have hsum := countP_lt_succ t (t (l.getD mm 0 - 1)) l
                  omega)]
            refine hinv k r hk ?_ hr2
            have hsame : (l.take (mm + 1)).countP
                (fun v => decide (t (v - 1) = k)) =
                (l.take mm).countP (fun v => decide (t (v - 1) = k)) := by
              rw [hsplit]
              simp only [decide_eq_true_eq]
              rw [if_neg (fun he => hke he.symm)]
              omega
            omega)
      exact ⟨lk', hrec, r1, fun k r hk hr =>
        r2 k r (by rw [List.length_set]; exact hk) hr⟩

theorem counting_sort_run (lk : ArrayLock) (B : Nat) (t : Nat → Nat)
    (hB : 1 ≤ B) (hv : ∀ v ∈ lk.nums, 1 ≤ v)
    (ht : ∀ v ∈ lk.nums, t (v - 1) < B) :
    ∃ lk', counting_sort lk.nums.length B t lk = some lk' ∧
      lk'.nums = buckets_conc t lk.nums B := by
  have hmemD : ∀ p, p < lk.nums.length → lk.nums.getD p 0 ∈ lk.nums := by
    intro p hp
    rw [List.getD_eq_getElem _ _ hp]
    exact List.getElem_mem hp
  rw [counting_sort]
  obtain ⟨keys0, lkr, hread, hnr, hk0len, hk0⟩ :=
    counting_read_run lk.nums.length 0 (List.replicate B 0) [] t lk
      (by omega) (fun p _ hp => hv _ (hmemD p hp))
      (fun p _ hp => by
        rw [List.length_replicate]
        exact ht _ (hmemD p hp))
  rw [hread]
  simp only [Option.bind_eq_bind, Option.some_bind, List.nil_append,
    List.drop_zero]
  have hk0' : ∀ k, k < B → keys0.getD k 0 =
      lk.nums.countP (fun v => decide (t (v - 1) = k)) := by
    intro k hk
    have := hk0 k (by rw [List.length_replicate]; exact hk)
    rw [List.drop_zero, replicate_getD] at this
    omega
  have hk0len' : keys0.length = B := by rw [hk0len, List.length_replicate]
  obtain ⟨keys1, hsums, hk1len, hk1⟩ :=
    counting_sums_run (B - 1) 1 keys0 keys0 (by omega) le_rfl rfl
      (fun j hj hjl => by
        have hj0 : j = 0 := by omega
        rw [hj0]
        rfl)
      (fun j _ _ => rfl)
  rw [hsums]
  simp only [Option.bind_eq_bind, Option.some_bind]
  have hk1' : ∀ j, j < B → keys1.getD j 0 =
      lk.nums.countP (fun v => decide (t (v - 1) < j + 1)) := by
    intro j hj
    rw [hk1 j (by omega)]
    exact psum_count t lk.nums keys0
      (fun j2 hj2 => hk0' j2 (by omega)) j (by omega)
  have hplacearg : lk.nums.reverse = (lk.nums.take lk.nums.length).reverse :=
    by rw [List.take_length]
  rw [hplacearg]
  obtain ⟨lk2, hplace, hp1, hp2⟩ :=
    counting_place_run lk.nums.length keys1 t lkr lk.nums le_rfl
      (by rw [hnr]) hv
      (fun v hvm => by rw [hk1len, hk0len']; exact ht v hvm)
      (by
        intro k hk
        rw [hk1len, hk0len'] at hk
        rw [hk1' k hk, List.take_length, countP_lt_succ])
      (by
        intro k r hk h1 h2
        rw [List.take_length] at h1
        omega)
  rw [hplace]
  have hall : lk.nums.countP (fun v => decide (t (v - 1) < B)) =
      lk.nums.length :=
    List.countP_eq_length.mpr (fun a ha => by simpa using ht a ha)
  refine ⟨lk2, rfl, ?_⟩
  apply List.ext_getElem
  · rw [hp1, buckets_conc_length, hall]
  · intro n h1 h2
    rw [← List.getD_eq_getElem _ 0 h1, ← List.getD_eq_getElem _ 0 h2]
    rw [hp1] at h1
    obtain ⟨k, hkB, hle, hlt⟩ := exists_bucket t lk.nums B n
      (by rw [hall]; exact h1)
    have hn : n = lk.nums.countP (fun v => decide (t (v - 1) < k)) +
        (n - lk.nums.countP (fun v => decide (t (v - 1) < k))) := by omega
    rw [hn, hp2 k _ (by rw [hk1len, hk0len']; exact hkB) (by omega),
      buckets_conc_getD t lk.nums B k _ hkB (by omega)]

theorem counting_sort_correct (lk : ArrayLock) (size : Nat)
    (hsz : lk.nums.length = size) (hpos : 1 ≤ size)
    (hperm : lk.nums.Perm (List.range' 1 size)) :
    ∃ lk', counting_sort size size (fun x => x) lk = some lk' ∧
      lk'.nums.Perm lk.nums ∧ lk'.nums.Sorted (· ≤ ·) := by
  have hrange : ∀ v ∈ lk.nums, 1 ≤ v ∧ v ≤ size := by
    intro v hv
    have := hperm.subset hv
    rw [List.mem_range'_1] at this
    omega
  subst hsz
  obtain ⟨lk', hrun, hconc⟩ := counting_sort_run lk lk.nums.length
    (fun x => x) (by omega) (fun v hv => (hrange v hv).1)
    (fun v hv => by
      have := hrange v hv
      show v - 1 < lk.nums.length
      omega)
  refine ⟨lk', hrun, ?_, ?_⟩
  · rw [hconc]
    exact buckets_conc_perm _ lk.nums lk.nums.length
      (fun v hv => by have := hrange v hv; omega)
  · rw [hconc]
    have htriv : lk.nums.Pairwise (fun _ _ => True) :=
      List.pairwise_iff_getElem.mpr (fun i j hi hj hij => trivial)
    have hpw := buckets_conc_pairwise (fun x => x) lk.nums _ htriv
      lk.nums.length
    refine List.Pairwise.imp_of_mem ?_ hpw
    intro a b ha hb hab
    have ha1 := (hrange a (buckets_conc_mem _ _ _ a ha).1).1
    have hb1 := (hrange b (buckets_conc_mem _ _ _ b hb).1).1
    rcases hab with h | ⟨h, -⟩ <;> omega

theorem radix_loop_run (fuel : Nat) : ∀ (i size base : Nat)
    (lk : ArrayLock), lk.nums.length = size → 2 ≤ base → 1 ≤ i →
    size / i < fuel →
    (∀ v ∈ lk.nums, 1 ≤ v ∧ v ≤ size) →
    lk.nums.Pairwise (fun a b => (a - 1) % i ≤ (b - 1) % i) →
    ∃ lk', radix_loop fuel i size base lk = some lk' ∧
      lk'.nums.Perm lk.nums ∧ lk'.nums.Sorted (· ≤ ·) := by
  induction fuel with
  | zero =>
      intro i size base lk _ _ _ h _ _
      exact absurd h (Nat.not_lt_zero _)
  | succ f ih =>
      intro i size base lk hsz hbase hi hf hrange hpw
      rw [radix_loop]
      by_cases hguard : 0 < size / i
      · rw [if_pos hguard]
        obtain ⟨lk1, hrun, hconc⟩ := counting_sort_run lk base
          (fun x => (x / i) % base) (by omega)
          (fun v hv => (hrange v hv).1)
          (fun v _ => Nat.mod_lt _ (by omega))
        rw [hsz] at hrun
        rw [hrun]
        simp only [Option.bind_eq_bind, Option.some_bind]
        have hperm1 : lk1.nums.Perm lk.nums := by
          rw [hconc]
          exact buckets_conc_perm _ lk.nums base
            (fun v _ => Nat.mod_lt _ (by omega))
        have hpw1 : lk1.nums.Pairwise
            (fun a b => (a - 1) % (i * base) ≤ (b - 1) % (i * base)) := by
          rw [hconc]
          have := buckets_conc_pairwise (fun x => (x / i) % base) lk.nums
            _ hpw base
          refine this.imp ?_
          intro a b hab
          rw [Nat.mod_mul, Nat.mod_mul]
          have hma : (a - 1) % i < i := Nat.mod_lt _ (by omega)
          have hmb : (b - 1) % i < i := Nat.mod_lt _ (by omega)
          rcases hab with h | ⟨h, h2⟩
          · have hstep : i * ((a - 1) / i % base) + i ≤
                i * ((b - 1) / i % base) := by
              have := Nat.mul_le_mul_left i
                (show (a - 1) / i % base + 1 ≤ (b - 1) / i % base by omega)
              rw [Nat.mul_add, Nat.mul_one] at this
              omega
            omega
          · rw [h]
            omega
        obtain ⟨lk', hrec, hperm', hsort'⟩ := ih (i * base) size base lk1
          (by rw [hperm1.length_eq, hsz]) hbase
          (Nat.mul_pos (by omega) (by omega))
          (by
            have h1 : size / (i * base) < size / i := by
              rw [← Nat.div_div_eq_div_mul]
              exact Nat.div_lt_self hguard (by omega)
            exact Nat.lt_of_lt_of_le h1 (Nat.lt_succ_iff.mp hf))
          (fun v hv => hrange v (hperm1.subset hv)) hpw1
        exact ⟨lk', hrec, hperm'.trans hperm1, hsort'⟩
      · rw [if_neg hguard]
        refine ⟨lk, rfl, List.Perm.refl _, ?_⟩
        have hsize_i : size < i := by
          rcases Nat.lt_or_ge size i with h | h
          · exact h
          · exact absurd (Nat.div_pos h (by omega)) hguard
        refine List.Pairwise.imp_of_mem ?_ hpw
        intro a b ha hb hab
        have hra := hrange a ha
        have hrb := hrange b hb
        rw [Nat.mod_eq_of_lt (by omega), Nat.mod_eq_of_lt (by omega)] at hab
        omega

theorem radix_sort_correct (lk : ArrayLock) (size base : Nat)
    (hsz : lk.nums.length = size) (hbase : 2 ≤ base)
    (hperm : lk.nums.Perm (List.range' 1 size)) :
    ∃ lk', radix_sort size base lk = some lk' ∧
      lk'.nums.Perm lk.nums ∧ lk'.nums.Sorted (· ≤ ·) := by
  rw [radix_sort]
  refine radix_loop_run (size + 1) 1 size base lk hsz hbase le_rfl
    (by rw [Nat.div_one]; omega) ?_ ?_
  · intro v hv
    have := hperm.subset hv
    rw [List.mem_range'_1] at this
    omega
  · refine List.pairwise_iff_getElem.mpr ?_
    intro i j hi hj hij
    rw [Nat.mod_one, Nat.mod_one]

/-!
### The claim theorems C1, C9, C10
-/

/-- C1: for every algorithm variant in `Sort::VALUES` and every `N ≥ 1`,
running `Sort::sort` to completion (every gated call granted budget, no
`Kill` sent — the fuel arguments given by the dispatch suffice) on an array
holding any permutation of `1..=N` succeeds and leaves the array equal to
`1, 2, ..., N`, a strictly increasing (hence non-decreasing) sequence. -/
theorem all_sorts_correct (s : SortKind) (hs : s ∈ SortKind.VALUES)
    (N : Nat) (hN : 1 ≤ N) (lk : ArrayLock)
    (hperm : lk.nums.Perm (List.range' 1 N)) :
    ∃ lk', SortKind.sort s lk N = some lk' ∧
      lk'.nums = List.range' 1 N := by
  have hsz : lk.nums.length = N := by
    rw [hperm.length_eq, List.length_range']
  have hnd : lk.nums.Nodup :=
    hperm.nodup_iff.mpr (List.nodup_range' 1 N)
  have hfin : ∀ lk' : ArrayLock, lk'.nums.Perm lk.nums →
      lk'.nums.Sorted (· ≤ ·) → lk'.nums = List.range' 1 N :=
    fun lk' hp hso => sorted_perm_range' N _ (hp.trans hperm) hso
  cases s with
  | BubbleSort =>
      obtain ⟨lk', h, hp, hso⟩ := bubble_sort_correct lk N hsz
      exact ⟨lk', h, hfin lk' hp hso⟩
  | ShakerSort =>
      obtain ⟨lk', h, hp, hso⟩ := shaker_sort_correct lk N hsz
      exact ⟨lk', h, hfin lk' hp hso⟩
  | ExchangeSort =>
      obtain ⟨lk', h, hp, hso⟩ := exchange_sort_correct lk N hsz
      exact ⟨lk', h, hfin lk' hp hso⟩
  | CycleSort =>
      obtain ⟨lk', h, hp, hso⟩ := cycle_sort_correct lk N hsz hperm
      exact ⟨lk', h, hfin lk' hp hso⟩
  | CombSort =>
      obtain ⟨lk', h, hp, hso⟩ := comb_sort_correct lk N hsz
      exact ⟨lk', h, hfin lk' hp hso⟩
  | OddEvenSort =>
      obtain ⟨lk', h, hp, hso⟩ := odd_even_sort_correct lk N hsz
      exact ⟨lk', h, hfin lk' hp hso⟩
  | InsertionSort =>
      obtain ⟨lk', h, hp, hso⟩ := insertion_sort_correct lk N hsz
      exact ⟨lk', h, hfin lk' hp hso⟩
  | ShellSort =>
      obtain ⟨lk', h, hp, hso⟩ := shell_sort_correct lk N hsz
      exact ⟨lk', h, hfin lk' hp hso⟩
  | SelectionSort =>
      obtain ⟨lk', h, hp, hso⟩ := selection_sort_correct lk N hsz
      exact ⟨lk', h, hfin lk' hp hso⟩
  | DoubleSelectionSort =>
      obtain ⟨lk', h, hp, hso⟩ := double_selection_sort_correct lk N hsz
      exact ⟨lk', h, hfin lk' hp hso⟩
  | StrandSort =>
      obtain ⟨lk', h, hp, hso⟩ := strand_sort_correct lk N hsz
      exact ⟨lk', h, hfin lk' hp hso⟩
  | StoogeSort =>
      obtain ⟨lk', h, hp, hso⟩ := stooge_sort_correct lk N hsz hN
      exact ⟨lk', h, hfin lk' hp hso⟩
  | SlowSort =>
      obtain ⟨lk', h, hp, hso⟩ := slow_sort_correct lk N hsz hN
      exact ⟨lk', h, hfin lk' hp hso⟩
  | QuickSort =>
      obtain ⟨lk', h, hp, hso⟩ := quick_sort_correct lk N hsz hN hnd
      exact ⟨lk', h, hfin lk' hp hso⟩
  | MergeSort =>
      obtain ⟨lk', h, hp, hso⟩ := merge_sort_correct lk N hsz hN
      exact ⟨lk', h, hfin lk' hp hso⟩
  | HeapSort =>
      obtain ⟨lk', h, hp, hso⟩ := heap_sort_correct lk N hsz hN
      exact ⟨lk', h, hfin lk' hp hso⟩
  | CountingSort =>
      obtain ⟨lk', h, hp, hso⟩ := counting_sort_correct lk N hsz hN hperm
      exact ⟨lk', h, hfin lk' hp hso⟩
  | RadixSort10 =>
      obtain ⟨lk', h, hp, hso⟩ := radix_sort_correct lk N 10 hsz
        (by omega) hperm
      exact ⟨lk', h, hfin lk' hp hso⟩
  | RadixSort2 =>
      obtain ⟨lk', h, hp, hso⟩ := radix_sort_correct lk N 2 hsz
        (by omega) hperm
      exact ⟨lk', h, hfin lk' hp hso⟩

theorem all_sorts_correct_witness :
    SortKind.BubbleSort ∈ SortKind.VALUES ∧ 1 ≤ 3 ∧
      (mkLock [3, 1, 2]).nums.Perm (List.range' 1 3) ∧
      ∃ lk', SortKind.sort SortKind.BubbleSort (mkLock [3, 1, 2]) 3 =
          some lk' ∧ lk'.nums = List.range' 1 3 :=
  ⟨by decide, by decide, by decide,
    all_sorts_correct SortKind.BubbleSort (by decide) 3 (by decide)
      (mkLock [3, 1, 2]) (by decide)⟩

/-- C9: `quick_sort` terminates for every range `0 ≤ start ≤ end < size`
whenever the array's elements are pairwise distinct: the fuel
`end - start + 1` (one unit per element of the range, matching the depth
bound of the recursion) suffices for the fueled embedding to return
`some`, for any value of the unused rng argument. -/
theorem quick_sort_terminates (lk : ArrayLock) (size start end_ rng : Nat)
    (hsz : lk.nums.length = size) (hse : start ≤ end_) (hes : end_ < size)
    (hnd : lk.nums.Nodup) :
    ∃ lk', quick_sort (end_ - start + 1) start end_ rng lk = some lk' := by
  obtain ⟨lk', h, -, -, -, -⟩ := quick_sort_run (end_ - start + 1) start
    end_ rng lk (by omega) (by omega) hnd
  exact ⟨lk', h⟩

theorem quick_sort_terminates_witness :
    (mkLock [2, 1, 3]).nums.length = 3 ∧ 0 ≤ 2 ∧ 2 < 3 ∧
      (mkLock [2, 1, 3]).nums.Nodup ∧
      ∃ lk', quick_sort (2 - 0 + 1) 0 2 5 (mkLock [2, 1, 3]) = some lk' :=
  ⟨by decide, by decide, by decide, by decide,
    quick_sort_terminates (mkLock [2, 1, 3]) 3 0 2 5 (by decide)
      (by decide) (by decide) (by decide)⟩

/-- C10: for the `CountingSort` variant run on an array of size `N`
(`buckets = N`, identity transform), the sort is panic-free — every bucket
index is in range, no `v - 1` underflow, no bucket underflow — precisely
when every array value `v` satisfies `1 ≤ v ≤ N`; and under the documented
initial contents (a permutation of `1..=N`) that precondition always
holds, so the out-of-range branch is unreachable. -/
theorem counting_sort_panic_free (lk : ArrayLock) (N : Nat)
    (hsz : lk.nums.length = N) :
    ((counting_sort N N (fun x => x) lk).isSome ↔
      ∀ v ∈ lk.nums, 1 ≤ v ∧ v ≤ N) ∧
    (lk.nums.Perm (List.range' 1 N) → ∀ v ∈ lk.nums, 1 ≤ v ∧ v ≤ N) := by
  constructor
  · constructor
    · intro hsome
      by_contra hbad
      push_neg at hbad
      obtain ⟨v, hvmem, hvbad⟩ := hbad
      obtain ⟨p, hp, hpv⟩ := List.mem_iff_getElem.mp hvmem
      have hgd : lk.nums.getD p 0 = v := by
        rw [List.getD_eq_getElem _ _ hp, hpv]
      have hfail := counting_read_fail N 0 (List.replicate N 0) []
        (fun x => x) lk (by omega)
        ⟨p, by omega, by omega, by
          rw [hgd, List.length_replicate]
          show v = 0 ∨ N ≤ v - 1
          by_cases hv0 : v = 0
          · exact Or.inl hv0
          · refine Or.inr ?_
            have := hvbad (by omega)
            omega⟩
      rw [counting_sort, hfail] at hsome
      simp at hsome
    · intro hrange
      rcases Nat.eq_zero_or_pos N with hN0 | hNpos
      · subst hN0
        have hstep : counting_sort 0 0 (fun x => x) lk = some lk := rfl
        rw [hstep]
        rfl
      · subst hsz
        obtain ⟨lk', h, -⟩ := counting_sort_run lk lk.nums.length
          (fun x => x) hNpos (fun v hv => (hrange v hv).1)
          (fun v hv => by
            have := hrange v hv
            show v - 1 < lk.nums.length
            omega)
        rw [h]
        rfl
  · intro hp v hv
    have := hp.subset hv
    rw [List.mem_range'_1] at this
    omega

theorem counting_sort_panic_free_witness :
    (mkLock [2, 1]).nums.length = 2 ∧
    (((counting_sort 2 2 (fun x => x) (mkLock [2, 1])).isSome ↔
        ∀ v ∈ (mkLock [2, 1]).nums, 1 ≤ v ∧ v ≤ 2) ∧
      ((mkLock [2, 1]).nums.Perm (List.range' 1 2) →
        ∀ v ∈ (mkLock [2, 1]).nums, 1 ≤ v ∧ v ≤ 2)) :=
  ⟨by decide, counting_sort_panic_free (mkLock [2, 1]) 2 (by decide)⟩

end SortAnim
